import Mathlib

/-! Batcher's odd-even merge sort (`batcher_odd_even_sort.cpp`).

Shallow embedding of the comparator primitive, the three forms of the merge
(`oddEvenMerge_r1`, `oddEvenMerge_r2`, `oddEvenMerge_r3`), the four sort drivers
and the partner formula.

Conventions of the embedding.
* A buffer `int* a` is a `List Int` carrying its allocated extent; an access outside
  that extent is undefined behaviour in the source and `none` here.
* Indices, lengths and loop counters are `Nat`: every `int` of the source that holds
  one of them is non-negative, and integers are taken without a width (for buffer
  lengths below `2^30` no intermediate value of the source leaves the range of `int`).
  `x << 1` and `x >> 1` are `x <<< 1` and `x >>> 1` on `Nat`.  The partner formula, a
  function of three scalars that any caller may pass, is given on 32-bit integers as
  well (`oddEvenMergeSort_GetPartner32`), and shown to be the function on `Nat` on the
  lanes and coordinates of the drivers.
* The control flow of every driver is independent of the buffer contents: the only
  place where the buffer is read or written is a call `compare(a, i, j)`.  Each driver
  is therefore written once, over an arbitrary state `σ` and an arbitrary effect
  `cmp : σ → Nat → Nat → σ` of such a call.  Taking `σ = Option Buf` and `cmp = step`
  gives the run of the source on a buffer; taking `σ = List (Nat × Nat)` and
  `cmp = record` gives the sequence of `compare` calls it makes.
* A `for`/`while` loop of the source is `cfor init cond next body` with an iteration
  budget that the loop cannot exhaust.
-/

namespace Batcher

/-! ## Data model -/

/-- Buffer `int* a` together with its allocated extent. -/
abbrev Buf := List Int

/-- Comparator: the pair of indices of one `compare` call. -/
abbrev Comparator := Nat × Nat

/-- `void exchange(int* a, int i, int j)`. -/
def exchange (a : Buf) (i j : Nat) : Option Buf :=
  if h : i < a.length ∧ j < a.length then
    let t := a[i]
    let a1 := a.set i a[j]
    some (a1.set j t)
  else none

/-- `void compare(int* a, int i, int j)`. -/
def compare (a : Buf) (i j : Nat) : Option Buf :=
  if h : i < a.length ∧ j < a.length then
    if a[i] > a[j] then exchange a i j else some a
  else none

/-- Effect of a `compare(a, i, j)` call on a run that may already have left the buffer. -/
def step (s : Option Buf) (i j : Nat) : Option Buf :=
  s.bind (fun a => compare a i j)

/-- Effect of a `compare(a, i, j)` call on the log of calls. -/
def record (log : List Comparator) (i j : Nat) : List Comparator :=
  log ++ [(i, j)]

/-- Loop `for (i = init; cond i; i = next i) s = body s i`, with an iteration budget. -/
def cfor {σ : Type} (fuel : Nat) (init : Nat) (cond : Nat → Bool) (next : Nat → Nat)
    (body : σ → Nat → σ) (s : σ) : σ :=
  match fuel with
  | 0 => s
  | fuel + 1 =>
    if cond init then cfor fuel (next init) cond next body (body s init) else s

/-! ## The merge, three forms -/

/-- Recursion of `oddEvenMerge_r1`, with a budget for the recursion depth. -/
def oddEvenMerge_r1_go {σ : Type} (cmp : σ → Nat → Nat → σ) :
    Nat → σ → Nat → Nat → Nat → σ
  | 0, s, _, _, _ => s
  | fuel + 1, s, lo, n, r =>
    let m := r * 2
    if m ≥ n then
      cmp s lo (lo + r)
    else
      let s1 := oddEvenMerge_r1_go cmp fuel s lo n m
      let s2 := oddEvenMerge_r1_go cmp fuel s1 (lo + r) n m
      cfor n (lo + r) (fun i => i + r < lo + n) (fun i => i + m)
        (fun s i => cmp s i (i + r)) s2

/-- `void oddEvenMerge_r1(int* a, int lo, int n, int r)`.  The depth of the recursion is at
most `n + 1` for every stride `r ≥ 1` (for `n = 0` the one call is `compare(a, lo, lo + r)`). -/
def oddEvenMerge_r1 {σ : Type} (cmp : σ → Nat → Nat → σ) (s : σ) (lo n r : Nat) : σ :=
  oddEvenMerge_r1_go cmp (n + 1) s lo n r

/-- `void oddEvenMerge_r2(int* a, int s_lo, int n, int s_r)`. -/
def oddEvenMerge_r2 {σ : Type} (cmp : σ → Nat → Nat → σ) (s : σ) (s_lo n _s_r : Nat) : σ :=
  cfor n (n / 2) (fun r => r ≥ 1) (fun r => r >>> 1)
    (fun s r =>
      cfor r s_lo (fun lo => lo < s_lo + r) (fun lo => lo + 1)
        (fun s lo =>
          let m := r * 2
          if m ≥ n then
            cmp s lo (lo + r)
          else
            cfor n (lo + r) (fun i => i + r < lo + n) (fun i => i + m)
              (fun s i => cmp s i (i + r)) s)
        s)
    s

/-- `void oddEvenMerge_r3(int* a, int s_lo, int n, int s_r)`. -/
def oddEvenMerge_r3 {σ : Type} (cmp : σ → Nat → Nat → σ) (s : σ) (s_lo n _s_r : Nat) : σ :=
  let r := n >>> 1
  let s1 := cfor r s_lo (fun lo => lo < s_lo + r) (fun lo => lo + 1)
    (fun s lo => cmp s lo (lo + r)) s
  cfor n (r >>> 1) (fun r => r ≥ 1) (fun r => r >>> 1)
    (fun s r =>
      let m := r <<< 1
      cfor r s_lo (fun lo => lo < s_lo + r) (fun lo => lo + 1)
        (fun s lo =>
          cfor n (lo + r) (fun i => i + r < lo + n) (fun i => i + m)
            (fun s i => cmp s i (i + r)) s)
        s)
    s1

/-! ## The sort drivers -/

/-- Body of the `j` loop of `oddEvenMergeSort_Merge`: every block of width `j` is merged.
The merge called is a parameter: the source has the calls of `oddEvenMerge_r1`,
`oddEvenMerge_r2` and `oddEvenMerge_r3` side by side, the last one active. -/
def oddEvenMergeSort_Merge_stage {σ : Type} (merge : σ → Nat → Nat → Nat → σ)
    (s : σ) (n j : Nat) : σ :=
  cfor n 0 (fun k => k < n) (fun k => k + j) (fun s k => merge s k j 1) s

/-- `void oddEvenMergeSort_Merge(int* a, int n)`, over the merge it calls. -/
def oddEvenMergeSort_Merge_with {σ : Type} (merge : σ → Nat → Nat → Nat → σ)
    (s : σ) (n : Nat) : σ :=
  cfor n 2 (fun j => j ≤ n) (fun j => j <<< 1)
    (fun s j => oddEvenMergeSort_Merge_stage merge s n j) s

/-- `void oddEvenMergeSort_Merge(int* a, int n)` as compiled: on `oddEvenMerge_r3`. -/
def oddEvenMergeSort_Merge {σ : Type} (cmp : σ → Nat → Nat → σ) (s : σ) (n : Nat) : σ :=
  oddEvenMergeSort_Merge_with (oddEvenMerge_r3 cmp) s n

/-- Pass 0 of a stage of `oddEvenMergeSort_NCPasses_Branchless`: stride `r = j >> 1`. -/
def NCPasses_pass0 {σ : Type} (cmp : σ → Nat → Nat → σ) (s : σ) (n j r : Nat) : σ :=
  cfor n 0 (fun k => k < n) (fun k => k + j)
    (fun s k =>
      cfor r k (fun lo => lo < k + r) (fun lo => lo + 1)
        (fun s lo => cmp s lo (lo + r)) s)
    s

/-- One of the passes `1 .. log2(n)` of a stage of `oddEvenMergeSort_NCPasses_Branchless`. -/
def NCPasses_passR {σ : Type} (cmp : σ → Nat → Nat → σ) (s : σ) (n j r : Nat) : σ :=
  cfor n 0 (fun k => k < n) (fun k => k + j)
    (fun s k =>
      let m := r <<< 1
      cfor r k (fun lo => lo < k + r) (fun lo => lo + 1)
        (fun s lo =>
          cfor j (lo + r) (fun i => i + r < lo + j) (fun i => i + m)
            (fun s i => cmp s i (i + r)) s)
        s)
    s

/-- Body of the `j` loop of `oddEvenMergeSort_NCPasses_Branchless`. -/
def oddEvenMergeSort_NCPasses_Branchless_stage {σ : Type} (cmp : σ → Nat → Nat → σ)
    (s : σ) (n j : Nat) : σ :=
  let r := j >>> 1
  let s1 := NCPasses_pass0 cmp s n j r
  cfor j (r >>> 1) (fun r => r ≥ 1) (fun r => r >>> 1)
    (fun s r => NCPasses_passR cmp s n j r) s1

/-- `void oddEvenMergeSort_NCPasses_Branchless(int* a, int n)`. -/
def oddEvenMergeSort_NCPasses_Branchless {σ : Type} (cmp : σ → Nat → Nat → σ)
    (s : σ) (n : Nat) : σ :=
  cfor n 2 (fun j => j ≤ n) (fun j => j <<< 1)
    (fun s j => oddEvenMergeSort_NCPasses_Branchless_stage cmp s n j) s

/-- One pass (one value of `r`) of a stage of `oddEvenMergeSort_NCPasses_Branched`. -/
def NCPasses_Branched_pass {σ : Type} (cmp : σ → Nat → Nat → σ) (s : σ) (n j r : Nat) : σ :=
  cfor n 0 (fun k => k < n) (fun k => k + j)
    (fun s k =>
      cfor r k (fun lo => lo < k + r) (fun lo => lo + 1)
        (fun s lo =>
          if r = j >>> 1 then
            cmp s lo (lo + r)
          else
            let m := r <<< 1
            cfor j (lo + r) (fun i => i + r < lo + j) (fun i => i + m)
              (fun s i => cmp s i (i + r)) s)
        s)
    s

/-- Body of the `j` loop of `oddEvenMergeSort_NCPasses_Branched`. -/
def oddEvenMergeSort_NCPasses_Branched_stage {σ : Type} (cmp : σ → Nat → Nat → σ)
    (s : σ) (n j : Nat) : σ :=
  cfor j (j >>> 1) (fun r => r ≥ 1) (fun r => r >>> 1)
    (fun s r => NCPasses_Branched_pass cmp s n j r) s

/-- `void oddEvenMergeSort_NCPasses_Branched(int* a, int n)`. -/
def oddEvenMergeSort_NCPasses_Branched {σ : Type} (cmp : σ → Nat → Nat → σ)
    (s : σ) (n : Nat) : σ :=
  cfor n 2 (fun j => j ≤ n) (fun j => j <<< 1)
    (fun s j => oddEvenMergeSort_NCPasses_Branched_stage cmp s n j) s

/-! ## The partner formula and its drivers -/

/-- `unsigned int oddEvenMergeSort_GetPartner(int n, int l, int p)` on the natural numbers,
for the arguments that the sort drivers pass: a lane `0 ≤ n < 2^31` and a coordinate
`1 ≤ p ≤ l ≤ 30`, where no operation of the source leaves the range of `int`.  Outside that
range (`l ≥ 32`, `p > l`, a sum that overflows) the source is `oddEvenMergeSort_GetPartner32`,
on 32-bit integers, and the two differ. -/
def oddEvenMergeSort_GetPartner (n l p : Nat) : Nat :=
  if p = 1 then
    n ^^^ (1 <<< (l - 1))
  else
    let scale := 1 <<< (l - p)
    let box := 1 <<< p
    let nDivScale := n / scale
    let sn := nDivScale - (nDivScale / box) * box
    if sn = 0 ∨ sn = box - 1 then
      n
    else if sn &&& 1 = 0 then
      n - scale
    else
      n + scale

/-- Index of the highest set bit of `n`, found by halving; `0` for `n < 2`. -/
def bitScanReverse_go : Nat → Nat → Nat
  | 0, _ => 0
  | fuel + 1, n => if n ≥ 2 then bitScanReverse_go fuel (n / 2) + 1 else 0

/-- `_BitScanReverse(&d, _n)`: index of the highest set bit (left indeterminate by the
intrinsic for `_n = 0`, where this gives `0`). -/
def bitScanReverse (n : Nat) : Nat := bitScanReverse_go n n

/-- Body of one lane `n` at the coordinate `(l, p)`: the body of the innermost loop of
`oddEvenMergeSort_Partner` and the lambda of `oddEvenMergeSort_Partner_MT`. -/
def laneBody {σ : Type} (cmp : σ → Nat → Nat → σ) (l p : Nat) (s : σ) (n : Nat) : σ :=
  let partner := oddEvenMergeSort_GetPartner n l p
  if partner > n then cmp s n partner else s

/-- Lanes `0 .. _n - 1` of one coordinate, in ascending order. -/
def oddEvenMergeSort_Partner_coord {σ : Type} (cmp : σ → Nat → Nat → σ)
    (s : σ) (_n l p : Nat) : σ :=
  cfor _n 0 (fun n => n < _n) (fun n => n + 1) (laneBody cmp l p) s

/-- `void oddEvenMergeSort_Partner(int* a, unsigned int _n)`. -/
def oddEvenMergeSort_Partner {σ : Type} (cmp : σ → Nat → Nat → σ) (s : σ) (_n : Nat) : σ :=
  let d := bitScanReverse _n
  cfor d 1 (fun l => l ≤ d) (fun l => l + 1)
    (fun s l =>
      cfor l 1 (fun p => p ≤ l) (fun p => p + 1)
        (fun s p => oddEvenMergeSort_Partner_coord cmp s _n l p) s)
    s

/-- `void oddEvenMergeSort_Partner_MT(int* a, unsigned int _n)`: `parallel_for` runs the
lane bodies of a coordinate in an order of its choosing, here the order `sched l p`
(a list of lanes), and joins before the next coordinate. -/
def oddEvenMergeSort_Partner_MT {σ : Type} (sched : Nat → Nat → List Nat)
    (cmp : σ → Nat → Nat → σ) (s : σ) (_n : Nat) : σ :=
  let d := bitScanReverse _n
  cfor d 1 (fun l => l ≤ d) (fun l => l + 1)
    (fun s l =>
      cfor l 1 (fun p => p ≤ l) (fun p => p + 1)
        (fun s p => (sched l p).foldl (laneBody cmp l p) s) s)
    s

/-- The sortedness check of `main`: `v` runs over the buffer and must never decrease. -/
def isNonDecreasing (b : Buf) : Prop :=
  ∀ i, (h : i + 1 < b.length) → b[i] ≤ b[i + 1]

/-! ## Runs of a sequence of `compare` calls -/

/-- Run of a sequence of `compare` calls, one after the other. -/
def runNet {σ : Type} (cmp : σ → Nat → Nat → σ) (net : List Comparator) (s : σ) : σ :=
  net.foldl (fun s c => cmp s c.1 c.2) s

/-- A piece of driver code, written over the effect of `compare`, makes a fixed sequence of
`compare` calls. -/
def Traceable (P : (σ : Type) → (σ → Nat → Nat → σ) → σ → σ) : Prop :=
  ∃ L : List Comparator, ∀ (σ : Type) (cmp : σ → Nat → Nat → σ) (s : σ),
    P σ cmp s = runNet cmp L s

/-- The values of the loop variable for which `cfor` runs its body. -/
def cforIter (fuel : Nat) (init : Nat) (cond : Nat → Bool) (next : Nat → Nat) : List Nat :=
  match fuel with
  | 0 => []
  | fuel + 1 => if cond init then init :: cforIter fuel (next init) cond next else []

/-- Conditional exchange on a buffer seen as a function of the index, over any linear order:
`compare` without the extent. -/
def cmpF {α : Type} [LinearOrder α] (f : Nat → α) (i j : Nat) : Nat → α :=
  if f i > f j then fun x => if x = i then f j else if x = j then f i else f x else f

/-- Contents of a buffer as a function of the index. -/
def view (a : Buf) : Nat → Int := fun i => a.getD i 0

/-! ## Coordinates of a lane -/

/-- Position of lane `n` in its box at the coordinate `(l, p)`: `(n / 2^(l-p)) mod 2^p`. -/
def boxPos (n l p : Nat) : Nat := (n / 2 ^ (l - p)) % 2 ^ p

/-- Lane `n` is the lower end of a comparator of the coordinate `(l, p)`: in the pass of
stride `2^(l-1)` the lanes of the first half of a block, in the later passes the lanes at
an odd position of their box other than the last. -/
def isLow (n l p : Nat) : Prop :=
  if p = 1 then boxPos n l p = 0 else boxPos n l p % 2 = 1 ∧ boxPos n l p + 1 < 2 ^ p

instance instDecidableIsLow (n l p : Nat) : Decidable (isLow n l p) := by
  unfold isLow; infer_instance

/-- One pass applied at once: every lane takes the minimum with its partner when the partner
is above it, the maximum when the partner is below it. -/
def passF {α : Type} [LinearOrder α] (π : Nat → Nat) (f : Nat → α) (x : Nat) : α :=
  if x < π x then min (f x) (f (π x)) else if π x < x then max (f (π x)) (f x) else f x

/-- The `compare` calls of lane `n` at the coordinate `(l, p)`: one when the partner is
above the lane, none otherwise. -/
def laneCalls (l p n : Nat) : List Comparator :=
  if oddEvenMergeSort_GetPartner n l p > n then [(n, oddEvenMergeSort_GetPartner n l p)] else []

/-- Number of `i < z` with `i ≡ c (mod r)`, for `c < r`: the number of entries of a block
that starts with `z` zeros which fall to the class `c` of the stride `r`. -/
def cnt (z c r : Nat) : Nat := (z + r - 1 - c) / r

/-- Among the first `2^d` entries of a buffer of zeros and ones (`false`, `true`), every
aligned block of width `2^m` is sorted: block `b` is `z b` zeros followed by ones. -/
def BlocksSorted (d m : Nat) (z : Nat → Nat) (f : Nat → Bool) : Prop :=
  (∀ b, b < 2 ^ (d - m) → z b ≤ 2 ^ m) ∧
    ∀ b c, b < 2 ^ (d - m) → c < 2 ^ m → f (b * 2 ^ m + c) = decide (z b ≤ c)

/-- State of a buffer of zeros and ones inside stage `l`, after the pass `p`: in every block
of width `2^l`, every class of the stride `2^(l-p)` is sorted and holds the zeros that the two
sorted halves of the block, of `z (2B)` and `z (2B+1)` zeros, had in that class. -/
def PassState (d l p : Nat) (z : Nat → Nat) (g : Nat → Bool) : Prop :=
  ∀ B q c, B < 2 ^ (d - l) → q < 2 ^ p → c < 2 ^ (l - p) →
    g (B * 2 ^ l + q * 2 ^ (l - p) + c)
      = decide (cnt (z (2 * B)) c (2 ^ (l - p)) + cnt (z (2 * B + 1)) c (2 ^ (l - p)) ≤ q)

/-! ## The comparators of a coordinate -/

/-- Comparator `c` belongs to the coordinate `(l, p)` on the first `N` lanes: its lower end
is a lane below `N` that is the lower end of a comparator there, its upper end lies one
stride `2^(l-p)` above. -/
def IsComp (N l p : Nat) (c : Comparator) : Prop :=
  c.1 < N ∧ isLow c.1 l p ∧ c.2 = c.1 + 2 ^ (l - p)

/-- Comparator moved up by `k` lanes. -/
def shiftC (k : Nat) (c : Comparator) : Comparator := (k + c.1, k + c.2)

/-- Two comparators have no index in common. -/
def DisjointC (c c' : Comparator) : Prop :=
  c.1 ≠ c'.1 ∧ c.1 ≠ c'.2 ∧ c.2 ≠ c'.1 ∧ c.2 ≠ c'.2

/-- The comparators of distance `r` in a list of `compare` calls. -/
def atStride (r : Nat) (calls : List Comparator) : List Comparator :=
  calls.filter (fun c => c.2 = c.1 + r)

/-- Calls of the loop `for (lo = k; lo < k + r; lo++) compare(a, lo, lo + r)`. -/
def blockPass0 (k r : Nat) : List Comparator :=
  (List.range r).map (fun t => (k + t, k + t + r))

/-- Calls of the loop nest `for (lo = k; lo < k + r; lo++) for (i = lo + r; i + r < lo + j;
i += 2r) compare(a, i, i + r)`, whose inner loop runs `cnt` times. -/
def blockPassR (k r cnt : Nat) : List Comparator :=
  (List.range r).flatMap (fun t =>
    (List.range cnt).map (fun u => (k + t + r + u * (2 * r), k + t + r + u * (2 * r) + r)))

/-- Calls of the pass `p` of stage `l` inside the block of width `2^l` that starts at `k`. -/
def blockPass (k l p : Nat) : List Comparator :=
  if p = 1 then blockPass0 k (2 ^ (l - 1)) else blockPassR k (2 ^ (l - p)) (2 ^ (p - 1) - 1)

/-- Starts of the blocks of width `2^l` of a buffer of length `2^d`. -/
def blockStarts (d l : Nat) : List Nat :=
  (List.range (2 ^ (d - l))).map (fun B => B * 2 ^ l)

/-- Calls of the pass `p` of stage `l` on a buffer of length `2^d`, block after block. -/
def passList (d l p : Nat) : List Comparator :=
  (blockStarts d l).flatMap (fun k => blockPass k l p)

/-- Calls of stage `l` on a buffer of length `2^d`, pass after pass. -/
def stageList (d l : Nat) : List Comparator :=
  ((List.range l).map (fun t => t + 1)).flatMap (fun p => passList d l p)

/-- Calls of the merge of the block of width `2^l` that starts at `k`, pass after pass. -/
def blockMerge (k l : Nat) : List Comparator :=
  ((List.range l).map (fun t => t + 1)).flatMap (fun p => blockPass k l p)

/-- Calls of stage `l` of `oddEvenMergeSort_Merge` on a buffer of length `2^d`, block after
block. -/
def mergeStageList (d l : Nat) : List Comparator :=
  (blockStarts d l).flatMap (fun k => blockMerge k l)

/-- Calls of the recursive merge `oddEvenMerge_r1(a, lo, r * 2^k, r)`: the merge of the even
subsequence, the merge of the odd subsequence, the final comparators. -/
def r1List (lo r : Nat) : Nat → List Comparator
  | 0 => [(lo, lo + r)]
  | k + 1 =>
    if k = 0 then [(lo, lo + r)]
    else r1List lo (2 * r) k ++ r1List (lo + r) (2 * r) k
      ++ (List.range (2 ^ k - 1)).map (fun u => (lo + r + u * (2 * r), lo + r + u * (2 * r) + r))

/-- Calls of stage `l` of `oddEvenMergeSort_Merge` built on `oddEvenMerge_r1`. -/
def mergeStageList_r1 (d l : Nat) : List Comparator :=
  (blockStarts d l).flatMap (fun k => r1List k 1 l)

/-- Effect of a `compare(a, i, j)` call on a run that also counts the calls of `exchange`. -/
def stepCount (s : Option Buf × Nat) (i j : Nat) : Option Buf × Nat :=
  match s.1 with
  | none => (none, s.2)
  | some a =>
    if h : i < a.length ∧ j < a.length then
      if a[i] > a[j] then (exchange a i j, s.2 + 1) else (some a, s.2)
    else (none, s.2)

/-! ## The partner function as specified, the coordinates of the executor -/

/-- Partner function in the words of the specification: for `p = 1` the lane `n XOR 2^(l-1)`;
otherwise, with `scale = 2^(l-p)`, `box = 2^p` and `position = (n / scale) mod box`, the lane
itself at the positions `0` and `box - 1`, the lane `n - scale` at an even position, the lane
`n + scale` at an odd one. -/
def partnerSpec (n l p : Nat) : Nat :=
  if p = 1 then
    n ^^^ 2 ^ (l - 1)
  else
    let scale := 2 ^ (l - p)
    let box := 2 ^ p
    let position := (n / scale) % box
    if position = 0 ∨ position = box - 1 then n
    else if position % 2 = 0 then n - scale
    else n + scale

/-- Value of an `int` (32 bits, two's complement) that holds the outcome `x` of an
operation: `x` itself inside `-2^31 .. 2^31 - 1`, wrapped around outside. -/
def wrap32 (x : Int) : Int :=
  (x + 2147483648) % 4294967296 - 2147483648

/-- Bit pattern of an `int`, which is its value converted to `unsigned int`. -/
def bits32 (x : Int) : Nat :=
  (x % 4294967296).toNat

/-- `x << k` on `int`.  The language defines it for the counts `0 .. 31` only; the shift
instruction that the compiler emits takes the count modulo 32. -/
def shl32 (x k : Int) : Int :=
  wrap32 (x * 2 ^ (k % 32).toNat)

/-- `x ^ y` on `int`: the exclusive or of the bit patterns. -/
def xor32 (x y : Int) : Int :=
  wrap32 ((bits32 x ^^^ bits32 y : Nat) : Int)

/-- `x & y` on `int`: the conjunction of the bit patterns. -/
def and32 (x y : Int) : Int :=
  wrap32 ((bits32 x &&& bits32 y : Nat) : Int)

/-- The `int` that the `return` statement of `oddEvenMergeSort_GetPartner(n, l, p)` yields,
every operation on 32-bit integers (`/` truncates towards zero). -/
def oddEvenMergeSort_GetPartner32_int (n l p : Int) : Int :=
  if p = 1 then
    xor32 n (shl32 1 (wrap32 (l - 1)))
  else
    let scale := shl32 1 (wrap32 (l - p))
    let box := shl32 1 p
    let nDivScale := wrap32 (Int.tdiv n scale)
    let sn := wrap32 (nDivScale - wrap32 (wrap32 (Int.tdiv nDivScale box) * box))
    if sn = 0 ∨ sn = wrap32 (box - 1) then
      n
    else if and32 sn 1 = 0 then
      wrap32 (n - scale)
    else
      wrap32 (n + scale)

/-- `unsigned int oddEvenMergeSort_GetPartner(int n, int l, int p)` on 32-bit integers: the
`int` of the `return` statement converted to `unsigned int`. -/
def oddEvenMergeSort_GetPartner32 (n l p : Int) : Nat :=
  bits32 (oddEvenMergeSort_GetPartner32_int n l p)

/-- The loops over `l` and `p` of `oddEvenMergeSort_Partner` (and of
`oddEvenMergeSort_Partner_MT`), over what is done at a coordinate `(l, p)`. -/
def oddEvenMergeSort_Partner_loop {σ : Type} (visit : σ → Nat → Nat → σ) (s : σ) (_n : Nat) : σ :=
  let d := bitScanReverse _n
  cfor d 1 (fun l => l ≤ d) (fun l => l + 1)
    (fun s l =>
      cfor l 1 (fun p => p ≤ l) (fun p => p + 1)
        (fun s p => visit s l p) s)
    s

/-- The coordinates `(l, p)` that `oddEvenMergeSort_Partner` visits on the length `_n`, in
the order of the visits. -/
def coordinates (_n : Nat) : List (Nat × Nat) :=
  oddEvenMergeSort_Partner_loop (fun log l p => log ++ [(l, p)]) [] _n

/-- Strict lexicographic order of the coordinates: `l` first, then `p`. -/
def coordLt (c c' : Nat × Nat) : Prop :=
  c.1 < c'.1 ∨ (c.1 = c'.1 ∧ c.2 < c'.2)

/-- Number of comparators of the network on `2^d` lanes, as the specification counts them:
`(d (d - 1) / 2) * 2^(d-1) + 2^d - 1`. -/
def comparatorCount (d : Nat) : Nat :=
  d * (d - 1) / 2 * 2 ^ (d - 1) + 2 ^ d - 1

/-- Every call `compare(a, i, j)` of a sequence of calls has `i < j`. -/
def CallsOrdered (calls : List Comparator) : Prop :=
  ∀ c ∈ calls, c.1 < c.2

/-- Buffer whose entries are all `0` or `1`. -/
def isZeroOne (a : Buf) : Prop :=
  ∀ x ∈ a, x = 0 ∨ x = 1

/-- A run `run` (of a driver, or of a sequence of `compare` calls) sorts every buffer of
length `N`: it reaches its end and leaves the buffer non-decreasing. -/
def SortsAll (run : Buf → Option Buf) (N : Nat) : Prop :=
  ∀ a : Buf, a.length = N → ∃ b, run a = some b ∧ isNonDecreasing b

/-- A run `run` sorts every buffer of length `N` whose entries are `0` or `1`. -/
def SortsZeroOne (run : Buf → Option Buf) (N : Nat) : Prop :=
  ∀ a : Buf, a.length = N → isZeroOne a → ∃ b, run a = some b ∧ isNonDecreasing b

/-! ## Loops and traces -/

theorem cfor_eq_foldl {σ : Type} (fuel init : Nat) (cond : Nat → Bool) (next : Nat → Nat)
    (body : σ → Nat → σ) (s : σ) :
    cfor fuel init cond next body s = (cforIter fuel init cond next).foldl body s := by
  induction fuel generalizing init s with
  | zero => rfl
  | succ k ih =>
    simp only [cfor, cforIter]
    split
    · simp [ih]
    · rfl

theorem runNet_nil {σ : Type} (cmp : σ → Nat → Nat → σ) (s : σ) : runNet cmp [] s = s := rfl

theorem runNet_cons {σ : Type} (cmp : σ → Nat → Nat → σ) (c : Comparator)
    (net : List Comparator) (s : σ) :
    runNet cmp (c :: net) s = runNet cmp net (cmp s c.1 c.2) := rfl

theorem runNet_append {σ : Type} (cmp : σ → Nat → Nat → σ) (k1 k2 : List Comparator) (s : σ) :
    runNet cmp (k1 ++ k2) s = runNet cmp k2 (runNet cmp k1 s) := by
  simp [runNet, List.foldl_append]

theorem runNet_record (net log : List Comparator) : runNet record net log = log ++ net := by
  induction net generalizing log with
  | nil => simp [runNet]
  | cons c rest ih => simp [runNet_cons, ih, record]

theorem traceable_cmp (i j : Nat) : Traceable (fun _ cmp s => cmp s i j) :=
  ⟨[(i, j)], fun _ _ _ => rfl⟩

theorem traceable_id : Traceable (fun _ _ s => s) :=
  ⟨[], fun _ _ _ => rfl⟩

theorem traceable_seq {P Q : (σ : Type) → (σ → Nat → Nat → σ) → σ → σ}
    (hP : Traceable P) (hQ : Traceable Q) :
    Traceable (fun σ cmp s => Q σ cmp (P σ cmp s)) := by
  obtain ⟨L1, h1⟩ := hP
  obtain ⟨L2, h2⟩ := hQ
  exact ⟨L1 ++ L2, fun σ cmp s => by simp only [runNet_append, h1, h2]⟩

theorem traceable_ite (c : Prop) [Decidable c]
    {P Q : (σ : Type) → (σ → Nat → Nat → σ) → σ → σ}
    (hP : Traceable P) (hQ : Traceable Q) :
    Traceable (fun σ cmp s => if c then P σ cmp s else Q σ cmp s) := by
  by_cases h : c
  · simpa [h] using hP
  · simpa [h] using hQ

theorem traceable_foldl (xs : List Nat)
    {P : Nat → (σ : Type) → (σ → Nat → Nat → σ) → σ → σ}
    (hP : ∀ i, Traceable (P i)) :
    Traceable (fun σ cmp s => xs.foldl (fun s i => P i σ cmp s) s) := by
  induction xs with
  | nil => exact traceable_id
  | cons x rest ih =>
    simp only [List.foldl_cons]
    exact traceable_seq (hP x) ih

theorem traceable_cfor (fuel init : Nat) (cond : Nat → Bool) (next : Nat → Nat)
    {P : Nat → (σ : Type) → (σ → Nat → Nat → σ) → σ → σ}
    (hP : ∀ i, Traceable (P i)) :
    Traceable (fun σ cmp s => cfor fuel init cond next (fun s i => P i σ cmp s) s) := by
  simp only [cfor_eq_foldl]
  exact traceable_foldl _ hP

/-- A traceable piece of code is the run of the calls it records. -/
theorem Traceable.eq_runNet {P : (σ : Type) → (σ → Nat → Nat → σ) → σ → σ}
    (hP : Traceable P) {σ : Type} (cmp : σ → Nat → Nat → σ) (s : σ) :
    P σ cmp s = runNet cmp (P _ record []) s := by
  obtain ⟨L, h⟩ := hP
  rw [h, h _ record [], runNet_record, List.nil_append]

/-- Recorded calls are appended to the log. -/
theorem Traceable.record_append {P : (σ : Type) → (σ → Nat → Nat → σ) → σ → σ}
    (hP : Traceable P) (log : List Comparator) :
    P _ record log = log ++ P _ record [] := by
  obtain ⟨L, h⟩ := hP
  rw [h, h _ record [], runNet_record, runNet_record, List.nil_append]

theorem traceable_r1_go (fuel lo n r : Nat) :
    Traceable (fun _ cmp s => oddEvenMerge_r1_go cmp fuel s lo n r) := by
  induction fuel generalizing lo r with
  | zero => exact traceable_id
  | succ k ih =>
    simp only [oddEvenMerge_r1_go]
    apply traceable_ite
    · exact traceable_cmp _ _
    · apply traceable_seq (traceable_seq (ih _ _) (ih _ _))
      exact traceable_cfor _ _ _ _ (fun i => traceable_cmp _ _)

theorem traceable_r1 (lo n r : Nat) :
    Traceable (fun _ cmp s => oddEvenMerge_r1 cmp s lo n r) :=
  traceable_r1_go (n + 1) lo n r

theorem traceable_r2 (lo n r : Nat) :
    Traceable (fun _ cmp s => oddEvenMerge_r2 cmp s lo n r) := by
  unfold oddEvenMerge_r2
  refine traceable_cfor _ _ _ _ (fun r => traceable_cfor _ _ _ _ (fun lo => ?_))
  exact traceable_ite _ (traceable_cmp _ _) (traceable_cfor _ _ _ _ (fun i => traceable_cmp _ _))

theorem traceable_r3 (lo n r : Nat) :
    Traceable (fun _ cmp s => oddEvenMerge_r3 cmp s lo n r) := by
  unfold oddEvenMerge_r3
  refine traceable_seq (traceable_cfor _ _ _ _ (fun i => traceable_cmp _ _)) ?_
  refine traceable_cfor _ _ _ _ (fun r => traceable_cfor _ _ _ _ (fun lo => ?_))
  exact traceable_cfor _ _ _ _ (fun i => traceable_cmp _ _)

theorem traceable_Merge_stage {M : Nat → Nat → Nat → (σ : Type) → (σ → Nat → Nat → σ) → σ → σ}
    (hM : ∀ lo n r, Traceable (M lo n r)) (n j : Nat) :
    Traceable (fun σ cmp s =>
      oddEvenMergeSort_Merge_stage (fun s lo n r => M lo n r σ cmp s) s n j) := by
  unfold oddEvenMergeSort_Merge_stage
  exact traceable_cfor _ _ _ _ (fun k => hM _ _ _)

theorem traceable_Merge_with {M : Nat → Nat → Nat → (σ : Type) → (σ → Nat → Nat → σ) → σ → σ}
    (hM : ∀ lo n r, Traceable (M lo n r)) (n : Nat) :
    Traceable (fun σ cmp s =>
      oddEvenMergeSort_Merge_with (fun s lo n r => M lo n r σ cmp s) s n) := by
  unfold oddEvenMergeSort_Merge_with
  exact traceable_cfor _ _ _ _ (fun j => traceable_Merge_stage hM n j)

theorem traceable_Merge (n : Nat) :
    Traceable (fun _ cmp s => oddEvenMergeSort_Merge cmp s n) :=
  traceable_Merge_with (M := fun lo n r _ cmp s => oddEvenMerge_r3 cmp s lo n r) traceable_r3 n

theorem traceable_pass0 (n j r : Nat) :
    Traceable (fun _ cmp s => NCPasses_pass0 cmp s n j r) := by
  unfold NCPasses_pass0
  exact traceable_cfor _ _ _ _ (fun k => traceable_cfor _ _ _ _ (fun lo => traceable_cmp _ _))

theorem traceable_passR (n j r : Nat) :
    Traceable (fun _ cmp s => NCPasses_passR cmp s n j r) := by
  unfold NCPasses_passR
  exact traceable_cfor _ _ _ _ (fun k => traceable_cfor _ _ _ _ (fun lo =>
    traceable_cfor _ _ _ _ (fun i => traceable_cmp _ _)))

theorem traceable_Branchless_stage (n j : Nat) :
    Traceable (fun _ cmp s => oddEvenMergeSort_NCPasses_Branchless_stage cmp s n j) := by
  unfold oddEvenMergeSort_NCPasses_Branchless_stage
  exact traceable_seq (traceable_pass0 _ _ _) (traceable_cfor _ _ _ _ (fun r => traceable_passR _ _ _))

theorem traceable_Branchless (n : Nat) :
    Traceable (fun _ cmp s => oddEvenMergeSort_NCPasses_Branchless cmp s n) := by
  unfold oddEvenMergeSort_NCPasses_Branchless
  exact traceable_cfor _ _ _ _ (fun j => traceable_Branchless_stage _ _)

theorem traceable_Branched_pass (n j r : Nat) :
    Traceable (fun _ cmp s => NCPasses_Branched_pass cmp s n j r) := by
  unfold NCPasses_Branched_pass
  exact traceable_cfor _ _ _ _ (fun k => traceable_cfor _ _ _ _ (fun lo =>
    traceable_ite _ (traceable_cmp _ _) (traceable_cfor _ _ _ _ (fun i => traceable_cmp _ _))))

theorem traceable_Branched_stage (n j : Nat) :
    Traceable (fun _ cmp s => oddEvenMergeSort_NCPasses_Branched_stage cmp s n j) := by
  unfold oddEvenMergeSort_NCPasses_Branched_stage
  exact traceable_cfor _ _ _ _ (fun r => traceable_Branched_pass _ _ _)

theorem traceable_Branched (n : Nat) :
    Traceable (fun _ cmp s => oddEvenMergeSort_NCPasses_Branched cmp s n) := by
  unfold oddEvenMergeSort_NCPasses_Branched
  exact traceable_cfor _ _ _ _ (fun j => traceable_Branched_stage _ _)

theorem traceable_laneBody (l p n : Nat) :
    Traceable (fun _ cmp s => laneBody cmp l p s n) := by
  unfold laneBody
  exact traceable_ite _ (traceable_cmp _ _) traceable_id

theorem traceable_Partner_coord (n l p : Nat) :
    Traceable (fun _ cmp s => oddEvenMergeSort_Partner_coord cmp s n l p) := by
  unfold oddEvenMergeSort_Partner_coord
  exact traceable_cfor _ _ _ _ (fun i => traceable_laneBody l p i)

theorem traceable_Partner (n : Nat) :
    Traceable (fun _ cmp s => oddEvenMergeSort_Partner cmp s n) := by
  unfold oddEvenMergeSort_Partner
  exact traceable_cfor _ _ _ _ (fun l => traceable_cfor _ _ _ _ (fun p =>
    traceable_Partner_coord n l p))

theorem traceable_Partner_MT (sched : Nat → Nat → List Nat) (n : Nat) :
    Traceable (fun _ cmp s => oddEvenMergeSort_Partner_MT sched cmp s n) := by
  unfold oddEvenMergeSort_Partner_MT
  exact traceable_cfor _ _ _ _ (fun l => traceable_cfor _ _ _ _ (fun p =>
    traceable_foldl _ (fun i => traceable_laneBody l p i)))

/-! ## Iteration spaces of the loops -/

/-- A loop whose variable runs through `g 0, g 1, ..., g (cnt - 1)` and stops at `g cnt`
because its condition fails there, within its budget. -/
theorem cforIter_eq_map (g : Nat → Nat) (cnt : Nat) (cond : Nat → Bool) (next : Nat → Nat)
    (hnext : ∀ t, next (g t) = g (t + 1))
    (hin : ∀ t, t < cnt → cond (g t) = true) (hout : cond (g cnt) = false)
    (fuel : Nat) (hfuel : cnt ≤ fuel) :
    cforIter fuel (g 0) cond next = (List.range cnt).map g := by
  induction cnt generalizing g fuel with
  | zero =>
    cases fuel with
    | zero => rfl
    | succ k => simp [cforIter, hout]
  | succ c ih =>
    cases fuel with
    | zero => omega
    | succ k =>
      have h0 : cond (g 0) = true := hin 0 (by omega)
      have := ih (fun t => g (t + 1)) (fun t => hnext (t + 1))
        (fun t ht => hin (t + 1) (by omega)) hout k (by omega)
      simp only [cforIter, h0, if_true, hnext 0]
      rw [this, List.range_succ_eq_map, List.map_cons, List.map_map]
      rfl

theorem cforIter_count (a b fuel : Nat) (hfuel : b - a ≤ fuel) :
    cforIter fuel a (fun i => decide (i < b)) (fun i => i + 1)
      = (List.range (b - a)).map (fun t => a + t) := by
  have := cforIter_eq_map (fun t => a + t) (b - a) (fun i => decide (i < b)) (fun i => i + 1)
    (fun t => by simp; omega) (fun t ht => by simp; omega) (by simp; omega) fuel hfuel
  simpa using this

theorem cforIter_count_le (d fuel : Nat) (hfuel : d ≤ fuel) :
    cforIter fuel 1 (fun i => decide (i ≤ d)) (fun i => i + 1)
      = (List.range d).map (fun t => t + 1) := by
  have := cforIter_eq_map (fun t => t + 1) d (fun i => decide (i ≤ d)) (fun i => i + 1)
    (fun t => rfl) (fun t ht => by simp; omega) (by simp) fuel hfuel
  simpa using this

theorem cforIter_stride (a b r m cnt fuel : Nat) (hcnt : ∀ t, a + t * m + r < b ↔ t < cnt)
    (hfuel : cnt ≤ fuel) :
    cforIter fuel a (fun i => decide (i + r < b)) (fun i => i + m)
      = (List.range cnt).map (fun t => a + t * m) := by
  have := cforIter_eq_map (fun t => a + t * m) cnt (fun i => decide (i + r < b)) (fun i => i + m)
    (fun t => by simp [Nat.add_mul]; omega) (fun t ht => by simpa using (hcnt t).2 ht)
    (by
      simp only [decide_eq_false_iff_not]
      intro h
      exact absurd ((hcnt cnt).1 h) (lt_irrefl _)) fuel hfuel
  simpa using this

theorem cforIter_blocks (d l fuel : Nat) (hl : l ≤ d) (hfuel : 2 ^ (d - l) ≤ fuel) :
    cforIter fuel 0 (fun k => decide (k < 2 ^ d)) (fun k => k + 2 ^ l)
      = (List.range (2 ^ (d - l))).map (fun B => B * 2 ^ l) := by
  have h := cforIter_stride 0 (2 ^ d) 0 (2 ^ l) (2 ^ (d - l)) fuel (fun t => by
    have : 2 ^ d = 2 ^ (d - l) * 2 ^ l := by rw [← pow_add]; congr 1; omega
    rw [this]; simp) hfuel
  simpa using h

theorem cforIter_halving (k fuel : Nat) (hfuel : k + 1 ≤ fuel) :
    cforIter fuel (2 ^ k) (fun r => decide (r ≥ 1)) (fun r => r >>> 1)
      = (List.range (k + 1)).map (fun t => 2 ^ (k - t)) := by
  have h := cforIter_eq_map (fun t => 2 ^ k / 2 ^ t) (k + 1) (fun r => decide (r ≥ 1))
    (fun r => r >>> 1)
    (fun t => by simp [Nat.shiftRight_eq_div_pow, Nat.div_div_eq_div_mul, pow_succ])
    (fun t ht => by
      simp
      rw [Nat.pow_div (by omega) (by norm_num)]
      exact Nat.one_le_two_pow)
    (by
      simp
      exact Nat.div_eq_of_lt (Nat.pow_lt_pow_right (by norm_num) (by omega))) fuel hfuel
  simp only [pow_zero, Nat.div_one] at h
  rw [h]
  apply List.map_congr_left
  intro t ht
  rw [List.mem_range] at ht
  exact Nat.pow_div (by omega) (by norm_num)

theorem cforIter_halving_zero (fuel : Nat) :
    cforIter fuel 0 (fun r => decide (r ≥ 1)) (fun r => r >>> 1) = [] := by
  cases fuel <;> simp [cforIter]

theorem cforIter_doubling (d fuel : Nat) (hfuel : d ≤ fuel) :
    cforIter fuel 2 (fun j => decide (j ≤ 2 ^ d)) (fun j => j <<< 1)
      = (List.range d).map (fun t => 2 ^ (t + 1)) := by
  have h := cforIter_eq_map (fun t => 2 ^ (t + 1)) d (fun j => decide (j ≤ 2 ^ d))
    (fun j => j <<< 1)
    (fun t => by simp [Nat.shiftLeft_eq, pow_succ])
    (fun t ht => by
      simp
      exact Nat.pow_le_pow_right (by norm_num) (by omega))
    (by
      simp
      exact Nat.pow_lt_pow_right (by norm_num) (by omega)) fuel hfuel
  simpa using h

/-! ## The iteration budgets are never exhausted -/

/-- A loop whose variable keeps an invariant and decreases a measure that the budget covers
stops because its condition fails: a larger budget changes nothing. -/
theorem cforIter_budget (I : Nat → Prop) (μ : Nat → Nat) (cond : Nat → Bool) (next : Nat → Nat)
    (hstep : ∀ i, I i → cond i = true → I (next i) ∧ μ (next i) < μ i)
    (fuel init : Nat) (hI : I init) (hμ : μ init ≤ fuel) (extra : Nat) :
    cforIter (fuel + extra) init cond next = cforIter fuel init cond next := by
  induction fuel generalizing init with
  | zero =>
    have hc : cond init = false := by
      by_contra h
      have := (hstep init hI (by simpa using h)).2
      omega
    cases extra with
    | zero => rfl
    | succ e => simp [cforIter, hc]
  | succ k ih =>
    have e : k + 1 + extra = (k + extra) + 1 := by omega
    rw [e]
    simp only [cforIter]
    by_cases hc : cond init = true
    · obtain ⟨h1, h2⟩ := hstep init hI hc
      rw [if_pos hc, if_pos hc, ih (next init) h1 (by omega)]
    · rw [if_neg hc, if_neg hc]

theorem cfor_budget {σ : Type} (I : Nat → Prop) (μ : Nat → Nat) (cond : Nat → Bool)
    (next : Nat → Nat) (hstep : ∀ i, I i → cond i = true → I (next i) ∧ μ (next i) < μ i)
    (fuel init : Nat) (hI : I init) (hμ : μ init ≤ fuel) (extra : Nat)
    (body : σ → Nat → σ) (s : σ) :
    cfor (fuel + extra) init cond next body s = cfor fuel init cond next body s := by
  rw [cfor_eq_foldl, cfor_eq_foldl, cforIter_budget I μ cond next hstep fuel init hI hμ extra]

/-- Budget of the loop `for (j = 2; j <= n; j <<= 1)`. -/
theorem budget_stage_loop {σ : Type} (n extra : Nat) (body : σ → Nat → σ) (s : σ) :
    cfor (n + extra) 2 (fun j => decide (j ≤ n)) (fun j => j <<< 1) body s
      = cfor n 2 (fun j => decide (j ≤ n)) (fun j => j <<< 1) body s :=
  cfor_budget (fun j => 1 ≤ j) (fun j => n + 1 - j) _ _
    (fun j hj hc => by
      have hc' : j ≤ n := by simpa using hc
      have e : j <<< 1 = 2 * j := by simp [Nat.shiftLeft_eq, Nat.mul_comm]
      rw [e]
      beta_reduce
      constructor <;> omega)
    n 2 (by beta_reduce; omega) (by beta_reduce; omega) extra body s

/-- Budget of the loop `for (k = 0; k < n; k += j)` for a stage width `j ≥ 1`. -/
theorem budget_block_loop {σ : Type} (n j extra : Nat) (hj : 1 ≤ j) (body : σ → Nat → σ)
    (s : σ) :
    cfor (n + extra) 0 (fun k => decide (k < n)) (fun k => k + j) body s
      = cfor n 0 (fun k => decide (k < n)) (fun k => k + j) body s :=
  cfor_budget (fun _ => True) (fun k => n - k) _ _
    (fun k _ hc => by
      have hc' : k < n := by simpa using hc
      exact ⟨trivial, by beta_reduce; omega⟩)
    n 0 trivial (by beta_reduce; omega) extra body s

/-- Budget of the loop `for (lo = k; lo < k + r; lo++)`. -/
theorem budget_lo_loop {σ : Type} (k r extra : Nat) (body : σ → Nat → σ) (s : σ) :
    cfor (r + extra) k (fun lo => decide (lo < k + r)) (fun lo => lo + 1) body s
      = cfor r k (fun lo => decide (lo < k + r)) (fun lo => lo + 1) body s :=
  cfor_budget (fun _ => True) (fun lo => k + r - lo) _ _
    (fun lo _ hc => by
      have hc' : lo < k + r := by simpa using hc
      exact ⟨trivial, by beta_reduce; omega⟩)
    r k trivial (by beta_reduce; omega) extra body s

/-- Budget of the loop `for (i = lo + r; i + r < lo + n; i += m)` for a step `m ≥ 1`. -/
theorem budget_inner_loop {σ : Type} (lo r n m extra : Nat) (hm : 1 ≤ m) (body : σ → Nat → σ)
    (s : σ) :
    cfor (n + extra) (lo + r) (fun i => decide (i + r < lo + n)) (fun i => i + m) body s
      = cfor n (lo + r) (fun i => decide (i + r < lo + n)) (fun i => i + m) body s :=
  cfor_budget (fun _ => True) (fun i => lo + n - i) _ _
    (fun i _ hc => by
      have hc' : i + r < lo + n := by simpa using hc
      exact ⟨trivial, by beta_reduce; omega⟩)
    n (lo + r) trivial (by beta_reduce; omega) extra body s

/-- Budget of the loops `for (...; r >= 1; r >>= 1)` that start at or below the budget. -/
theorem budget_stride_loop {σ : Type} (fuel init extra : Nat) (h : init ≤ fuel)
    (body : σ → Nat → σ) (s : σ) :
    cfor (fuel + extra) init (fun r => decide (r ≥ 1)) (fun r => r >>> 1) body s
      = cfor fuel init (fun r => decide (r ≥ 1)) (fun r => r >>> 1) body s :=
  cfor_budget (fun _ => True) (fun r => r) _ _
    (fun r _ hc => by
      have hc' : 1 ≤ r := by simpa using hc
      have e : r >>> 1 = r / 2 := by simp [Nat.shiftRight_eq_div_pow]
      rw [e]
      exact ⟨trivial, by beta_reduce; omega⟩)
    fuel init trivial h extra body s

/-- Budget of the recursion of `oddEvenMerge_r1` for a stride `r ≥ 1`. -/
theorem budget_r1 {σ : Type} (cmp : σ → Nat → Nat → σ) (n : Nat) (fuel r : Nat) (hr : 1 ≤ r)
    (hfuel : n - r ≤ fuel) (extra : Nat) (s : σ) (lo : Nat) :
    oddEvenMerge_r1_go cmp (fuel + 1 + extra) s lo n r = oddEvenMerge_r1_go cmp (fuel + 1) s lo n r := by
  induction fuel generalizing r s lo with
  | zero =>
    have e : 0 + 1 + extra = extra + 1 := by omega
    rw [e]
    have hge : r * 2 ≥ n := by omega
    simp only [oddEvenMerge_r1_go, hge, if_true]
  | succ k ih =>
    have e : k + 1 + 1 + extra = (k + 1 + extra) + 1 := by omega
    rw [e]
    by_cases hge : r * 2 ≥ n
    · simp only [oddEvenMerge_r1_go, hge, if_true]
    · have h1 := fun s lo => ih (r * 2) (by omega) (by omega) s lo
      rw [oddEvenMerge_r1_go, oddEvenMerge_r1_go]
      simp only [hge, if_false]
      rw [h1, h1]

/-! ## Arithmetic of the partner formula -/

theorem testBit_succ_of_even (a i : Nat) (h : a % 2 = 0) :
    (a + 1).testBit i = (a.testBit i ^^ decide (i = 0)) := by
  cases i with
  | zero =>
    have h1 : (a + 1) % 2 = 1 := by omega
    simp [Nat.testBit_zero, h, h1]
  | succ k =>
    simp only [Nat.testBit_succ]
    have : (a + 1) / 2 = a / 2 := by omega
    simp [this]

theorem testBit_pred_of_odd (a i : Nat) (h : a % 2 = 1) :
    (a - 1).testBit i = (a.testBit i ^^ decide (i = 0)) := by
  cases i with
  | zero =>
    have h1 : (a - 1) % 2 = 0 := by omega
    simp [Nat.testBit_zero, h, h1]
  | succ k =>
    simp only [Nat.testBit_succ]
    have : (a - 1) / 2 = a / 2 := by omega
    simp [this]

/-- Flipping bit `k` adds `2^k` when the bit is clear and subtracts it when the bit is set. -/
theorem xor_two_pow (n k : Nat) :
    n ^^^ 2 ^ k = if (n / 2 ^ k) % 2 = 0 then n + 2 ^ k else n - 2 ^ k := by
  have hb : n % 2 ^ k < 2 ^ k := Nat.mod_lt _ (Nat.two_pow_pos k)
  have hn : 2 ^ k * (n / 2 ^ k) + n % 2 ^ k = n := Nat.div_add_mod n (2 ^ k)
  generalize n / 2 ^ k = a at hn ⊢
  generalize n % 2 ^ k = b at hn hb
  subst hn
  apply Nat.eq_of_testBit_eq
  intro j
  rw [Nat.testBit_xor, Nat.testBit_two_pow, Nat.testBit_mul_pow_two_add _ hb]
  have hup : 2 ^ k * a + b + 2 ^ k = 2 ^ k * (a + 1) + b := by ring
  have hdown : 1 ≤ a → 2 ^ k * a + b - 2 ^ k = 2 ^ k * (a - 1) + b := by
    intro ha
    obtain ⟨a', rfl⟩ : ∃ a', a = a' + 1 := ⟨a - 1, by omega⟩
    simp [Nat.mul_add]; omega
  by_cases h2 : a % 2 = 0
  · rw [if_pos h2, hup, Nat.testBit_mul_pow_two_add _ hb]
    by_cases h1 : j < k
    · have : ¬ k = j := by omega
      simp [h1, this]
    · rw [if_neg h1, if_neg h1, testBit_succ_of_even _ _ h2]
      congr 2
      simp; omega
  · rw [if_neg h2, hdown (by omega), Nat.testBit_mul_pow_two_add _ hb]
    by_cases h1 : j < k
    · have : ¬ k = j := by omega
      simp [h1, this]
    · rw [if_neg h1, if_neg h1, testBit_pred_of_odd _ _ (by omega)]
      congr 2
      simp; omega

/-- The partner formula in terms of the position of the lane in its box. -/
theorem getPartner_eq (n l p : Nat) :
    oddEvenMergeSort_GetPartner n l p =
      if p = 1 then
        (if boxPos n l p = 0 then n + 2 ^ (l - p) else n - 2 ^ (l - p))
      else if boxPos n l p = 0 ∨ boxPos n l p = 2 ^ p - 1 then n
      else if boxPos n l p % 2 = 0 then n - 2 ^ (l - p)
      else n + 2 ^ (l - p) := by
  unfold oddEvenMergeSort_GetPartner boxPos
  by_cases hp : p = 1
  · subst hp
    simp only [if_true, Nat.shiftLeft_eq, one_mul, xor_two_pow, pow_one]
  · simp only [if_neg hp, Nat.shiftLeft_eq, one_mul, Nat.and_one_is_mod]
    have : n / 2 ^ (l - p) - n / 2 ^ (l - p) / 2 ^ p * 2 ^ p = n / 2 ^ (l - p) % 2 ^ p := by
      have := Nat.div_add_mod (n / 2 ^ (l - p)) (2 ^ p)
      rw [Nat.mul_comm] at this
      omega
    rw [this]

theorem two_pow_eq_double (p : Nat) (hp : 1 ≤ p) : 2 ^ p = 2 * 2 ^ (p - 1) := by
  obtain ⟨k, rfl⟩ : ∃ k, p = k + 1 := ⟨p - 1, by omega⟩
  simp [pow_succ, Nat.mul_comm]

theorem boxPos_lt (n l p : Nat) : boxPos n l p < 2 ^ p :=
  Nat.mod_lt _ (Nat.two_pow_pos p)

theorem boxPos_add (n l p : Nat) (h : boxPos n l p + 1 < 2 ^ p) :
    boxPos (n + 2 ^ (l - p)) l p = boxPos n l p + 1 := by
  unfold boxPos at h ⊢
  rw [Nat.add_div_right _ (Nat.two_pow_pos _), Nat.add_mod]
  have h1 : 1 % 2 ^ p = 1 := Nat.mod_eq_of_lt (by omega)
  rw [h1, Nat.mod_eq_of_lt h]

theorem boxPos_sub (n l p : Nat) (h : 1 ≤ boxPos n l p) :
    2 ^ (l - p) ≤ n ∧ boxPos (n - 2 ^ (l - p)) l p = boxPos n l p - 1 := by
  have hr : 0 < 2 ^ (l - p) := Nat.two_pow_pos _
  have hle : 2 ^ (l - p) ≤ n := by
    by_contra hlt
    have : n / 2 ^ (l - p) = 0 := Nat.div_eq_of_lt (by omega)
    simp [boxPos, this] at h
  refine ⟨hle, ?_⟩
  obtain ⟨m, rfl⟩ : ∃ m, n = m + 2 ^ (l - p) := ⟨n - 2 ^ (l - p), by omega⟩
  have hlt := boxPos_lt m l p
  have hlt2 := boxPos_lt (m + 2 ^ (l - p)) l p
  have hm : boxPos m l p + 1 < 2 ^ p := by
    by_contra hcon
    have hq : boxPos m l p = 2 ^ p - 1 := by omega
    have : boxPos (m + 2 ^ (l - p)) l p = 0 := by
      unfold boxPos at hq ⊢
      rw [Nat.add_div_right _ hr, Nat.add_mod, hq]
      have h1 : 1 % 2 ^ p = 1 := Nat.mod_eq_of_lt (by omega)
      rw [h1]
      have : 2 ^ p - 1 + 1 = 2 ^ p := by omega
      rw [this, Nat.mod_self]
    omega
  rw [Nat.add_sub_cancel, boxPos_add m l p hm]
  omega

theorem isLow_iff (n l p : Nat) :
    isLow n l p ↔
      (p = 1 ∧ boxPos n l p = 0) ∨ (p ≠ 1 ∧ boxPos n l p % 2 = 1 ∧ boxPos n l p + 1 < 2 ^ p) := by
  unfold isLow
  by_cases hp1 : p = 1
  · simp [hp1]
  · simp [hp1]

theorem isUpper_iff (n l p : Nat) (hp : 1 ≤ p) :
    (2 ^ (l - p) ≤ n ∧ isLow (n - 2 ^ (l - p)) l p) ↔
      (p = 1 ∧ boxPos n l p = 1) ∨ (p ≠ 1 ∧ boxPos n l p % 2 = 0 ∧ 1 ≤ boxPos n l p) := by
  have hP := two_pow_eq_double p hp
  have hP1 : 1 ≤ 2 ^ (p - 1) := Nat.one_le_two_pow
  have hlt := boxPos_lt n l p
  have hr : 0 < 2 ^ (l - p) := Nat.two_pow_pos _
  rw [isLow_iff]
  constructor
  · rintro ⟨hle, hlow⟩
    obtain ⟨m, rfl⟩ : ∃ m, n = m + 2 ^ (l - p) := ⟨n - 2 ^ (l - p), by omega⟩
    rw [Nat.add_sub_cancel] at hlow
    have hmlt := boxPos_lt m l p
    rcases hlow with ⟨hp1, h0⟩ | ⟨hp1, h1, h2⟩
    · have := boxPos_add m l p (by subst hp1; omega)
      omega
    · have := boxPos_add m l p h2
      omega
  · intro h
    have h1 : 1 ≤ boxPos n l p := by omega
    obtain ⟨hle, hsub⟩ := boxPos_sub n l p h1
    refine ⟨hle, ?_⟩
    rw [hsub]
    rcases h with ⟨hp1, h0⟩ | ⟨hp1, h2, h3⟩
    · left; omega
    · right; omega

/-- The partner of a lane: up by the stride for the lower end of a comparator, down by the
stride for the upper end, the lane itself when it is idle. -/
theorem getPartner_spec (n l p : Nat) (hp : 1 ≤ p) :
    oddEvenMergeSort_GetPartner n l p =
      if isLow n l p then n + 2 ^ (l - p)
      else if 2 ^ (l - p) ≤ n ∧ isLow (n - 2 ^ (l - p)) l p then n - 2 ^ (l - p)
      else n := by
  have hP := two_pow_eq_double p hp
  have hP1 : 1 ≤ 2 ^ (p - 1) := Nat.one_le_two_pow
  have hlt := boxPos_lt n l p
  have hr : 0 < 2 ^ (l - p) := Nat.two_pow_pos _
  rw [getPartner_eq]
  simp only [isUpper_iff n l p hp, isLow_iff n l p]
  have hp1P : p = 1 → 2 ^ (p - 1) = 1 := by rintro rfl; rfl
  generalize boxPos n l p = q at hlt ⊢
  generalize 2 ^ (l - p) = r at hr ⊢
  generalize 2 ^ (p - 1) = P' at hP hP1 hp1P
  generalize 2 ^ p = P at hP hlt ⊢
  subst hP
  split_ifs <;> omega

theorem isLow_not_add (n l p : Nat) (hp : 1 ≤ p) (h : isLow n l p) :
    ¬ isLow (n + 2 ^ (l - p)) l p := by
  have hP := two_pow_eq_double p hp
  have hP1 : 1 ≤ 2 ^ (p - 1) := Nat.one_le_two_pow
  unfold isLow at h ⊢
  by_cases hp1 : p = 1
  · rw [if_pos hp1] at h ⊢
    have := boxPos_add n l p (by omega)
    omega
  · rw [if_neg hp1] at h ⊢
    have := boxPos_add n l p h.2
    omega

/-- The partner function is an involution. -/
theorem getPartner_involutive (n l p : Nat) (hp : 1 ≤ p) :
    oddEvenMergeSort_GetPartner (oddEvenMergeSort_GetPartner n l p) l p = n := by
  have hr : 0 < 2 ^ (l - p) := Nat.two_pow_pos _
  rw [getPartner_spec n l p hp]
  by_cases h1 : isLow n l p
  · rw [if_pos h1, getPartner_spec _ l p hp, if_neg (isLow_not_add n l p hp h1)]
    simp [h1]
  · rw [if_neg h1]
    by_cases h2 : 2 ^ (l - p) ≤ n ∧ isLow (n - 2 ^ (l - p)) l p
    · rw [if_pos h2, getPartner_spec _ l p hp, if_pos h2.2]
      omega
    · rw [if_neg h2, getPartner_spec _ l p hp, if_neg h1, if_neg h2]

theorem getPartner_gt_iff (n l p : Nat) (hp : 1 ≤ p) :
    oddEvenMergeSort_GetPartner n l p > n ↔ isLow n l p := by
  have hr : 0 < 2 ^ (l - p) := Nat.two_pow_pos _
  rw [getPartner_spec n l p hp]
  split_ifs with h1 h2
  · simp [h1, hr]
  · simp only [h1, iff_false]; omega
  · simp [h1]

theorem getPartner_of_low (n l p : Nat) (hp : 1 ≤ p) (h : isLow n l p) :
    oddEvenMergeSort_GetPartner n l p = n + 2 ^ (l - p) := by
  rw [getPartner_spec n l p hp, if_pos h]

/-! ## Recorded calls of loops -/

theorem foldl_record_flatMap (g : Nat → List Comparator)
    (body : List Comparator → Nat → List Comparator) (h : ∀ L i, body L i = L ++ g i)
    (xs : List Nat) (log : List Comparator) :
    xs.foldl body log = log ++ xs.flatMap g := by
  induction xs generalizing log with
  | nil => simp
  | cons x rest ih => simp [List.foldl_cons, h, ih, List.flatMap_cons]

theorem cfor_record_flatMap (g : Nat → List Comparator)
    (body : List Comparator → Nat → List Comparator) (h : ∀ L i, body L i = L ++ g i)
    (fuel init : Nat) (cond : Nat → Bool) (next : Nat → Nat) (log : List Comparator) :
    cfor fuel init cond next body log = log ++ (cforIter fuel init cond next).flatMap g := by
  rw [cfor_eq_foldl, foldl_record_flatMap g body h]

theorem laneBody_record (l p : Nat) (log : List Comparator) (n : Nat) :
    laneBody record l p log n = log ++ laneCalls l p n := by
  by_cases h : oddEvenMergeSort_GetPartner n l p > n
  · simp only [laneBody, laneCalls, record, if_pos h]
  · simp only [laneBody, laneCalls, record, if_neg h, List.append_nil]

/-- The calls of one coordinate: the lanes `0 .. N-1` in ascending order. -/
theorem Partner_coord_record (N l p : Nat) (log : List Comparator) :
    oddEvenMergeSort_Partner_coord record log N l p
      = log ++ (List.range N).flatMap (laneCalls l p) := by
  unfold oddEvenMergeSort_Partner_coord
  rw [cfor_record_flatMap (laneCalls l p) _ (laneBody_record l p), cforIter_count 0 N N (by omega)]
  simp

theorem mem_laneCalls (l p n : Nat) (c : Comparator) :
    c ∈ laneCalls l p n ↔
      c.1 = n ∧ oddEvenMergeSort_GetPartner n l p > n ∧ c.2 = oddEvenMergeSort_GetPartner n l p := by
  unfold laneCalls
  split
  · rename_i h
    simp only [List.mem_singleton]
    constructor
    · rintro rfl; exact ⟨rfl, h, rfl⟩
    · rintro ⟨h1, _, h3⟩; exact Prod.ext h1 h3
  · rename_i h
    simp only [List.not_mem_nil, false_iff]
    rintro ⟨_, h2, _⟩; exact h h2

theorem mem_Partner_coord (N l p : Nat) (c : Comparator) :
    c ∈ oddEvenMergeSort_Partner_coord record [] N l p ↔
      c.1 < N ∧ oddEvenMergeSort_GetPartner c.1 l p > c.1
        ∧ c.2 = oddEvenMergeSort_GetPartner c.1 l p := by
  rw [Partner_coord_record, List.nil_append, List.mem_flatMap]
  constructor
  · rintro ⟨n, hn, hc⟩
    rw [mem_laneCalls] at hc
    obtain ⟨h1, h2, h3⟩ := hc
    subst h1
    exact ⟨List.mem_range.1 hn, h2, h3⟩
  · rintro ⟨h1, h2, h3⟩
    exact ⟨c.1, List.mem_range.2 h1, (mem_laneCalls _ _ _ _).2 ⟨rfl, h2, h3⟩⟩

/-! ## One pass on a buffer seen as a function -/

theorem cmpF_apply {α : Type} [LinearOrder α] (f : Nat → α) (i j : Nat) (x : Nat) :
    cmpF f i j x = if x = i then min (f i) (f j) else if x = j then max (f i) (f j) else f x := by
  unfold cmpF
  by_cases h : f i > f j
  · rw [if_pos h]
    have h' : f j ≤ f i := le_of_lt h
    simp only [min_eq_right h', max_eq_left h']
  · rw [if_neg h]
    have h' : f i ≤ f j := not_lt.1 h
    simp only [min_eq_left h', max_eq_right h']
    split_ifs with h1 h2
    · rw [h1]
    · rw [h2]
    · rfl

/-- Comparators that pair lanes with their partners under an involution act as one pass:
the order in which they are applied, and a comparator applied twice, make no difference. -/
theorem runNet_cmpF_pass {α : Type} [LinearOrder α] (π : Nat → Nat) (hπ : ∀ x, π (π x) = x)
    (net : List Comparator) (hnet : ∀ c ∈ net, c.1 < c.2 ∧ π c.1 = c.2)
    (f : Nat → α) (x : Nat) :
    runNet cmpF net f x =
      if (∃ c ∈ net, x = c.1 ∨ x = c.2) then passF π f x else f x := by
  induction net generalizing f with
  | nil => simp [runNet_nil]
  | cons c rest ih =>
    have hc := hnet c (List.mem_cons_self _ _)
    have hrest : ∀ c' ∈ rest, c'.1 < c'.2 ∧ π c'.1 = c'.2 :=
      fun c' h => hnet c' (List.mem_cons_of_mem _ h)
    have hne : c.1 ≠ c.2 := ne_of_lt hc.1
    have hπ2 : π c.2 = c.1 := by rw [← hc.2, hπ]
    rw [runNet_cons, ih hrest]
    -- value of the pass on the buffer after the first comparator, at either end of it
    have hpass1 : passF π (cmpF f c.1 c.2) c.1 = min (f c.1) (f c.2) := by
      unfold passF
      rw [hc.2, if_pos hc.1, cmpF_apply f _ _, cmpF_apply f _ _, if_pos rfl,
        if_neg (Ne.symm hne), if_pos rfl]
      exact min_eq_left min_le_max
    have hpass2 : passF π (cmpF f c.1 c.2) c.2 = max (f c.1) (f c.2) := by
      unfold passF
      rw [hπ2, if_neg (not_lt.2 (le_of_lt hc.1)), if_pos hc.1, cmpF_apply f _ _,
        cmpF_apply f _ _, if_pos rfl, if_neg (Ne.symm hne), if_pos rfl]
      exact max_eq_right min_le_max
    have hf1 : passF π f c.1 = min (f c.1) (f c.2) := by
      unfold passF; rw [hc.2, if_pos hc.1]
    have hf2 : passF π f c.2 = max (f c.1) (f c.2) := by
      unfold passF; rw [hπ2, if_neg (not_lt.2 (le_of_lt hc.1)), if_pos hc.1]
    by_cases hx1 : x = c.1
    · subst hx1
      have hex : ∃ c' ∈ c :: rest, c.1 = c'.1 ∨ c.1 = c'.2 := ⟨c, List.mem_cons_self _ _, Or.inl rfl⟩
      rw [if_pos hex, hf1]
      split_ifs
      · exact hpass1
      · rw [cmpF_apply f _ _, if_pos rfl]
    by_cases hx2 : x = c.2
    · subst hx2
      have hex : ∃ c' ∈ c :: rest, c.2 = c'.1 ∨ c.2 = c'.2 := ⟨c, List.mem_cons_self _ _, Or.inr rfl⟩
      rw [if_pos hex, hf2]
      split_ifs
      · exact hpass2
      · rw [cmpF_apply f _ _, if_neg (Ne.symm hne), if_pos rfl]
    -- a lane away from the first comparator, whose partner is away from it too
    have hπx1 : π x ≠ c.1 := fun h => hx2 (by rw [← hπ x, h, hc.2])
    have hπx2 : π x ≠ c.2 := fun h => hx1 (by rw [← hπ x, h, hπ2])
    have hsame : passF π (cmpF f c.1 c.2) x = passF π f x := by
      unfold passF
      rw [cmpF_apply f _ _ x, cmpF_apply f _ _ (π x), if_neg hx1, if_neg hx2,
        if_neg hπx1, if_neg hπx2]
    have hval : cmpF f c.1 c.2 x = f x := by
      rw [cmpF_apply f _ _ x, if_neg hx1, if_neg hx2]
    have hiff : (∃ c' ∈ c :: rest, x = c'.1 ∨ x = c'.2) ↔ (∃ c' ∈ rest, x = c'.1 ∨ x = c'.2) := by
      constructor
      · rintro ⟨c', hmem, hc'⟩
        rcases List.mem_cons.1 hmem with rfl | hmem
        · rcases hc' with h | h
          · exact absurd h hx1
          · exact absurd h hx2
        · exact ⟨c', hmem, hc'⟩
      · rintro ⟨c', hmem, hc'⟩
        exact ⟨c', List.mem_cons_of_mem _ hmem, hc'⟩
    rw [hsame, hval]
    by_cases hex : ∃ c' ∈ rest, x = c'.1 ∨ x = c'.2
    · rw [if_pos hex, if_pos (hiff.2 hex)]
    · rw [if_neg hex, if_neg (fun h => hex (hiff.1 h))]

/-- One coordinate of `oddEvenMergeSort_Partner`, run lane after lane, is the pass of the
partner function on every lane below `N`. -/
theorem Partner_coord_pass {α : Type} [LinearOrder α] (N l p : Nat) (hp : 1 ≤ p)
    (f : Nat → α) (x : Nat) (hx : x < N) :
    runNet cmpF (oddEvenMergeSort_Partner_coord record [] N l p) f x
      = passF (fun n => oddEvenMergeSort_GetPartner n l p) f x := by
  rw [runNet_cmpF_pass (fun n => oddEvenMergeSort_GetPartner n l p)
    (fun n => getPartner_involutive n l p hp)]
  · split_ifs with h
    · rfl
    · -- the lane is in no comparator: it is its own partner
      have hself : oddEvenMergeSort_GetPartner x l p = x := by
        by_contra hne
        apply h
        rcases Nat.lt_or_gt_of_ne hne with hlt | hgt
        · refine ⟨(oddEvenMergeSort_GetPartner x l p, x), ?_, Or.inr rfl⟩
          rw [mem_Partner_coord]
          simp only [getPartner_involutive x l p hp]
          exact ⟨by omega, hlt, trivial⟩
        · refine ⟨(x, oddEvenMergeSort_GetPartner x l p), ?_, Or.inl rfl⟩
          rw [mem_Partner_coord]
          exact ⟨hx, hgt, rfl⟩
      unfold passF
      simp [hself]
  · intro c hc
    rw [mem_Partner_coord] at hc
    exact ⟨by omega, hc.2.2.symm⟩

/-! ## Counting zeros along a stride -/

theorem cnt_one (z : Nat) : cnt z 0 1 = z := by
  simp [cnt]

theorem cnt_small (z c r : Nat) (hc : c < r) (hz : z ≤ r) :
    cnt z c r = if c < z then 1 else 0 := by
  unfold cnt
  split_ifs with h
  · exact Nat.div_eq_of_lt_le (by omega) (by omega)
  · exact Nat.div_eq_of_lt (by omega)

theorem div_split (w r : Nat) (hr : 0 < r) :
    w / r = (w + r) / (2 * r) + w / (2 * r) ∧
      w / (2 * r) ≤ (w + r) / (2 * r) ∧ (w + r) / (2 * r) ≤ w / (2 * r) + 1 := by
  have h1 := Nat.div_add_mod w (2 * r)
  have h2 : w % (2 * r) < 2 * r := Nat.mod_lt _ (by omega)
  generalize w / (2 * r) = a at h1 ⊢
  generalize w % (2 * r) = b at h1 h2
  have e1 : 2 * r * a = 2 * (r * a) := by ring
  rw [e1] at h1
  by_cases hb : b < r
  · have d1 : w / r = 2 * a := by
      apply Nat.div_eq_of_lt_le
      · have : 2 * a * r = 2 * (r * a) := by ring
        omega
      · have : (2 * a + 1) * r = 2 * (r * a) + r := by ring
        omega
    have d2 : (w + r) / (2 * r) = a := by
      apply Nat.div_eq_of_lt_le
      · have : a * (2 * r) = 2 * (r * a) := by ring
        omega
      · have : (a + 1) * (2 * r) = 2 * (r * a) + 2 * r := by ring
        omega
    omega
  · have d1 : w / r = 2 * a + 1 := by
      apply Nat.div_eq_of_lt_le
      · have : (2 * a + 1) * r = 2 * (r * a) + r := by ring
        omega
      · have : (2 * a + 1 + 1) * r = 2 * (r * a) + 2 * r := by ring
        omega
    have d2 : (w + r) / (2 * r) = a + 1 := by
      apply Nat.div_eq_of_lt_le
      · have : (a + 1) * (2 * r) = 2 * (r * a) + 2 * r := by ring
        omega
      · have : (a + 1 + 1) * (2 * r) = 2 * (r * a) + 4 * r := by ring
        omega
    omega

/-- A class of the stride `r` is the union of two classes of the stride `2r`, and the first
of them holds as many zeros as the second or one more. -/
theorem cnt_split (z c r : Nat) (hc : c < r) :
    cnt z c r = cnt z c (2 * r) + cnt z (c + r) (2 * r) ∧
      cnt z (c + r) (2 * r) ≤ cnt z c (2 * r) ∧ cnt z c (2 * r) ≤ cnt z (c + r) (2 * r) + 1 := by
  have h := div_split (z + r - 1 - c) r (by omega)
  have e1 : z + 2 * r - 1 - c = z + r - 1 - c + r := by omega
  have e2 : z + 2 * r - 1 - (c + r) = z + r - 1 - c := by omega
  unfold cnt
  rw [e1, e2]
  exact h

theorem cnt_le (z c r m : Nat) (hc : c < r) (hz : z ≤ r * m) : cnt z c r ≤ m := by
  unfold cnt
  have : (z + r - 1 - c) / r < m + 1 := by
    rw [Nat.div_lt_iff_lt_mul (by omega)]
    have : (m + 1) * r = r * m + r := by ring
    omega
  omega

theorem min_decide (P Q : Prop) [Decidable P] [Decidable Q] :
    min (decide P) (decide Q) = decide (P ∧ Q) := by
  by_cases hP : P <;> by_cases hQ : Q <;> simp [hP, hQ]

theorem max_decide (P Q : Prop) [Decidable P] [Decidable Q] :
    max (decide P) (decide Q) = decide (P ∨ Q) := by
  by_cases hP : P <;> by_cases hQ : Q <;> simp [hP, hQ]

/-! ## The passes of one stage on a buffer of zeros and ones -/

/-- First pass of a stage: two sorted half blocks of width `W`, with `z (2B)` and
`z (2B+1)` zeros, are compared entry by entry. -/
theorem pass_first (W nB : Nat) (z : Nat → Nat) (f : Nat → Bool) (π : Nat → Nat)
    (hf : ∀ b c, b < 2 * nB → c < W → f (b * W + c) = decide (z b ≤ c))
    (hz : ∀ b, b < 2 * nB → z b ≤ W)
    (hπ0 : ∀ B c, B < nB → c < W → π (B * (2 * W) + c) = B * (2 * W) + c + W)
    (hπ1 : ∀ B c, B < nB → c < W → π (B * (2 * W) + W + c) = B * (2 * W) + c)
    (B q c : Nat) (hB : B < nB) (hq : q < 2) (hc : c < W) :
    passF π f (B * (2 * W) + q * W + c)
      = decide (cnt (z (2 * B)) c W + cnt (z (2 * B + 1)) c W ≤ q) := by
  have hz0 := hz (2 * B) (by omega)
  have hz1 := hz (2 * B + 1) (by omega)
  have hf0 := hf (2 * B) c (by omega) hc
  have hf1 := hf (2 * B + 1) c (by omega) hc
  have e0 : 2 * B * W + c = B * (2 * W) + c := by ring
  have e1 : (2 * B + 1) * W + c = B * (2 * W) + W + c := by ring
  rw [e0] at hf0
  rw [e1] at hf1
  rw [cnt_small _ _ _ hc hz0, cnt_small _ _ _ hc hz1]
  have hq' : q = 0 ∨ q = 1 := by omega
  rcases hq' with rfl | rfl
  · have hx : B * (2 * W) + 0 * W + c = B * (2 * W) + c := by ring
    rw [hx]
    unfold passF
    rw [hπ0 B c hB hc, if_pos (by omega)]
    have e2 : B * (2 * W) + c + W = B * (2 * W) + W + c := by ring
    rw [e2, hf0, hf1, min_decide]
    apply decide_eq_decide.2
    split_ifs <;> omega
  · have hx : B * (2 * W) + 1 * W + c = B * (2 * W) + W + c := by ring
    rw [hx]
    unfold passF
    rw [hπ1 B c hB hc, if_neg (by omega), if_pos (by omega), hf0, hf1, max_decide]
    apply decide_eq_decide.2
    split_ifs <;> omega

/-- A later pass of a stage, of stride `r`: in every class of the stride `r` the two classes
of the stride `2r`, both sorted, are interleaved and the comparators of the pass are applied. -/
theorem pass_later (r m nB : Nat) (z : Nat → Nat) (f : Nat → Bool) (π : Nat → Nat)
    (hr : 0 < r)
    (hf : ∀ B t c, B < nB → t < 2 * m → c < 2 * r →
      f (B * (2 * m * (2 * r)) + t * (2 * r) + c)
        = decide (cnt (z (2 * B)) c (2 * r) + cnt (z (2 * B + 1)) c (2 * r) ≤ t))
    (hz : ∀ b, b < 2 * nB → z b ≤ 2 * r * m)
    (hπ : ∀ B q c, B < nB → q < 4 * m → c < r →
      π (B * (2 * m * (2 * r)) + q * r + c) =
        if q % 2 = 1 ∧ q + 1 < 4 * m then B * (2 * m * (2 * r)) + q * r + c + r
        else if q % 2 = 0 ∧ 1 ≤ q then B * (2 * m * (2 * r)) + q * r + c - r
        else B * (2 * m * (2 * r)) + q * r + c)
    (B q c : Nat) (hB : B < nB) (hq : q < 4 * m) (hc : c < r) :
    passF π f (B * (2 * m * (2 * r)) + q * r + c)
      = decide (cnt (z (2 * B)) c r + cnt (z (2 * B + 1)) c r ≤ q) := by
  obtain ⟨s0, m0, l0⟩ := cnt_split (z (2 * B)) c r hc
  obtain ⟨s1, m1, l1⟩ := cnt_split (z (2 * B + 1)) c r hc
  have b0 := cnt_le (z (2 * B)) c (2 * r) m (by omega) (hz _ (by omega))
  have b1 := cnt_le (z (2 * B + 1)) c (2 * r) m (by omega) (hz _ (by omega))
  rw [s0, s1]
  have hπq := hπ B q c hB hq hc
  have hf := hf B
  generalize B * (2 * m * (2 * r)) = base at hπq hf ⊢
  unfold passF
  by_cases hodd : q % 2 = 1
  · obtain ⟨t, rfl⟩ : ∃ t, q = 2 * t + 1 := ⟨q / 2, by omega⟩
    have ex : base + (2 * t + 1) * r + c = base + t * (2 * r) + (c + r) := by ring
    have hfx := hf t (c + r) hB (by omega) (by omega)
    by_cases hlast : 2 * t + 1 + 1 < 4 * m
    · rw [if_pos ⟨hodd, hlast⟩] at hπq
      have ex2 : base + (2 * t + 1) * r + c + r = base + (t + 1) * (2 * r) + c := by ring
      have hfy := hf (t + 1) c hB (by omega) (by omega)
      rw [hπq, if_pos (by omega), ex2, hfy, ex, hfx, min_decide]
      apply decide_eq_decide.2
      omega
    · rw [if_neg (fun h => hlast h.2), if_neg (by omega)] at hπq
      rw [hπq, if_neg (lt_irrefl _), if_neg (lt_irrefl _), ex, hfx]
      apply decide_eq_decide.2
      omega
  · obtain ⟨t, rfl⟩ : ∃ t, q = 2 * t := ⟨q / 2, by omega⟩
    have ex : base + 2 * t * r + c = base + t * (2 * r) + c := by ring
    have hfx := hf t c hB (by omega) (by omega)
    by_cases ht : 1 ≤ t
    · rw [if_neg (fun h => hodd h.1), if_pos ⟨by omega, by omega⟩] at hπq
      obtain ⟨u, rfl⟩ : ∃ u, t = u + 1 := ⟨t - 1, by omega⟩
      have ex2 : base + 2 * (u + 1) * r + c - r = base + u * (2 * r) + (c + r) := by
        have : base + 2 * (u + 1) * r + c = base + u * (2 * r) + (c + r) + r := by ring
        omega
      have hfy := hf u (c + r) hB (by omega) (by omega)
      have hlt : base + u * (2 * r) + (c + r) < base + (u + 1) * (2 * r) + c := by
        have : (u + 1) * (2 * r) = u * (2 * r) + 2 * r := by ring
        omega
      rw [hπq, ex2, ex, if_neg (by omega), if_pos hlt, hfx, hfy, max_decide]
      apply decide_eq_decide.2
      omega
    · rw [if_neg (fun h => hodd h.1), if_neg (by omega)] at hπq
      rw [hπq, if_neg (lt_irrefl _), if_neg (lt_irrefl _), ex, hfx]
      apply decide_eq_decide.2
      omega

/-! ## Powers of two and positions in a block -/

theorem pow_sub_succ (l p : Nat) (h : p + 1 ≤ l) : 2 ^ (l - p) = 2 * 2 ^ (l - (p + 1)) := by
  rw [← pow_succ']
  congr 1
  omega

theorem pow_split (l p : Nat) (h : p ≤ l) : 2 ^ l = 2 ^ p * 2 ^ (l - p) := by
  rw [← pow_add]
  congr 1
  omega

theorem decomp_lt (nB Q r B q c : Nat) (hB : B < nB) (hq : q < Q) (hc : c < r) :
    B * (Q * r) + q * r + c < nB * (Q * r) := by
  have h1 : (q + 1) * r ≤ Q * r := Nat.mul_le_mul_right r hq
  have h2 : (B + 1) * (Q * r) ≤ nB * (Q * r) := Nat.mul_le_mul_right (Q * r) hB
  have e1 : (q + 1) * r = q * r + r := by ring
  have e2 : (B + 1) * (Q * r) = B * (Q * r) + Q * r := by ring
  omega

/-- A lane written as block, position in the box and offset below the stride has that
position in its box. -/
theorem boxPos_decomp (l p B q c : Nat) (hp : p ≤ l) (hq : q < 2 ^ p) (hc : c < 2 ^ (l - p)) :
    boxPos (B * 2 ^ l + q * 2 ^ (l - p) + c) l p = q := by
  unfold boxPos
  have hr : 0 < 2 ^ (l - p) := Nat.two_pow_pos _
  have e : B * 2 ^ l + q * 2 ^ (l - p) + c = c + 2 ^ (l - p) * (B * 2 ^ p + q) := by
    rw [pow_split l p hp]; ring
  rw [e, Nat.add_mul_div_left _ _ hr, Nat.div_eq_of_lt hc, Nat.zero_add,
    Nat.mul_add_mod_of_lt hq]

theorem decomp_lt_pow (d l p B q c : Nat) (hp : p ≤ l) (hl : l ≤ d) (hB : B < 2 ^ (d - l))
    (hq : q < 2 ^ p) (hc : c < 2 ^ (l - p)) :
    B * 2 ^ l + q * 2 ^ (l - p) + c < 2 ^ d := by
  have := decomp_lt (2 ^ (d - l)) (2 ^ p) (2 ^ (l - p)) B q c hB hq hc
  rw [← pow_split l p hp, Nat.mul_comm (2 ^ (d - l)), ← pow_split d l hl] at this
  exact this

/-- The partner of a lane given by block, position and offset. -/
theorem getPartner_decomp (l p B q c : Nat) (hp1 : 1 ≤ p) (hp : p ≤ l) (hq : q < 2 ^ p)
    (hc : c < 2 ^ (l - p)) :
    oddEvenMergeSort_GetPartner (B * 2 ^ l + q * 2 ^ (l - p) + c) l p =
      if (p = 1 ∧ q = 0) ∨ (p ≠ 1 ∧ q % 2 = 1 ∧ q + 1 < 2 ^ p) then
        B * 2 ^ l + q * 2 ^ (l - p) + c + 2 ^ (l - p)
      else if (p = 1 ∧ q = 1) ∨ (p ≠ 1 ∧ q % 2 = 0 ∧ 1 ≤ q) then
        B * 2 ^ l + q * 2 ^ (l - p) + c - 2 ^ (l - p)
      else B * 2 ^ l + q * 2 ^ (l - p) + c := by
  rw [getPartner_spec _ l p hp1]
  simp only [isUpper_iff _ l p hp1]
  simp only [isLow_iff, boxPos_decomp l p B q c hp hq hc]

/-! ## One stage on a buffer of zeros and ones -/

theorem PassState_congr (d l p : Nat) (z : Nat → Nat) (g g' : Nat → Bool) (hp : p ≤ l)
    (hl : l ≤ d) (h : ∀ x, x < 2 ^ d → g x = g' x) (hs : PassState d l p z g') :
    PassState d l p z g := by
  intro B q c hB hq hc
  rw [h _ (decomp_lt_pow d l p B q c hp hl hB hq hc)]
  exact hs B q c hB hq hc

theorem passState_first (d l : Nat) (z : Nat → Nat) (f : Nat → Bool) (hl1 : 1 ≤ l) (hld : l ≤ d)
    (hs : BlocksSorted d (l - 1) z f) :
    PassState d l 1 z (passF (fun n => oddEvenMergeSort_GetPartner n l 1) f) := by
  obtain ⟨hz, hf⟩ := hs
  have hL : 2 ^ l = 2 * 2 ^ (l - 1) := two_pow_eq_double l hl1
  have hD : 2 ^ (d - (l - 1)) = 2 * 2 ^ (d - l) := by
    rw [← pow_succ']; congr 1; omega
  rw [hD] at hz hf
  intro B q c hB hq hc
  have hW : 0 < 2 ^ (l - 1) := Nat.two_pow_pos _
  have key := pass_first (2 ^ (l - 1)) (2 ^ (d - l)) z f
    (fun n => oddEvenMergeSort_GetPartner n l 1) hf hz
    (fun B c hB hc => by
      have := getPartner_decomp l 1 B 0 c (le_refl 1) hl1 (by norm_num) hc
      simp only [Nat.zero_mul, Nat.add_zero, true_and, ne_eq, not_true_eq_false, false_and,
        or_false, if_true] at this
      rw [← hL]
      exact this)
    (fun B c hB hc => by
      have := getPartner_decomp l 1 B 1 c (le_refl 1) hl1 (by norm_num) hc
      simp only [Nat.one_mul, true_and, ne_eq, not_true_eq_false, false_and, or_false,
        one_ne_zero, if_false, if_true] at this
      rw [← hL]
      simp only [this]
      omega)
    B q c hB (by simpa using hq) hc
  rw [← hL] at key
  exact key

theorem passState_step (d l p : Nat) (z : Nat → Nat) (f : Nat → Bool) (hp1 : 1 ≤ p)
    (hpl : p + 1 ≤ l) (hld : l ≤ d) (hz : ∀ b, b < 2 ^ (d - (l - 1)) → z b ≤ 2 ^ (l - 1))
    (hs : PassState d l p z f) :
    PassState d l (p + 1) z (passF (fun n => oddEvenMergeSort_GetPartner n l (p + 1)) f) := by
  have hR2 : 2 ^ (l - p) = 2 * 2 ^ (l - (p + 1)) := pow_sub_succ l p hpl
  have hP : 2 ^ p = 2 * 2 ^ (p - 1) := two_pow_eq_double p hp1
  have hP4 : 2 ^ (p + 1) = 4 * 2 ^ (p - 1) := by rw [pow_succ, hP]; ring
  have hL : 2 ^ l = 2 * 2 ^ (p - 1) * (2 * 2 ^ (l - (p + 1))) := by
    rw [pow_split l p (by omega), hP, hR2]
  have hW : 2 ^ (l - 1) = 2 * 2 ^ (l - (p + 1)) * 2 ^ (p - 1) := by
    have h2 : 2 * 2 ^ (l - 1) = 2 * (2 * 2 ^ (l - (p + 1)) * 2 ^ (p - 1)) := by
      rw [← two_pow_eq_double l (by omega), hL]; ring
    omega
  have hD : 2 ^ (d - (l - 1)) = 2 * 2 ^ (d - l) := by
    rw [← pow_succ']; congr 1; omega
  have hr : 0 < 2 ^ (l - (p + 1)) := Nat.two_pow_pos _
  unfold PassState at hs ⊢
  rw [hL, hR2, hP] at hs
  rw [hL, hP4]
  rw [hD, hW] at hz
  intro B q c hB hq hc
  refine pass_later (2 ^ (l - (p + 1))) (2 ^ (p - 1)) (2 ^ (d - l)) z f
    (fun n => oddEvenMergeSort_GetPartner n l (p + 1)) hr hs hz ?_ B q c hB hq hc
  intro B q c hB hq hc
  have := getPartner_decomp l (p + 1) B q c (by omega) hpl (by rw [hP4]; exact hq) hc
  rw [hL, hP4] at this
  have hne : ¬ (p + 1 = 1) := by omega
  simp only [hne, false_and, false_or, ne_eq, not_false_eq_true, true_and] at this
  exact this

theorem passState_last (d l : Nat) (z : Nat → Nat) (f : Nat → Bool) (hl1 : 1 ≤ l) (hld : l ≤ d)
    (hz : ∀ b, b < 2 ^ (d - (l - 1)) → z b ≤ 2 ^ (l - 1))
    (hs : PassState d l l z f) :
    BlocksSorted d l (fun B => z (2 * B) + z (2 * B + 1)) f := by
  have hD : 2 ^ (d - (l - 1)) = 2 * 2 ^ (d - l) := by
    rw [← pow_succ']; congr 1; omega
  have hL : 2 ^ l = 2 * 2 ^ (l - 1) := two_pow_eq_double l hl1
  rw [hD] at hz
  constructor
  · intro B hB
    have h0 := hz (2 * B) (by omega)
    have h1 := hz (2 * B + 1) (by omega)
    simp only
    omega
  · intro B c hB hc
    have := hs B c 0 hB hc (by simp)
    simp only [Nat.sub_self, pow_zero, Nat.mul_one, Nat.add_zero, cnt_one] at this
    exact this

/-! ## The partner driver sorts zeros and ones -/

theorem Partner_coord_cmpF {α : Type} [LinearOrder α] (N l p : Nat) (hp : 1 ≤ p)
    (f : Nat → α) (x : Nat) (hx : x < N) :
    oddEvenMergeSort_Partner_coord cmpF f N l p x
      = passF (fun n => oddEvenMergeSort_GetPartner n l p) f x := by
  have h := (traceable_Partner_coord N l p).eq_runNet (cmpF (α := α)) f
  simp only at h
  rw [h]
  exact Partner_coord_pass N l p hp f x hx

/-- The passes `1 .. k` of stage `l`, run on a buffer of zeros and ones whose blocks of width
`2^(l-1)` are sorted; `G p` is the effect of the pass `p`, which on the lanes below `2^d` is
the pass of the partner function. -/
theorem stage_passes_gen (d l : Nat) (z : Nat → Nat) (f : Nat → Bool)
    (G : Nat → (Nat → Bool) → Nat → Bool)
    (hG : ∀ p, 1 ≤ p → p ≤ l → ∀ g x, x < 2 ^ d →
      G p g x = passF (fun n => oddEvenMergeSort_GetPartner n l p) g x)
    (hl1 : 1 ≤ l) (hld : l ≤ d)
    (hs : BlocksSorted d (l - 1) z f) (k : Nat) (hk : k + 1 ≤ l) :
    PassState d l (k + 1) z
      (((List.range (k + 1)).map (fun t => t + 1)).foldl (fun s p => G p s) f) := by
  induction k with
  | zero =>
    have hr1 : List.range (0 + 1) = [0] := rfl
    simp only [hr1, Nat.zero_add, List.map_cons, List.map_nil, List.foldl_cons,
      List.foldl_nil]
    exact PassState_congr d l 1 z _ _ hk hld
      (fun x hx => hG 1 (le_refl 1) hk f x hx)
      (passState_first d l z f hl1 hld hs)
  | succ k ih =>
    rw [List.range_succ, List.map_append, List.foldl_append]
    simp only [List.map_cons, List.map_nil, List.foldl_cons, List.foldl_nil]
    exact PassState_congr d l (k + 1 + 1) z _ _ hk hld
      (fun x hx => hG (k + 1 + 1) (by omega) hk _ x hx)
      (passState_step d l (k + 1) z _ (by omega) hk hld hs.1 (ih (by omega)))

/-- Stage `l` merges the sorted blocks of width `2^(l-1)` in pairs. -/
theorem stage_sorts_gen (d l : Nat) (z : Nat → Nat) (f : Nat → Bool)
    (G : Nat → (Nat → Bool) → Nat → Bool)
    (hG : ∀ p, 1 ≤ p → p ≤ l → ∀ g x, x < 2 ^ d →
      G p g x = passF (fun n => oddEvenMergeSort_GetPartner n l p) g x)
    (hl1 : 1 ≤ l) (hld : l ≤ d)
    (hs : BlocksSorted d (l - 1) z f) :
    BlocksSorted d l (fun B => z (2 * B) + z (2 * B + 1))
      (((List.range l).map (fun t => t + 1)).foldl (fun s p => G p s) f) := by
  obtain ⟨k, rfl⟩ : ∃ k, l = k + 1 := ⟨l - 1, by omega⟩
  exact passState_last d (k + 1) z _ hl1 hld hs.1
    (stage_passes_gen d (k + 1) z f G hG hl1 hld hs k (le_refl _))

theorem stage_sorts (d l : Nat) (z : Nat → Nat) (f : Nat → Bool) (hl1 : 1 ≤ l) (hld : l ≤ d)
    (hs : BlocksSorted d (l - 1) z f) :
    BlocksSorted d l (fun B => z (2 * B) + z (2 * B + 1))
      (((List.range l).map (fun t => t + 1)).foldl
        (fun s p => oddEvenMergeSort_Partner_coord cmpF s (2 ^ d) l p) f) :=
  stage_sorts_gen d l z f (fun p s => oddEvenMergeSort_Partner_coord cmpF s (2 ^ d) l p)
    (fun p hp1 _ g x hx => Partner_coord_cmpF (2 ^ d) l p hp1 g x hx) hl1 hld hs

theorem blocksSorted_zero (d : Nat) (f : Nat → Bool) :
    BlocksSorted d 0 (fun b => if f b then 0 else 1) f := by
  constructor
  · intro b _
    simp only [pow_zero]
    split_ifs <;> omega
  · intro b c _ hc
    have hc0 : c = 0 := by simpa using hc
    subst hc0
    simp only [pow_zero, Nat.mul_one, Nat.add_zero]
    by_cases hfb : f b = true
    · simp [hfb]
    · simp [hfb]

/-- The stages `1 .. k` leave the blocks of width `2^k` sorted. -/
theorem stages_sort (d : Nat) (f : Nat → Bool) (k : Nat) (hk : k ≤ d) :
    ∃ z, BlocksSorted d k z
      (((List.range k).map (fun t => t + 1)).foldl
        (fun s l => ((List.range l).map (fun t => t + 1)).foldl
          (fun s p => oddEvenMergeSort_Partner_coord cmpF s (2 ^ d) l p) s) f) := by
  induction k with
  | zero => exact ⟨_, blocksSorted_zero d f⟩
  | succ k ih =>
    obtain ⟨z, hz⟩ := ih (by omega)
    rw [List.range_succ, List.map_append, List.foldl_append]
    simp only [List.map_cons, List.map_nil, List.foldl_cons, List.foldl_nil]
    exact ⟨_, stage_sorts d (k + 1) z _ (by omega) hk (by simpa using hz)⟩

theorem bitScanReverse_go_two_pow (d fuel : Nat) (h : d ≤ fuel) :
    bitScanReverse_go fuel (2 ^ d) = d := by
  induction d generalizing fuel with
  | zero => cases fuel <;> simp [bitScanReverse_go]
  | succ k ih =>
    cases fuel with
    | zero => omega
    | succ m =>
      have h2 : 2 ≤ 2 ^ (k + 1) := by
        have := Nat.one_le_two_pow (n := k)
        rw [pow_succ]; omega
      have h3 : 2 ^ (k + 1) / 2 = 2 ^ k := by rw [pow_succ]; simp
      simp only [bitScanReverse_go, ge_iff_le, h2, if_true, h3]
      rw [ih m (by omega)]

theorem bitScanReverse_two_pow (d : Nat) : bitScanReverse (2 ^ d) = d :=
  bitScanReverse_go_two_pow d _ (le_of_lt (Nat.lt_two_pow d))

/-- The driver as the two loops over the coordinates. -/
theorem Partner_eq_foldl {σ : Type} (cmp : σ → Nat → Nat → σ) (s : σ) (N : Nat) :
    oddEvenMergeSort_Partner cmp s N =
      ((List.range (bitScanReverse N)).map (fun t => t + 1)).foldl
        (fun s l => ((List.range l).map (fun t => t + 1)).foldl
          (fun s p => oddEvenMergeSort_Partner_coord cmp s N l p) s) s := by
  unfold oddEvenMergeSort_Partner
  simp only [cfor_eq_foldl, cforIter_count_le _ _ (le_refl _)]

/-- On a buffer of zeros and ones of length `2^d` the partner driver leaves a sorted buffer. -/
theorem Partner_sorts_bool (d : Nat) (f : Nat → Bool) (i j : Nat) (hij : i ≤ j)
    (hj : j < 2 ^ d) :
    oddEvenMergeSort_Partner cmpF f (2 ^ d) i ≤ oddEvenMergeSort_Partner cmpF f (2 ^ d) j := by
  rw [Partner_eq_foldl, bitScanReverse_two_pow]
  obtain ⟨z, _, hz⟩ := stages_sort d f d (le_refl d)
  have hi := hz 0 i (by simp) (by omega)
  have hj' := hz 0 j (by simp) hj
  simp only [Nat.zero_mul, Nat.zero_add] at hi hj'
  rw [hi, hj']
  by_cases h : z 0 ≤ i
  · have h' : z 0 ≤ j := by omega
    simp [h, h']
  · simp [h]

/-! ## Zero-one principle -/

theorem cmpF_map {α β : Type} [LinearOrder α] [LinearOrder β] (g : α → β) (hg : Monotone g)
    (f : Nat → α) (i j : Nat) :
    cmpF (fun x => g (f x)) i j = fun x => g (cmpF f i j x) := by
  funext x
  rw [cmpF_apply, cmpF_apply]
  split_ifs
  · exact (hg.map_min).symm
  · exact (hg.map_max).symm
  · rfl

/-- A monotone map of the values commutes with any sequence of `compare` calls. -/
theorem runNet_cmpF_map {α β : Type} [LinearOrder α] [LinearOrder β] (g : α → β)
    (hg : Monotone g) (net : List Comparator) (f : Nat → α) :
    runNet cmpF net (fun x => g (f x)) = fun x => g (runNet cmpF net f x) := by
  induction net generalizing f with
  | nil => rfl
  | cons c rest ih => rw [runNet_cons, runNet_cons, cmpF_map g hg, ih]

theorem threshold_monotone (v : Int) : Monotone (fun x : Int => decide (v ≤ x)) := by
  intro x y hxy
  by_cases h : v ≤ x
  · have h' : v ≤ y := le_trans h hxy
    simp [h, h']
  · simp [h]

/-- A sequence of `compare` calls that sorts the first `N` entries of every buffer of zeros
and ones sorts the first `N` entries of every buffer. -/
theorem zero_one_principle (net : List Comparator) (N : Nat)
    (h01 : ∀ (f : Nat → Bool) (i j : Nat), i ≤ j → j < N →
      runNet cmpF net f i ≤ runNet cmpF net f j)
    (f : Nat → Int) (i j : Nat) (hij : i ≤ j) (hj : j < N) :
    runNet cmpF net f i ≤ runNet cmpF net f j := by
  by_contra hcon
  have hlt : runNet cmpF net f j < runNet cmpF net f i := not_le.1 hcon
  have h := h01 (fun x => decide (runNet cmpF net f i ≤ f x)) i j hij hj
  rw [runNet_cmpF_map (fun x : Int => decide (runNet cmpF net f i ≤ x))
    (threshold_monotone _) net f] at h
  simp only [le_refl, decide_True] at h
  have : ¬ (runNet cmpF net f i ≤ runNet cmpF net f j) := hcon
  simp only [this, decide_False] at h
  exact absurd h (by decide)

/-- On a buffer of length `2^d`, seen as a function, the partner driver leaves a sorted
buffer. -/
theorem Partner_sorts_fun (d : Nat) (f : Nat → Int) (i j : Nat) (hij : i ≤ j) (hj : j < 2 ^ d) :
    oddEvenMergeSort_Partner cmpF f (2 ^ d) i ≤ oddEvenMergeSort_Partner cmpF f (2 ^ d) j := by
  have h := fun (α : Type) (inst : LinearOrder α) (g : Nat → α) =>
    (traceable_Partner (2 ^ d)).eq_runNet (cmpF (α := α)) g
  simp only at h
  rw [h Int _ f]
  apply zero_one_principle _ (2 ^ d) _ f i j hij hj
  intro g i j hij hj
  rw [← h Bool _ g]
  exact Partner_sorts_bool d g i j hij hj

/-! ## Buffers with an extent -/

theorem view_eq_getElem (a : Buf) (i : Nat) (h : i < a.length) : view a i = a[i] := by
  simp [view, List.getD_eq_getElem?_getD, List.getElem?_eq_getElem h]

theorem compare_view (a : Buf) (i j : Nat) (hi : i < a.length) (hj : j < a.length) :
    ∃ b, compare a i j = some b ∧ b.length = a.length ∧ view b = cmpF (view a) i j := by
  unfold compare
  rw [dif_pos ⟨hi, hj⟩]
  by_cases hgt : a[i] > a[j]
  · rw [if_pos hgt]
    unfold exchange
    rw [dif_pos ⟨hi, hj⟩]
    refine ⟨_, rfl, by simp, ?_⟩
    funext x
    have hgt' : view a i > view a j := by
      rw [view_eq_getElem a i hi, view_eq_getElem a j hj]; exact hgt
    unfold cmpF
    rw [if_pos hgt']
    simp only [view, List.getD_eq_getElem?_getD, List.getElem?_set]
    have hij : i ≠ j := by
      rintro rfl
      exact lt_irrefl _ hgt
    by_cases hxi : x = i
    · subst hxi
      simp [hij, Ne.symm hij, hi, hj, List.getElem?_eq_getElem]
    · by_cases hxj : x = j
      · subst hxj
        simp [hxi, hi, hj, List.getElem?_eq_getElem]
      · simp [hxi, hxj, Ne.symm hxi, Ne.symm hxj]
  · rw [if_neg hgt]
    refine ⟨a, rfl, rfl, ?_⟩
    have hgt' : ¬ view a i > view a j := by
      rw [view_eq_getElem a i hi, view_eq_getElem a j hj]; exact hgt
    unfold cmpF
    rw [if_neg hgt']

/-- A sequence of `compare` calls with all indices inside the extent runs to the end, keeps
the length and acts on the contents as on a function. -/
theorem runNet_step_view (net : List Comparator) (a : Buf)
    (h : ∀ c ∈ net, c.1 < a.length ∧ c.2 < a.length) :
    ∃ b, runNet step net (some a) = some b ∧ b.length = a.length
      ∧ view b = runNet cmpF net (view a) := by
  induction net generalizing a with
  | nil => exact ⟨a, rfl, rfl, rfl⟩
  | cons c rest ih =>
    obtain ⟨h1, h2⟩ := h c (List.mem_cons_self _ _)
    obtain ⟨b, hb, hlen, hview⟩ := compare_view a c.1 c.2 h1 h2
    obtain ⟨b', hb', hlen', hview'⟩ := ih b (fun c' hc' => by
      rw [hlen]; exact h c' (List.mem_cons_of_mem _ hc'))
    refine ⟨b', ?_, by rw [hlen', hlen], ?_⟩
    · rw [runNet_cons]
      simp only [step, Option.some_bind, hb]
      exact hb'
    · rw [runNet_cons, hview', hview]

/-! ## Index range of the partner driver -/

/-- Every lane below `2^d` is given by its block of width `2^l`, its position in the box and
its offset below the stride. -/
theorem exists_decomp (d l p x : Nat) (hp : p ≤ l) (hl : l ≤ d) (hx : x < 2 ^ d) :
    ∃ B q c, B < 2 ^ (d - l) ∧ q < 2 ^ p ∧ c < 2 ^ (l - p)
      ∧ x = B * 2 ^ l + q * 2 ^ (l - p) + c := by
  have hL : 0 < 2 ^ l := Nat.two_pow_pos _
  have hr : 0 < 2 ^ (l - p) := Nat.two_pow_pos _
  refine ⟨x / 2 ^ l, (x % 2 ^ l) / 2 ^ (l - p), (x % 2 ^ l) % 2 ^ (l - p), ?_, ?_, ?_, ?_⟩
  · apply Nat.div_lt_of_lt_mul
    rw [← pow_split d l hl]
    exact hx
  · apply Nat.div_lt_of_lt_mul
    rw [Nat.mul_comm, ← pow_split l p hp]
    exact Nat.mod_lt _ hL
  · exact Nat.mod_lt _ hr
  · have h1 := Nat.div_add_mod x (2 ^ l)
    have h2 := Nat.div_add_mod (x % 2 ^ l) (2 ^ (l - p))
    rw [Nat.mul_comm] at h1 h2
    omega

theorem getPartner_lt (d l p x : Nat) (hp1 : 1 ≤ p) (hp : p ≤ l) (hl : l ≤ d) (hx : x < 2 ^ d) :
    oddEvenMergeSort_GetPartner x l p < 2 ^ d := by
  obtain ⟨B, q, c, hB, hq, hc, rfl⟩ := exists_decomp d l p x hp hl hx
  have hP := two_pow_eq_double p hp1
  have hP1 : 1 ≤ 2 ^ (p - 1) := Nat.one_le_two_pow
  rw [getPartner_decomp l p B q c hp1 hp hq hc]
  split_ifs with h1 h2
  · have hq' : q + 1 < 2 ^ p := by
      rcases h1 with ⟨_, h0⟩ | ⟨_, _, h3⟩
      · omega
      · exact h3
    have := decomp_lt_pow d l p B (q + 1) c hp hl hB hq' hc
    have e : (q + 1) * 2 ^ (l - p) = q * 2 ^ (l - p) + 2 ^ (l - p) := by ring
    omega
  · omega
  · exact hx

/-- The calls of the whole driver, coordinate after coordinate. -/
theorem Partner_record (N : Nat) :
    oddEvenMergeSort_Partner record [] N =
      ((List.range (bitScanReverse N)).map (fun t => t + 1)).flatMap (fun l =>
        ((List.range l).map (fun t => t + 1)).flatMap (fun p =>
          oddEvenMergeSort_Partner_coord record [] N l p)) := by
  rw [Partner_eq_foldl]
  rw [foldl_record_flatMap (fun l => ((List.range l).map (fun t => t + 1)).flatMap (fun p =>
          oddEvenMergeSort_Partner_coord record [] N l p))]
  · simp
  · intro L l
    rw [foldl_record_flatMap (fun p => oddEvenMergeSort_Partner_coord record [] N l p)]
    intro L p
    exact (traceable_Partner_coord N l p).record_append L

theorem mem_Partner_record (N : Nat) (c : Comparator) :
    c ∈ oddEvenMergeSort_Partner record [] N ↔
      ∃ l p, 1 ≤ p ∧ p ≤ l ∧ l ≤ bitScanReverse N
        ∧ c ∈ oddEvenMergeSort_Partner_coord record [] N l p := by
  rw [Partner_record]
  simp only [List.mem_flatMap, List.mem_map, List.mem_range]
  constructor
  · rintro ⟨l, ⟨l', hl', rfl⟩, p, ⟨p', hp', rfl⟩, hc⟩
    exact ⟨l' + 1, p' + 1, by omega, by omega, by omega, hc⟩
  · rintro ⟨l, p, hp1, hpl, hld, hc⟩
    exact ⟨l, ⟨l - 1, by omega, by omega⟩, p, ⟨p - 1, by omega, by omega⟩, hc⟩

/-- Every `compare` call of the partner driver on a length `2^d` has its indices in order
and below the length. -/
theorem Partner_calls_in_range (d : Nat) (c : Comparator)
    (hc : c ∈ oddEvenMergeSort_Partner record [] (2 ^ d)) : c.1 < c.2 ∧ c.2 < 2 ^ d := by
  rw [mem_Partner_record, bitScanReverse_two_pow] at hc
  obtain ⟨l, p, hp1, hpl, hld, hc⟩ := hc
  rw [mem_Partner_coord] at hc
  obtain ⟨h1, h2, h3⟩ := hc
  rw [h3]
  exact ⟨h2, getPartner_lt d l p c.1 hp1 hpl hld h1⟩

theorem isNonDecreasing_of_view (b : Buf)
    (h : ∀ i j, i ≤ j → j < b.length → view b i ≤ view b j) : isNonDecreasing b := by
  intro i hi
  have := h i (i + 1) (by omega) hi
  rw [view_eq_getElem b i (by omega), view_eq_getElem b (i + 1) hi] at this
  exact this

/-- The run of the partner driver on a buffer of length `2^d`. -/
theorem Partner_run (d : Nat) (a : Buf) (ha : a.length = 2 ^ d) :
    ∃ b, oddEvenMergeSort_Partner step (some a) (2 ^ d) = some b ∧ b.length = a.length
      ∧ view b = oddEvenMergeSort_Partner cmpF (view a) (2 ^ d) := by
  have h1 := (traceable_Partner (2 ^ d)).eq_runNet step (some a)
  have h2 := (traceable_Partner (2 ^ d)).eq_runNet (cmpF (α := Int)) (view a)
  simp only at h1 h2
  rw [h1, h2]
  apply runNet_step_view
  intro c hc
  have := Partner_calls_in_range d c hc
  rw [ha]
  omega

/-! ## The comparators of a coordinate, by block, position and offset -/

theorem isComp_iff_decomp (d l p : Nat) (hp : p ≤ l) (hl : l ≤ d) (c : Comparator) :
    IsComp (2 ^ d) l p c ↔
      ∃ B q t, B < 2 ^ (d - l) ∧ q < 2 ^ p ∧ t < 2 ^ (l - p)
        ∧ ((p = 1 ∧ q = 0) ∨ (p ≠ 1 ∧ q % 2 = 1 ∧ q + 1 < 2 ^ p))
        ∧ c = (B * 2 ^ l + q * 2 ^ (l - p) + t,
            B * 2 ^ l + q * 2 ^ (l - p) + t + 2 ^ (l - p)) := by
  unfold IsComp
  constructor
  · rintro ⟨h1, h2, h3⟩
    obtain ⟨B, q, t, hB, hq, ht, hx⟩ := exists_decomp d l p c.1 hp hl h1
    refine ⟨B, q, t, hB, hq, ht, ?_, ?_⟩
    · rw [isLow_iff, hx, boxPos_decomp l p B q t hp hq ht] at h2
      exact h2
    · exact Prod.ext hx (by rw [h3, hx])
  · rintro ⟨B, q, t, hB, hq, ht, hlow, rfl⟩
    refine ⟨decomp_lt_pow d l p B q t hp hl hB hq ht, ?_, rfl⟩
    rw [isLow_iff, boxPos_decomp l p B q t hp hq ht]
    exact hlow

/-- The comparators of a coordinate are those of its blocks of width `2^l`, and in every
block they are the same up to the start of the block. -/
theorem isComp_iff_block (d l p : Nat) (hp : p ≤ l) (hl : l ≤ d) (c : Comparator) :
    IsComp (2 ^ d) l p c ↔
      ∃ B, B < 2 ^ (d - l) ∧ ∃ c', IsComp (2 ^ l) l p c' ∧ c = shiftC (B * 2 ^ l) c' := by
  rw [isComp_iff_decomp d l p hp hl]
  constructor
  · rintro ⟨B, q, t, hB, hq, ht, hlow, rfl⟩
    refine ⟨B, hB, (q * 2 ^ (l - p) + t, q * 2 ^ (l - p) + t + 2 ^ (l - p)), ?_, ?_⟩
    · rw [isComp_iff_decomp l l p hp (le_refl l)]
      exact ⟨0, q, t, by simp, hq, ht, hlow, by simp⟩
    · simp only [shiftC, Prod.mk.injEq]
      constructor <;> first | trivial | ring1
  · rintro ⟨B, hB, c', hc', rfl⟩
    rw [isComp_iff_decomp l l p hp (le_refl l)] at hc'
    obtain ⟨B', q, t, hB', hq, ht, hlow, rfl⟩ := hc'
    have hB0 : B' = 0 := by simpa using hB'
    subst hB0
    refine ⟨B, q, t, hB, hq, ht, hlow, ?_⟩
    simp only [shiftC, Prod.mk.injEq, Nat.zero_mul, Nat.zero_add]
    constructor <;> first | trivial | ring1

theorem mem_blockPass0 (k l : Nat) (hl : 1 ≤ l) (c : Comparator) :
    c ∈ blockPass0 k (2 ^ (l - 1)) ↔ ∃ c', IsComp (2 ^ l) l 1 c' ∧ c = shiftC k c' := by
  unfold blockPass0
  simp only [List.mem_map, List.mem_range]
  constructor
  · rintro ⟨t, ht, rfl⟩
    refine ⟨(t, t + 2 ^ (l - 1)), ?_, ?_⟩
    · rw [isComp_iff_decomp l l 1 hl (le_refl l)]
      exact ⟨0, 0, t, by simp, by norm_num, ht, Or.inl ⟨rfl, rfl⟩, by simp⟩
    · simp only [shiftC, Prod.mk.injEq]
      constructor <;> first | trivial | ring1
  · rintro ⟨c', hc', rfl⟩
    rw [isComp_iff_decomp l l 1 hl (le_refl l)] at hc'
    obtain ⟨B', q, t, hB', hq, ht, hlow, rfl⟩ := hc'
    have hq0 : q = 0 := by
      rcases hlow with ⟨_, h⟩ | ⟨h, _⟩
      · exact h
      · exact absurd rfl h
    have hB0 : B' = 0 := by simpa using hB'
    subst hq0 hB0
    refine ⟨t, ht, ?_⟩
    simp only [shiftC, Prod.mk.injEq, Nat.zero_mul, Nat.zero_add]
    constructor <;> first | trivial | ring1

theorem mem_blockPassR (k l p : Nat) (hp2 : 2 ≤ p) (hp : p ≤ l) (c : Comparator) :
    c ∈ blockPassR k (2 ^ (l - p)) (2 ^ (p - 1) - 1) ↔
      ∃ c', IsComp (2 ^ l) l p c' ∧ c = shiftC k c' := by
  have hP := two_pow_eq_double p (by omega)
  unfold blockPassR
  simp only [List.mem_flatMap, List.mem_map, List.mem_range]
  constructor
  · rintro ⟨t, ht, u, hu, rfl⟩
    refine ⟨((2 * u + 1) * 2 ^ (l - p) + t, (2 * u + 1) * 2 ^ (l - p) + t + 2 ^ (l - p)), ?_, ?_⟩
    · rw [isComp_iff_decomp l l p hp (le_refl l)]
      exact ⟨0, 2 * u + 1, t, by simp, by omega, ht, Or.inr ⟨by omega, by omega, by omega⟩,
        by simp⟩
    · simp only [shiftC, Prod.mk.injEq]
      constructor <;> first | trivial | ring1
  · rintro ⟨c', hc', rfl⟩
    rw [isComp_iff_decomp l l p hp (le_refl l)] at hc'
    obtain ⟨B', q, t, hB', hq, ht, hlow, rfl⟩ := hc'
    have hB0 : B' = 0 := by simpa using hB'
    subst hB0
    rcases hlow with ⟨h, _⟩ | ⟨_, hodd, hlast⟩
    · omega
    · obtain ⟨u, rfl⟩ : ∃ u, q = 2 * u + 1 := ⟨q / 2, by omega⟩
      refine ⟨t, ht, u, by omega, ?_⟩
      simp only [shiftC, Prod.mk.injEq, Nat.zero_mul, Nat.zero_add]
      constructor <;> first | trivial | ring1

/-! ## Recorded calls of the loops of the pass-expanded code -/

theorem cfor_record_map (G : Nat → List Comparator)
    (body : List Comparator → Nat → List Comparator) (h : ∀ L i, body L i = L ++ G i)
    (fuel init : Nat) (cond : Nat → Bool) (next : Nat → Nat) (g : Nat → Nat) (cnt : Nat)
    (hiter : cforIter fuel init cond next = (List.range cnt).map g) (log : List Comparator) :
    cfor fuel init cond next body log = log ++ (List.range cnt).flatMap (fun t => G (g t)) := by
  rw [cfor_record_flatMap G body h, hiter, List.flatMap_map]

theorem lo0_record (k r : Nat) (log : List Comparator) :
    cfor r k (fun lo => decide (lo < k + r)) (fun lo => lo + 1)
      (fun s lo => record s lo (lo + r)) log = log ++ blockPass0 k r := by
  rw [cfor_record_map (fun lo => [(lo, lo + r)]) (fun s lo => record s lo (lo + r))
    (fun L i => rfl) _ _ _ _ (fun t => k + t) r
    (by simpa using cforIter_count k (k + r) r (by omega))]
  unfold blockPass0
  congr 1
  induction (List.range r) with
  | nil => rfl
  | cons x xs ih => simp [List.flatMap_cons, ih]

theorem iLoop_record (lo r j cnt fuel : Nat) (hcnt : ∀ t, lo + r + t * (2 * r) + r < lo + j ↔ t < cnt)
    (hfuel : cnt ≤ fuel) (log : List Comparator) :
    cfor fuel (lo + r) (fun i => decide (i + r < lo + j)) (fun i => i + 2 * r)
      (fun s i => record s i (i + r)) log
      = log ++ (List.range cnt).map (fun u => (lo + r + u * (2 * r), lo + r + u * (2 * r) + r)) := by
  rw [cfor_record_map (fun i => [(i, i + r)]) (fun s i => record s i (i + r))
    (fun L i => rfl) _ _ _ _ (fun t => lo + r + t * (2 * r)) cnt
    (cforIter_stride (lo + r) (lo + j) r (2 * r) cnt fuel hcnt hfuel)]
  congr 1
  induction (List.range cnt) with
  | nil => rfl
  | cons x xs ih => simp [List.flatMap_cons, ih]

theorem loR_record (k r j cnt fuel : Nat)
    (hcnt : ∀ t, (t + 1) * (2 * r) < j ↔ t < cnt) (hfuel : cnt ≤ fuel) (log : List Comparator) :
    cfor r k (fun lo => decide (lo < k + r)) (fun lo => lo + 1)
      (fun s lo => cfor fuel (lo + r) (fun i => decide (i + r < lo + j)) (fun i => i + 2 * r)
        (fun s i => record s i (i + r)) s) log
      = log ++ blockPassR k r cnt := by
  rw [cfor_record_map
    (fun lo => (List.range cnt).map (fun u => (lo + r + u * (2 * r), lo + r + u * (2 * r) + r)))
    _ (fun L lo => iLoop_record lo r j cnt fuel (fun t => by
      rw [← hcnt t]
      have : (t + 1) * (2 * r) = t * (2 * r) + 2 * r := by ring
      omega) hfuel L)
    _ _ _ _ (fun t => k + t) r (by simpa using cforIter_count k (k + r) r (by omega))]
  rfl

/-- The inner loop of a later pass of stage `l` runs `2^(p-1) - 1` times. -/
theorem inner_count (l p : Nat) (hp1 : 1 ≤ p) (hp : p ≤ l) (t : Nat) :
    (t + 1) * (2 * 2 ^ (l - p)) < 2 ^ l ↔ t < 2 ^ (p - 1) - 1 := by
  have h1 : 2 ^ l = 2 ^ (p - 1) * (2 * 2 ^ (l - p)) := by
    rw [pow_split l p hp, two_pow_eq_double p hp1]; ring
  rw [h1]
  have hpos : 0 < 2 * 2 ^ (l - p) := by
    have := Nat.two_pow_pos (l - p); omega
  rw [Nat.mul_lt_mul_right hpos]
  omega

theorem inner_fuel (l p : Nat) (hp1 : 1 ≤ p) (hp : p ≤ l) : 2 ^ (p - 1) - 1 ≤ 2 ^ l := by
  have h1 : 2 ^ (p - 1) ≤ 2 ^ l := Nat.pow_le_pow_right (by norm_num) (by omega)
  exact le_trans (Nat.sub_le _ _) h1

theorem blocks_iter (d l fuel : Nat) (hl : l ≤ d) (hfuel : 2 ^ (d - l) ≤ fuel) :
    cforIter fuel 0 (fun k => decide (k < 2 ^ d)) (fun k => k + 2 ^ l)
      = (List.range (2 ^ (d - l))).map (fun B => B * 2 ^ l) :=
  cforIter_blocks d l fuel hl hfuel

theorem blocks_fuel (d l : Nat) : 2 ^ (d - l) ≤ 2 ^ d :=
  Nat.pow_le_pow_right (by norm_num) (by omega)

theorem pass0_record (d l : Nat) (hl : l ≤ d) (log : List Comparator) :
    NCPasses_pass0 record log (2 ^ d) (2 ^ l) (2 ^ (l - 1)) = log ++ passList d l 1 := by
  unfold NCPasses_pass0
  rw [cfor_record_map (fun k => blockPass0 k (2 ^ (l - 1))) _
    (fun L k => lo0_record k (2 ^ (l - 1)) L) _ _ _ _ _ _
    (blocks_iter d l _ hl (blocks_fuel d l))]
  simp only [passList, blockStarts, blockPass, List.flatMap_map, if_true]

theorem passR_record (d l p : Nat) (hp2 : 2 ≤ p) (hp : p ≤ l) (hl : l ≤ d)
    (log : List Comparator) :
    NCPasses_passR record log (2 ^ d) (2 ^ l) (2 ^ (l - p)) = log ++ passList d l p := by
  unfold NCPasses_passR
  simp only [Nat.shiftLeft_eq, pow_one, Nat.mul_comm _ 2]
  rw [cfor_record_map (fun k => blockPassR k (2 ^ (l - p)) (2 ^ (p - 1) - 1)) _
    (fun L k => loR_record k (2 ^ (l - p)) (2 ^ l) (2 ^ (p - 1) - 1) (2 ^ l)
      (inner_count l p (by omega) hp) (inner_fuel l p (by omega) hp) L) _ _ _ _ _ _
    (blocks_iter d l _ hl (blocks_fuel d l))]
  have hp1 : ¬ p = 1 := by omega
  simp only [passList, blockStarts, blockPass, List.flatMap_map, if_neg hp1]

/-! ## Recorded calls of the stages -/

theorem halving_iter_from_half (l fuel : Nat) (hl : 1 ≤ l) (hfuel : l ≤ fuel) :
    cforIter fuel (2 ^ l >>> 1) (fun r => decide (r ≥ 1)) (fun r => r >>> 1)
      = (List.range l).map (fun t => 2 ^ (l - (t + 1))) := by
  obtain ⟨k, rfl⟩ : ∃ k, l = k + 1 := ⟨l - 1, by omega⟩
  have h0 : 2 ^ (k + 1) >>> 1 = 2 ^ k := by
    simp [Nat.shiftRight_eq_div_pow, pow_succ]
  rw [h0, cforIter_halving k fuel hfuel]
  apply List.map_congr_left
  intro t _
  congr 1
  omega

theorem halving_iter_from_quarter (l fuel : Nat) (hl : 1 ≤ l) (hfuel : l ≤ fuel) :
    cforIter fuel ((2 ^ l >>> 1) >>> 1) (fun r => decide (r ≥ 1)) (fun r => r >>> 1)
      = (List.range (l - 1)).map (fun t => 2 ^ (l - (t + 2))) := by
  obtain ⟨k, rfl⟩ : ∃ k, l = k + 1 := ⟨l - 1, by omega⟩
  have h0 : 2 ^ (k + 1) >>> 1 = 2 ^ k := by
    simp [Nat.shiftRight_eq_div_pow, pow_succ]
  rw [h0]
  cases k with
  | zero => simp [cforIter_halving_zero]
  | succ k =>
    rw [halving_iter_from_half (k + 1) fuel (by omega) (by omega)]
    apply List.map_congr_left
    intro t _
    congr 1
    omega

theorem flatMap_congr_range (n : Nat) (F G : Nat → List Comparator)
    (h : ∀ t, t < n → F t = G t) : (List.range n).flatMap F = (List.range n).flatMap G := by
  have : ∀ xs : List Nat, (∀ t ∈ xs, t < n) → xs.flatMap F = xs.flatMap G := by
    intro xs
    induction xs with
    | nil => intro _; rfl
    | cons x rest ih =>
      intro hx
      rw [List.flatMap_cons, List.flatMap_cons, h x (hx x (List.mem_cons_self _ _)),
        ih (fun t ht => hx t (List.mem_cons_of_mem _ ht))]
  exact this _ (fun t ht => List.mem_range.1 ht)

theorem stageList_eq (d l : Nat) (hl : 1 ≤ l) :
    stageList d l = passList d l 1 ++ (List.range (l - 1)).flatMap (fun t => passList d l (t + 2)) := by
  obtain ⟨k, rfl⟩ : ∃ k, l = k + 1 := ⟨l - 1, by omega⟩
  unfold stageList
  rw [List.range_succ_eq_map, List.map_cons, List.flatMap_cons, List.map_map, List.flatMap_map]
  rfl

theorem blockMerge_eq (k l : Nat) (hl : 1 ≤ l) :
    blockMerge k l = blockPass k l 1 ++ (List.range (l - 1)).flatMap (fun t => blockPass k l (t + 2)) := by
  obtain ⟨m, rfl⟩ : ∃ m, l = m + 1 := ⟨l - 1, by omega⟩
  unfold blockMerge
  rw [List.range_succ_eq_map, List.map_cons, List.flatMap_cons, List.map_map, List.flatMap_map]
  rfl

theorem Branchless_stage_record (d l : Nat) (hl1 : 1 ≤ l) (hl : l ≤ d) (log : List Comparator) :
    oddEvenMergeSort_NCPasses_Branchless_stage record log (2 ^ d) (2 ^ l) = log ++ stageList d l := by
  unfold oddEvenMergeSort_NCPasses_Branchless_stage
  simp only
  have h0 : 2 ^ l >>> 1 = 2 ^ (l - 1) := by
    obtain ⟨k, rfl⟩ : ∃ k, l = k + 1 := ⟨l - 1, by omega⟩
    simp [Nat.shiftRight_eq_div_pow, pow_succ]
  rw [cfor_record_map (fun r => NCPasses_passR record [] (2 ^ d) (2 ^ l) r)
    (fun s r => NCPasses_passR record s (2 ^ d) (2 ^ l) r)
    (fun L r => (traceable_passR (2 ^ d) (2 ^ l) r).record_append L) _ _ _ _ _ _
    (halving_iter_from_quarter l _ hl1 (le_of_lt (Nat.lt_two_pow l)))]
  rw [h0, pass0_record d l hl, stageList_eq d l hl1, List.append_assoc]
  congr 2
  apply flatMap_congr_range
  intro t ht
  have := passR_record d l (t + 2) (by omega) (by omega) hl []
  simpa using this

theorem two_pow_ne_half (l p : Nat) (hp2 : 2 ≤ p) (hp : p ≤ l) : ¬ (2 ^ (l - p) = 2 ^ l >>> 1) := by
  have h0 : 2 ^ l >>> 1 = 2 ^ (l - 1) := by
    obtain ⟨k, rfl⟩ : ∃ k, l = k + 1 := ⟨l - 1, by omega⟩
    simp [Nat.shiftRight_eq_div_pow, pow_succ]
  rw [h0]
  intro h
  have := Nat.pow_right_injective (le_refl 2) h
  omega

theorem Branched_pass_record (d l p : Nat) (hp1 : 1 ≤ p) (hp : p ≤ l) (hl : l ≤ d)
    (log : List Comparator) :
    NCPasses_Branched_pass record log (2 ^ d) (2 ^ l) (2 ^ (l - p)) = log ++ passList d l p := by
  by_cases h1 : p = 1
  · subst h1
    have h0 : 2 ^ l >>> 1 = 2 ^ (l - 1) := by
      obtain ⟨k, rfl⟩ : ∃ k, l = k + 1 := ⟨l - 1, by omega⟩
      simp [Nat.shiftRight_eq_div_pow, pow_succ]
    have := pass0_record d l hl log
    unfold NCPasses_pass0 at this
    unfold NCPasses_Branched_pass
    simp only [h0, if_true]
    exact this
  · have := passR_record d l p (by omega) hp hl log
    unfold NCPasses_passR at this
    unfold NCPasses_Branched_pass
    simp only [two_pow_ne_half l p (by omega) hp, if_false]
    exact this

theorem Branched_stage_record (d l : Nat) (hl1 : 1 ≤ l) (hl : l ≤ d) (log : List Comparator) :
    oddEvenMergeSort_NCPasses_Branched_stage record log (2 ^ d) (2 ^ l) = log ++ stageList d l := by
  unfold oddEvenMergeSort_NCPasses_Branched_stage
  rw [cfor_record_map (fun r => NCPasses_Branched_pass record [] (2 ^ d) (2 ^ l) r)
    (fun s r => NCPasses_Branched_pass record s (2 ^ d) (2 ^ l) r)
    (fun L r => (traceable_Branched_pass (2 ^ d) (2 ^ l) r).record_append L) _ _ _ _ _ _
    (halving_iter_from_half l _ hl1 (le_of_lt (Nat.lt_two_pow l)))]
  congr 1
  unfold stageList
  rw [List.flatMap_map]
  apply flatMap_congr_range
  intro t ht
  have := Branched_pass_record d l (t + 1) (by omega) (by omega) hl []
  simpa using this

/-- The calls of a whole stage-by-stage driver on a length `2^d`, stage after stage. -/
theorem stages_record (d : Nat) (SL : Nat → List Comparator)
    (stage : List Comparator → Nat → Nat → List Comparator)
    (hstage : ∀ l, 1 ≤ l → l ≤ d → ∀ log, stage log (2 ^ d) (2 ^ l) = log ++ SL l)
    (happ : ∀ log j, stage log (2 ^ d) j = log ++ stage [] (2 ^ d) j) (log : List Comparator) :
    cfor (2 ^ d) 2 (fun j => decide (j ≤ 2 ^ d)) (fun j => j <<< 1)
      (fun s j => stage s (2 ^ d) j) log
      = log ++ ((List.range d).map (fun t => t + 1)).flatMap (fun l => SL l) := by
  rw [cfor_record_map (fun j => stage [] (2 ^ d) j) (fun s j => stage s (2 ^ d) j)
    (fun L j => happ L j) _ _ _ _ _ _
    (cforIter_doubling d _ (le_of_lt (Nat.lt_two_pow d)))]
  congr 1
  rw [List.flatMap_map]
  apply flatMap_congr_range
  intro t ht
  have := hstage (t + 1) (by omega) (by omega) []
  simpa using this

theorem Branchless_record (d : Nat) :
    oddEvenMergeSort_NCPasses_Branchless record [] (2 ^ d)
      = ((List.range d).map (fun t => t + 1)).flatMap (fun l => stageList d l) := by
  unfold oddEvenMergeSort_NCPasses_Branchless
  rw [stages_record d (stageList d)
    (fun s n j => oddEvenMergeSort_NCPasses_Branchless_stage record s n j)
    (fun l h1 h2 log => Branchless_stage_record d l h1 h2 log)
    (fun log j => (traceable_Branchless_stage (2 ^ d) j).record_append log)]
  simp

theorem Branched_record (d : Nat) :
    oddEvenMergeSort_NCPasses_Branched record [] (2 ^ d)
      = ((List.range d).map (fun t => t + 1)).flatMap (fun l => stageList d l) := by
  unfold oddEvenMergeSort_NCPasses_Branched
  rw [stages_record d (stageList d)
    (fun s n j => oddEvenMergeSort_NCPasses_Branched_stage record s n j)
    (fun l h1 h2 log => Branched_stage_record d l h1 h2 log)
    (fun log j => (traceable_Branched_stage (2 ^ d) j).record_append log)]
  simp

/-! ## Membership in the passes -/

theorem mem_blockPass (k l p : Nat) (hp1 : 1 ≤ p) (hp : p ≤ l) (c : Comparator) :
    c ∈ blockPass k l p ↔ ∃ c', IsComp (2 ^ l) l p c' ∧ c = shiftC k c' := by
  unfold blockPass
  by_cases h1 : p = 1
  · subst h1
    rw [if_pos rfl]
    exact mem_blockPass0 k l hp c
  · rw [if_neg h1]
    exact mem_blockPassR k l p (by omega) hp c

theorem mem_passList (d l p : Nat) (hp1 : 1 ≤ p) (hp : p ≤ l) (hl : l ≤ d) (c : Comparator) :
    c ∈ passList d l p ↔ IsComp (2 ^ d) l p c := by
  rw [isComp_iff_block d l p hp hl]
  unfold passList blockStarts
  simp only [List.mem_flatMap, List.mem_map, List.mem_range]
  constructor
  · rintro ⟨k, ⟨B, hB, rfl⟩, hc⟩
    exact ⟨B, hB, (mem_blockPass _ l p hp1 hp c).1 hc⟩
  · rintro ⟨B, hB, hc⟩
    exact ⟨B * 2 ^ l, ⟨B, hB, rfl⟩, (mem_blockPass _ l p hp1 hp c).2 hc⟩

theorem mem_stageList (d l : Nat) (hl : l ≤ d) (c : Comparator) :
    c ∈ stageList d l ↔ ∃ p, 1 ≤ p ∧ p ≤ l ∧ IsComp (2 ^ d) l p c := by
  unfold stageList
  simp only [List.mem_flatMap, List.mem_map, List.mem_range]
  constructor
  · rintro ⟨p, ⟨t, ht, rfl⟩, hc⟩
    exact ⟨t + 1, by omega, by omega, (mem_passList d l (t + 1) (by omega) (by omega) hl c).1 hc⟩
  · rintro ⟨p, hp1, hp, hc⟩
    exact ⟨p, ⟨p - 1, by omega, by omega⟩, (mem_passList d l p hp1 hp hl c).2 hc⟩

theorem mem_blockMerge (k l : Nat) (c : Comparator) :
    c ∈ blockMerge k l ↔ ∃ p, 1 ≤ p ∧ p ≤ l ∧ ∃ c', IsComp (2 ^ l) l p c' ∧ c = shiftC k c' := by
  unfold blockMerge
  simp only [List.mem_flatMap, List.mem_map, List.mem_range]
  constructor
  · rintro ⟨p, ⟨t, ht, rfl⟩, hc⟩
    exact ⟨t + 1, by omega, by omega, (mem_blockPass k l (t + 1) (by omega) (by omega) c).1 hc⟩
  · rintro ⟨p, hp1, hp, hc⟩
    exact ⟨p, ⟨p - 1, by omega, by omega⟩, (mem_blockPass k l p hp1 hp c).2 hc⟩

/-- The stride tells the pass inside a stage. -/
theorem stride_injective (l p p' : Nat) (hp : p ≤ l) (hp' : p' ≤ l)
    (h : 2 ^ (l - p) = 2 ^ (l - p')) : p = p' := by
  have := Nat.pow_right_injective (le_refl 2) h
  omega

theorem mem_atStride (r : Nat) (calls : List Comparator) (c : Comparator) :
    c ∈ atStride r calls ↔ c ∈ calls ∧ c.2 = c.1 + r := by
  simp [atStride, List.mem_filter]

theorem mem_atStride_stageList (d l p : Nat) (hp1 : 1 ≤ p) (hp : p ≤ l) (hl : l ≤ d)
    (c : Comparator) :
    c ∈ atStride (2 ^ (l - p)) (stageList d l) ↔ IsComp (2 ^ d) l p c := by
  rw [mem_atStride, mem_stageList d l hl]
  constructor
  · rintro ⟨⟨p', hp1', hp', hc⟩, hs⟩
    have : p' = p := by
      apply stride_injective l p' p hp' hp
      have := hc.2.2
      omega
    subst this
    exact hc
  · intro hc
    exact ⟨⟨p, hp1, hp, hc⟩, hc.2.2⟩

/-- The calls of a coordinate of the partner driver are the comparators of the coordinate. -/
theorem mem_Partner_coord_iff (N l p : Nat) (hp1 : 1 ≤ p) (c : Comparator) :
    c ∈ oddEvenMergeSort_Partner_coord record [] N l p ↔ IsComp N l p c := by
  rw [mem_Partner_coord]
  unfold IsComp
  constructor
  · rintro ⟨h1, h2, h3⟩
    have hlow := (getPartner_gt_iff c.1 l p hp1).1 h2
    exact ⟨h1, hlow, by rw [h3, getPartner_of_low c.1 l p hp1 hlow]⟩
  · rintro ⟨h1, h2, h3⟩
    exact ⟨h1, (getPartner_gt_iff c.1 l p hp1).2 h2, by rw [h3, getPartner_of_low c.1 l p hp1 h2]⟩

/-! ## No call is made twice in a stage -/

theorem nodup_flatMap_key {α β γ : Type} (xs : List α) (F : α → List β) (tag : α → γ)
    (key : β → γ) (hxs : xs.Nodup) (hinj : ∀ x ∈ xs, ∀ y ∈ xs, tag x = tag y → x = y)
    (hF : ∀ x ∈ xs, (F x).Nodup) (hkey : ∀ x ∈ xs, ∀ c ∈ F x, key c = tag x) :
    (xs.flatMap F).Nodup := by
  rw [List.nodup_flatMap]
  refine ⟨hF, hxs.pairwise_of_forall_ne ?_⟩
  intro x hx y hy hne
  show List.Disjoint (F x) (F y)
  intro c hcx hcy
  exact hne (hinj x hx y hy (by rw [← hkey x hx c hcx, ← hkey y hy c hcy]))

theorem nodup_map_range {β : Type} (n : Nat) (g : Nat → β)
    (hinj : ∀ a, a < n → ∀ b, b < n → g a = g b → a = b) : ((List.range n).map g).Nodup :=
  List.Nodup.map_on (fun x hx y hy h => hinj x (List.mem_range.1 hx) y (List.mem_range.1 hy) h)
    (List.nodup_range n)

theorem nodup_blockPass0 (k r : Nat) : (blockPass0 k r).Nodup := by
  unfold blockPass0
  apply nodup_map_range
  intro a _ b _ h
  simp only [Prod.mk.injEq] at h
  omega

theorem nodup_blockPassR (k r cnt : Nat) : (blockPassR k r cnt).Nodup := by
  unfold blockPassR
  by_cases hr : r = 0
  · subst hr; simp
  have hr' : 0 < r := Nat.pos_of_ne_zero hr
  apply nodup_flatMap_key (List.range r) _ (fun t => t) (fun c => (c.1 - k) % r)
    (List.nodup_range r) (fun x _ y _ h => h)
  · intro t _
    apply nodup_map_range
    intro a _ b _ h
    simp only [Prod.mk.injEq] at h
    have h1 : a * (2 * r) = b * (2 * r) := by omega
    exact Nat.eq_of_mul_eq_mul_right (by omega) h1
  · intro t ht c hc
    rw [List.mem_range] at ht
    simp only [List.mem_map, List.mem_range] at hc
    obtain ⟨u, _, rfl⟩ := hc
    simp only
    have e : k + t + r + u * (2 * r) - k = t + r * (1 + 2 * u) := by
      have : u * (2 * r) = r * (2 * u) := by ring
      have : r * (1 + 2 * u) = r + r * (2 * u) := by ring
      omega
    rw [e, Nat.add_mul_mod_self_left, Nat.mod_eq_of_lt ht]

theorem nodup_blockPass (k l p : Nat) : (blockPass k l p).Nodup := by
  unfold blockPass
  split_ifs
  · exact nodup_blockPass0 _ _
  · exact nodup_blockPassR _ _ _

theorem nodup_blockStarts (d l : Nat) : (blockStarts d l).Nodup := by
  unfold blockStarts
  apply nodup_map_range
  intro a _ b _ h
  exact Nat.eq_of_mul_eq_mul_right (Nat.two_pow_pos l) h

theorem blockPass_key (B l p : Nat) (hp1 : 1 ≤ p) (hp : p ≤ l) (c : Comparator)
    (hc : c ∈ blockPass (B * 2 ^ l) l p) : c.1 / 2 ^ l = B := by
  rw [mem_blockPass _ l p hp1 hp] at hc
  obtain ⟨c', hc', rfl⟩ := hc
  have h1 : c'.1 < 2 ^ l := hc'.1
  simp only [shiftC]
  rw [Nat.mul_comm, Nat.mul_add_div (Nat.two_pow_pos l), Nat.div_eq_of_lt h1, Nat.add_zero]

theorem nodup_passList (d l p : Nat) (hp1 : 1 ≤ p) (hp : p ≤ l) : (passList d l p).Nodup := by
  unfold passList
  apply nodup_flatMap_key (blockStarts d l) _ (fun k => k / 2 ^ l) (fun c => c.1 / 2 ^ l)
    (nodup_blockStarts d l)
  · intro x hx y hy h
    simp only [blockStarts, List.mem_map, List.mem_range] at hx hy
    obtain ⟨a, _, rfl⟩ := hx
    obtain ⟨b, _, rfl⟩ := hy
    simp only [Nat.mul_div_cancel _ (Nat.two_pow_pos l)] at h
    rw [h]
  · intro k _
    exact nodup_blockPass k l p
  · intro k hk c hc
    simp only [blockStarts, List.mem_map, List.mem_range] at hk
    obtain ⟨B, _, rfl⟩ := hk
    simp only [Nat.mul_div_cancel _ (Nat.two_pow_pos l)]
    exact blockPass_key B l p hp1 hp c hc

theorem nodup_succ_range (l : Nat) : ((List.range l).map (fun t => t + 1)).Nodup :=
  nodup_map_range l _ (fun a _ b _ h => by omega)

theorem nodup_stageList (d l : Nat) (hl : l ≤ d) : (stageList d l).Nodup := by
  unfold stageList
  apply nodup_flatMap_key _ _ (fun p => 2 ^ (l - p)) (fun c => c.2 - c.1) (nodup_succ_range l)
  · intro x hx y hy h
    simp only [List.mem_map, List.mem_range] at hx hy
    obtain ⟨a, _, rfl⟩ := hx
    obtain ⟨b, _, rfl⟩ := hy
    exact stride_injective l _ _ (by omega) (by omega) h
  · intro p hp
    simp only [List.mem_map, List.mem_range] at hp
    obtain ⟨a, _, rfl⟩ := hp
    exact nodup_passList d l (a + 1) (by omega) (by omega)
  · intro p hp c hc
    simp only [List.mem_map, List.mem_range] at hp
    obtain ⟨a, _, rfl⟩ := hp
    rw [mem_passList d l (a + 1) (by omega) (by omega) hl] at hc
    have := hc.2.2
    show c.2 - c.1 = 2 ^ (l - (a + 1))
    generalize 2 ^ (l - (a + 1)) = r at this ⊢
    omega

theorem nodup_blockMerge (k l : Nat) : (blockMerge k l).Nodup := by
  unfold blockMerge
  apply nodup_flatMap_key _ _ (fun p => 2 ^ (l - p)) (fun c => c.2 - c.1) (nodup_succ_range l)
  · intro x hx y hy h
    simp only [List.mem_map, List.mem_range] at hx hy
    obtain ⟨a, _, rfl⟩ := hx
    obtain ⟨b, _, rfl⟩ := hy
    exact stride_injective l _ _ (by omega) (by omega) h
  · intro p _
    exact nodup_blockPass k l p
  · intro p hp c hc
    simp only [List.mem_map, List.mem_range] at hp
    obtain ⟨a, _, rfl⟩ := hp
    rw [mem_blockPass k l (a + 1) (by omega) (by omega)] at hc
    obtain ⟨c', hc', rfl⟩ := hc
    have := hc'.2.2
    show (k + c'.2) - (k + c'.1) = 2 ^ (l - (a + 1))
    generalize 2 ^ (l - (a + 1)) = r at this ⊢
    omega

theorem nodup_Partner_coord (N l p : Nat) :
    (oddEvenMergeSort_Partner_coord record [] N l p).Nodup := by
  rw [Partner_coord_record, List.nil_append]
  apply nodup_flatMap_key (List.range N) _ (fun n => n) (fun c => c.1) (List.nodup_range N)
    (fun x _ y _ h => h)
  · intro n _
    unfold laneCalls
    split_ifs <;> simp
  · intro n _ c hc
    exact ((mem_laneCalls l p n c).1 hc).1

/-! ## Recorded calls of the three merges -/

theorem half_shift (l : Nat) (hl : 1 ≤ l) : 2 ^ l >>> 1 = 2 ^ (l - 1) := by
  obtain ⟨k, rfl⟩ : ∃ k, l = k + 1 := ⟨l - 1, by omega⟩
  simp [Nat.shiftRight_eq_div_pow, pow_succ]

theorem half_div (l : Nat) (hl : 1 ≤ l) : 2 ^ l / 2 = 2 ^ (l - 1) := by
  obtain ⟨k, rfl⟩ : ∃ k, l = k + 1 := ⟨l - 1, by omega⟩
  simp [pow_succ]

theorem r3_record (k l s_r : Nat) (hl1 : 1 ≤ l) (log : List Comparator) :
    oddEvenMerge_r3 record log k (2 ^ l) s_r = log ++ blockMerge k l := by
  unfold oddEvenMerge_r3
  simp only [Nat.shiftLeft_eq, pow_one, Nat.mul_comm _ 2]
  have hbody : ∀ (L : List Comparator) (r : Nat),
      cfor r k (fun lo => decide (lo < k + r)) (fun lo => lo + 1)
        (fun s lo => cfor (2 ^ l) (lo + r) (fun i => decide (i + r < lo + 2 ^ l))
          (fun i => i + 2 * r) (fun s i => record s i (i + r)) s) L
      = L ++ cfor r k (fun lo => decide (lo < k + r)) (fun lo => lo + 1)
        (fun s lo => cfor (2 ^ l) (lo + r) (fun i => decide (i + r < lo + 2 ^ l))
          (fun i => i + 2 * r) (fun s i => record s i (i + r)) s) [] := by
    intro L r
    exact (traceable_cfor r k _ _ (P := fun lo σ cmp s =>
      cfor (2 ^ l) (lo + r) (fun i => decide (i + r < lo + 2 ^ l)) (fun i => i + 2 * r)
        (fun s i => cmp s i (i + r)) s)
      (fun lo => traceable_cfor _ _ _ _ (fun i => traceable_cmp _ _))).record_append L
  rw [cfor_record_map _ _ hbody _ _ _ _ _ _
    (halving_iter_from_quarter l _ hl1 (le_of_lt (Nat.lt_two_pow l)))]
  rw [half_shift l hl1, lo0_record, blockMerge_eq k l hl1, List.append_assoc]
  have e1 : blockPass k l 1 = blockPass0 k (2 ^ (l - 1)) := by simp [blockPass]
  rw [e1]
  congr 2
  apply flatMap_congr_range
  intro t ht
  have := loR_record k (2 ^ (l - (t + 2))) (2 ^ l) (2 ^ (t + 2 - 1) - 1) (2 ^ l)
    (inner_count l (t + 2) (by omega) (by omega)) (inner_fuel l (t + 2) (by omega) (by omega)) []
  have hne : ¬ (t + 2 = 1) := by omega
  simp only [blockPass, if_neg hne]
  simpa using this

theorem r2_record (k l s_r : Nat) (hl1 : 1 ≤ l) (log : List Comparator) :
    oddEvenMerge_r2 record log k (2 ^ l) s_r = log ++ blockMerge k l := by
  unfold oddEvenMerge_r2
  simp only [Nat.mul_comm _ 2]
  have hbody : ∀ (L : List Comparator) (r : Nat),
      cfor r k (fun lo => decide (lo < k + r)) (fun lo => lo + 1)
        (fun s lo => if 2 * r ≥ 2 ^ l then record s lo (lo + r)
          else cfor (2 ^ l) (lo + r) (fun i => decide (i + r < lo + 2 ^ l))
            (fun i => i + 2 * r) (fun s i => record s i (i + r)) s) L
      = L ++ cfor r k (fun lo => decide (lo < k + r)) (fun lo => lo + 1)
        (fun s lo => if 2 * r ≥ 2 ^ l then record s lo (lo + r)
          else cfor (2 ^ l) (lo + r) (fun i => decide (i + r < lo + 2 ^ l))
            (fun i => i + 2 * r) (fun s i => record s i (i + r)) s) [] := by
    intro L r
    exact (traceable_cfor r k _ _ (P := fun lo σ cmp s =>
      if 2 * r ≥ 2 ^ l then cmp s lo (lo + r)
      else cfor (2 ^ l) (lo + r) (fun i => decide (i + r < lo + 2 ^ l)) (fun i => i + 2 * r)
        (fun s i => cmp s i (i + r)) s)
      (fun lo => traceable_ite _ (traceable_cmp _ _)
        (traceable_cfor _ _ _ _ (fun i => traceable_cmp _ _)))).record_append L
  have hiter := halving_iter_from_half l (2 ^ l) hl1 (le_of_lt (Nat.lt_two_pow l))
  rw [half_shift l hl1, ← half_div l hl1] at hiter
  rw [cfor_record_map _ _ hbody _ _ _ _ _ _ hiter]
  congr 1
  unfold blockMerge
  rw [List.flatMap_map]
  apply flatMap_congr_range
  intro t ht
  by_cases h0 : t = 0
  · subst h0
    have hge : 2 * 2 ^ (l - (0 + 1)) ≥ 2 ^ l := by
      rw [← two_pow_eq_double l hl1]
    simp only [hge, if_true, blockPass]
    have := lo0_record k (2 ^ (l - (0 + 1))) []
    simpa using this
  · have hlt : ¬ (2 * 2 ^ (l - (t + 1)) ≥ 2 ^ l) := by
      rw [← pow_succ']
      have : 2 ^ (l - (t + 1) + 1) < 2 ^ l := Nat.pow_lt_pow_right (by norm_num) (by omega)
      omega
    have hne : ¬ (t + 1 = 1) := by omega
    simp only [hlt, if_false, blockPass, if_neg hne]
    have := loR_record k (2 ^ (l - (t + 1))) (2 ^ l) (2 ^ (t + 1 - 1) - 1) (2 ^ l)
      (inner_count l (t + 1) (by omega) (by omega)) (inner_fuel l (t + 1) (by omega) (by omega)) []
    simpa using this

/-- The recursion of `oddEvenMerge_r1` on a piece of length `r * 2^k` with stride `r`. -/
theorem r1_go_record (k : Nat) (hk : 1 ≤ k) (fuel lo r : Nat) (hr : 1 ≤ r) (hfuel : k ≤ fuel)
    (log : List Comparator) :
    oddEvenMerge_r1_go record fuel log lo (r * 2 ^ k) r = log ++ r1List lo r k := by
  induction k generalizing fuel lo r log with
  | zero => omega
  | succ k ih =>
    obtain ⟨fuel', rfl⟩ : ∃ f, fuel = f + 1 := ⟨fuel - 1, by omega⟩
    simp only [oddEvenMerge_r1_go, r1List]
    by_cases hk0 : k = 0
    · subst hk0
      have : r * 2 ≥ r * 2 ^ (0 + 1) := by simp
      simp only [this, if_true]
      rfl
    · have hlt : ¬ (r * 2 ≥ r * 2 ^ (k + 1)) := by
        have h2 : 2 ^ 1 < 2 ^ (k + 1) := Nat.pow_lt_pow_right (by norm_num) (by omega)
        have := Nat.mul_lt_mul_of_pos_left h2 (show 0 < r by omega)
        simp only [pow_one] at this
        omega
      have hn : r * 2 ^ (k + 1) = (2 * r) * 2 ^ k := by rw [pow_succ]; ring
      simp only [hlt, if_false, if_neg hk0]
      rw [Nat.mul_comm r 2, hn]
      rw [ih (by omega) fuel' lo (2 * r) (by omega) (by omega)]
      rw [ih (by omega) fuel' (lo + r) (2 * r) (by omega) (by omega)]
      have hcnt : ∀ t, lo + r + t * (2 * r) + r < lo + 2 * r * 2 ^ k ↔ t < 2 ^ k - 1 := by
        intro t
        have hpos : 0 < 2 * r := by omega
        have e1 : lo + r + t * (2 * r) + r = lo + (t + 1) * (2 * r) := by ring
        have e2 : 2 * r * 2 ^ k = 2 ^ k * (2 * r) := by ring
        rw [e1, e2, Nat.add_lt_add_iff_left, Nat.mul_lt_mul_right hpos]
        omega
      have hf : 2 ^ k - 1 ≤ 2 * r * 2 ^ k := by
        have h1 : 2 ^ k ≤ 2 * r * 2 ^ k := Nat.le_mul_of_pos_left _ (by omega)
        exact le_trans (Nat.sub_le _ _) h1
      rw [iLoop_record lo r (2 * r * 2 ^ k) (2 ^ k - 1) _ hcnt hf]
      simp only [List.append_assoc]

theorem r1_record (k l : Nat) (hl1 : 1 ≤ l) (log : List Comparator) :
    oddEvenMerge_r1 record log k (2 ^ l) 1 = log ++ r1List k 1 l := by
  have := r1_go_record l hl1 (2 ^ l + 1) k 1 (le_refl 1)
    (le_trans (le_of_lt (Nat.lt_two_pow l)) (Nat.le_succ _)) log
  rw [Nat.one_mul] at this
  exact this

/-- Stage `l` of `oddEvenMergeSort_Merge`, over the merge it calls. -/
theorem Merge_stage_record (d l : Nat) (hl : l ≤ d)
    (merge : List Comparator → Nat → Nat → Nat → List Comparator) (G : Nat → List Comparator)
    (hmerge : ∀ log k, merge log k (2 ^ l) 1 = log ++ G k) (log : List Comparator) :
    oddEvenMergeSort_Merge_stage merge log (2 ^ d) (2 ^ l)
      = log ++ (blockStarts d l).flatMap G := by
  unfold oddEvenMergeSort_Merge_stage
  rw [cfor_record_map G (fun s k => merge s k (2 ^ l) 1) (fun L k => hmerge L k) _ _ _ _ _ _
    (blocks_iter d l _ hl (blocks_fuel d l))]
  simp only [blockStarts, List.flatMap_map]

/-! ## The calls of the recursive merge -/

theorem r1List_map (k lo r : Nat) :
    r1List lo r k = (r1List 0 1 k).map (fun c => (lo + r * c.1, lo + r * c.2)) := by
  induction k generalizing lo r with
  | zero => simp [r1List]
  | succ k ih =>
    simp only [r1List]
    by_cases hk0 : k = 0
    · simp [hk0]
    · simp only [if_neg hk0, List.map_append, List.map_map]
      rw [ih lo (2 * r), ih (lo + r) (2 * r), ih 0 (2 * 1), ih (0 + 1) (2 * 1)]
      simp only [List.map_map]
      congr 1
      · congr 1
        · apply List.map_congr_left
          intro c _
          simp only [Function.comp, Prod.mk.injEq]
          constructor <;> ring
        · apply List.map_congr_left
          intro c _
          simp only [Function.comp, Prod.mk.injEq]
          constructor <;> ring
      · apply List.map_congr_left
        intro u _
        simp only [Function.comp, Prod.mk.injEq]
        constructor <;> ring

/-- Below the last pass, the comparators of the merge of width `2^(k+1)` are those of the
merge of width `2^k`, once on the even and once on the odd lanes. -/
theorem isComp_succ (k p : Nat) (hp : p ≤ k) (c : Comparator) :
    IsComp (2 ^ (k + 1)) (k + 1) p c ↔
      ∃ c' e, e < 2 ∧ IsComp (2 ^ k) k p c' ∧ c = (2 * c'.1 + e, 2 * c'.2 + e) := by
  rw [isComp_iff_decomp (k + 1) (k + 1) p (by omega) (le_refl _)]
  have hR : 2 ^ (k + 1 - p) = 2 * 2 ^ (k - p) := by
    rw [← pow_succ']; congr 1; omega
  rw [hR]
  constructor
  · rintro ⟨B, q, t, hB, hq, ht, hlow, rfl⟩
    have hB0 : B = 0 := by simpa using hB
    subst hB0
    refine ⟨(q * 2 ^ (k - p) + t / 2, q * 2 ^ (k - p) + t / 2 + 2 ^ (k - p)), t % 2,
      Nat.mod_lt _ (by norm_num), ?_, ?_⟩
    · rw [isComp_iff_decomp k k p hp (le_refl _)]
      exact ⟨0, q, t / 2, by simp, hq, by omega, hlow, by simp⟩
    · simp only [Nat.zero_mul, Nat.zero_add, Prod.mk.injEq]
      have e1 : q * (2 * 2 ^ (k - p)) = 2 * (q * 2 ^ (k - p)) := by ring
      constructor <;> omega
  · rintro ⟨c', e, he, hc', rfl⟩
    rw [isComp_iff_decomp k k p hp (le_refl _)] at hc'
    obtain ⟨B, q, t, hB, hq, ht, hlow, rfl⟩ := hc'
    have hB0 : B = 0 := by simpa using hB
    subst hB0
    refine ⟨0, q, 2 * t + e, by simp, hq, by omega, hlow, ?_⟩
    simp only [Nat.zero_mul, Nat.zero_add, Prod.mk.injEq]
    have e1 : q * (2 * 2 ^ (k - p)) = 2 * (q * 2 ^ (k - p)) := by ring
    constructor <;> omega

/-- The last pass of the merge of width `2^(k+1)`: lane `2u+1` with lane `2u+2`. -/
theorem isComp_last (k : Nat) (hk : 1 ≤ k) (c : Comparator) :
    IsComp (2 ^ (k + 1)) (k + 1) (k + 1) c ↔ ∃ u, u < 2 ^ k - 1 ∧ c = (2 * u + 1, 2 * u + 2) := by
  rw [isComp_iff_decomp (k + 1) (k + 1) (k + 1) (le_refl _) (le_refl _)]
  have hP : 2 ^ (k + 1) = 2 * 2 ^ k := by rw [pow_succ]; ring
  simp only [Nat.sub_self, pow_zero, Nat.lt_one_iff, Nat.mul_one]
  constructor
  · rintro ⟨B, q, t, hB, hq, ht, hlow, rfl⟩
    subst hB ht
    rcases hlow with ⟨h, _⟩ | ⟨_, hodd, hlast⟩
    · omega
    · refine ⟨q / 2, by omega, ?_⟩
      simp only [Nat.zero_mul, Nat.zero_add, Nat.add_zero, Prod.mk.injEq]
      constructor <;> omega
  · rintro ⟨u, hu, rfl⟩
    refine ⟨0, 2 * u + 1, 0, rfl, by omega, rfl, Or.inr ⟨by omega, by omega, by omega⟩, ?_⟩
    simp

theorem mem_r1List_unit (k : Nat) (hk : 1 ≤ k) (c : Comparator) :
    c ∈ r1List 0 1 k ↔ ∃ p, 1 ≤ p ∧ p ≤ k ∧ IsComp (2 ^ k) k p c := by
  induction k generalizing c with
  | zero => omega
  | succ k ih =>
    simp only [r1List]
    by_cases hk0 : k = 0
    · subst hk0
      simp only [if_true, List.mem_singleton]
      constructor
      · rintro rfl
        refine ⟨1, le_refl _, le_refl _, ?_⟩
        rw [isComp_iff_decomp 1 1 1 (le_refl _) (le_refl _)]
        exact ⟨0, 0, 0, by simp, by simp, by simp, Or.inl ⟨rfl, rfl⟩, by simp⟩
      · rintro ⟨p, hp1, hp, hc⟩
        have hp' : p = 1 := by omega
        subst hp'
        rw [isComp_iff_decomp 1 1 1 (le_refl _) (le_refl _)] at hc
        obtain ⟨B, q, t, hB, hq, ht, hlow, rfl⟩ := hc
        have hB0 : B = 0 := by simpa using hB
        have ht0 : t = 0 := by simpa using ht
        have hq0 : q = 0 := by
          rcases hlow with ⟨_, h⟩ | ⟨h, _⟩
          · exact h
          · exact absurd rfl h
        subst hB0 ht0 hq0
        simp
    · have hk1 : 1 ≤ k := Nat.pos_of_ne_zero hk0
      simp only [if_neg hk0, List.mem_append]
      rw [r1List_map k 0 (2 * 1), r1List_map k (0 + 1) (2 * 1)]
      simp only [List.mem_map, List.mem_range, ih hk1]
      constructor
      · rintro ((⟨c', ⟨p, hp1, hp, hc'⟩, rfl⟩ | ⟨c', ⟨p, hp1, hp, hc'⟩, rfl⟩) | ⟨u, hu, rfl⟩)
        · refine ⟨p, hp1, by omega, (isComp_succ k p hp _).2 ⟨c', 0, by omega, hc', ?_⟩⟩
          simp
        · refine ⟨p, hp1, by omega, (isComp_succ k p hp _).2 ⟨c', 1, by omega, hc', ?_⟩⟩
          simp only [Prod.mk.injEq]
          constructor <;> omega
        · refine ⟨k + 1, by omega, le_refl _, (isComp_last k hk1 _).2 ⟨u, hu, ?_⟩⟩
          simp only [Prod.mk.injEq]
          constructor <;> omega
      · rintro ⟨p, hp1, hp, hc⟩
        by_cases hpk : p ≤ k
        · obtain ⟨c', e, he, hc', rfl⟩ := (isComp_succ k p hpk c).1 hc
          left
          have he' : e = 0 ∨ e = 1 := by omega
          rcases he' with rfl | rfl
          · left
            exact ⟨c', ⟨p, hp1, hpk, hc'⟩, by simp⟩
          · right
            refine ⟨c', ⟨p, hp1, hpk, hc'⟩, ?_⟩
            simp only [Prod.mk.injEq]
            constructor <;> omega
        · have hpe : p = k + 1 := by omega
          subst hpe
          obtain ⟨u, hu, rfl⟩ := (isComp_last k hk1 c).1 hc
          right
          refine ⟨u, hu, ?_⟩
          simp only [Prod.mk.injEq]
          constructor <;> omega

theorem mem_r1List (k l : Nat) (hl : 1 ≤ l) (c : Comparator) :
    c ∈ r1List k 1 l ↔ c ∈ blockMerge k l := by
  rw [r1List_map, mem_blockMerge]
  simp only [List.mem_map, mem_r1List_unit l hl]
  constructor
  · rintro ⟨c', ⟨p, hp1, hp, hc'⟩, rfl⟩
    exact ⟨p, hp1, hp, c', hc', by simp [shiftC]⟩
  · rintro ⟨p, hp1, hp, c', hc', rfl⟩
    exact ⟨c', ⟨p, hp1, hp, hc'⟩, by simp [shiftC]⟩

theorem nodup_r1List_unit (k : Nat) : (r1List 0 1 k).Nodup := by
  induction k with
  | zero => simp [r1List]
  | succ k ih =>
    simp only [r1List]
    by_cases hk0 : k = 0
    · simp [hk0]
    · simp only [if_neg hk0]
      rw [r1List_map k 0 (2 * 1), r1List_map k (0 + 1) (2 * 1)]
      rw [List.nodup_append, List.nodup_append]
      refine ⟨⟨?_, ?_, ?_⟩, ?_, ?_⟩
      · apply List.Nodup.map_on _ ih
        intro x _ y _ h
        simp only [Prod.mk.injEq] at h
        exact Prod.ext (by omega) (by omega)
      · apply List.Nodup.map_on _ ih
        intro x _ y _ h
        simp only [Prod.mk.injEq] at h
        exact Prod.ext (by omega) (by omega)
      · intro c h1 h2
        simp only [List.mem_map] at h1 h2
        obtain ⟨x, _, rfl⟩ := h1
        obtain ⟨y, _, h⟩ := h2
        simp only [Prod.mk.injEq] at h
        omega
      · apply nodup_map_range
        intro a _ b _ h
        simp only [Prod.mk.injEq] at h
        omega
      · intro c h1 h2
        simp only [List.mem_append, List.mem_map, List.mem_range] at h1 h2
        obtain ⟨u, _, rfl⟩ := h2
        rcases h1 with ⟨x, _, h⟩ | ⟨x, _, h⟩
        · simp only [Prod.mk.injEq] at h
          omega
        · simp only [Prod.mk.injEq] at h
          omega

theorem nodup_r1List (k l : Nat) : (r1List k 1 l).Nodup := by
  rw [r1List_map]
  apply List.Nodup.map_on _ (nodup_r1List_unit l)
  intro x _ y _ h
  simp only [Prod.mk.injEq] at h
  exact Prod.ext (by omega) (by omega)

/-! ## Stage `l` of the block-major driver -/

theorem mem_blockStage (d l : Nat) (hl : l ≤ d) (G : Nat → List Comparator)
    (hG : ∀ k c, c ∈ G k ↔ c ∈ blockMerge k l) (c : Comparator) :
    c ∈ (blockStarts d l).flatMap G ↔ c ∈ stageList d l := by
  rw [mem_stageList d l hl]
  simp only [List.mem_flatMap, blockStarts, List.mem_map, List.mem_range, hG, mem_blockMerge]
  constructor
  · rintro ⟨k, ⟨B, hB, rfl⟩, p, hp1, hp, c', hc', rfl⟩
    exact ⟨p, hp1, hp, (isComp_iff_block d l p hp hl _).2 ⟨B, hB, c', hc', rfl⟩⟩
  · rintro ⟨p, hp1, hp, hc⟩
    obtain ⟨B, hB, c', hc', rfl⟩ := (isComp_iff_block d l p hp hl c).1 hc
    exact ⟨B * 2 ^ l, ⟨B, hB, rfl⟩, p, hp1, hp, c', hc', rfl⟩

theorem nodup_blockStage (d l : Nat) (G : Nat → List Comparator)
    (hG : ∀ k c, c ∈ G k ↔ c ∈ blockMerge k l) (hnd : ∀ k, (G k).Nodup) :
    ((blockStarts d l).flatMap G).Nodup := by
  apply nodup_flatMap_key (blockStarts d l) _ (fun k => k / 2 ^ l) (fun c => c.1 / 2 ^ l)
    (nodup_blockStarts d l)
  · intro x hx y hy h
    simp only [blockStarts, List.mem_map, List.mem_range] at hx hy
    obtain ⟨a, _, rfl⟩ := hx
    obtain ⟨b, _, rfl⟩ := hy
    simp only [Nat.mul_div_cancel _ (Nat.two_pow_pos l)] at h
    rw [h]
  · intro k _
    exact hnd k
  · intro k hk c hc
    simp only [blockStarts, List.mem_map, List.mem_range] at hk
    obtain ⟨B, _, rfl⟩ := hk
    simp only [Nat.mul_div_cancel _ (Nat.two_pow_pos l)]
    rw [hG, mem_blockMerge] at hc
    obtain ⟨p, hp1, hp, hc⟩ := hc
    exact blockPass_key B l p hp1 hp c ((mem_blockPass _ l p hp1 hp c).2 hc)

/-! ## Runs of lists of calls on functions -/

theorem runNet_flatMap {σ : Type} (cmp : σ → Nat → Nat → σ) (xs : List Nat)
    (F : Nat → List Comparator) (s : σ) :
    runNet cmp (xs.flatMap F) s = xs.foldl (fun s x => runNet cmp (F x) s) s := by
  induction xs generalizing s with
  | nil => rfl
  | cons x rest ih => rw [List.flatMap_cons, runNet_append, ih, List.foldl_cons]

/-- Any list of calls that holds exactly the comparators of a coordinate acts on the lanes
below `N` as the pass of the partner function. -/
theorem pass_of_isComp {α : Type} [LinearOrder α] (N l p : Nat) (hp : 1 ≤ p)
    (net : List Comparator) (hnet : ∀ c, c ∈ net ↔ IsComp N l p c)
    (f : Nat → α) (x : Nat) (hx : x < N) :
    runNet cmpF net f x = passF (fun n => oddEvenMergeSort_GetPartner n l p) f x := by
  have hmem : ∀ c, c ∈ net ↔ c.1 < N ∧ oddEvenMergeSort_GetPartner c.1 l p > c.1
        ∧ c.2 = oddEvenMergeSort_GetPartner c.1 l p := by
    intro c
    rw [hnet, ← mem_Partner_coord_iff N l p hp, mem_Partner_coord]
  rw [runNet_cmpF_pass (fun n => oddEvenMergeSort_GetPartner n l p)
    (fun n => getPartner_involutive n l p hp)]
  · split_ifs with h
    · rfl
    · have hself : oddEvenMergeSort_GetPartner x l p = x := by
        by_contra hne
        apply h
        rcases Nat.lt_or_gt_of_ne hne with hlt | hgt
        · refine ⟨(oddEvenMergeSort_GetPartner x l p, x), ?_, Or.inr rfl⟩
          rw [hmem]
          simp only [getPartner_involutive x l p hp]
          exact ⟨by omega, hlt, trivial⟩
        · refine ⟨(x, oddEvenMergeSort_GetPartner x l p), ?_, Or.inl rfl⟩
          rw [hmem]
          exact ⟨hx, hgt, rfl⟩
      unfold passF
      simp [hself]
  · intro c hc
    rw [hmem] at hc
    exact ⟨by omega, hc.2.2.symm⟩

/-- Calls moved along an injective renaming of the lanes act on the renamed lanes as the
calls themselves, and leave the other lanes alone. -/
theorem runNet_reindex {α : Type} [LinearOrder α] (φ : Nat → Nat) (hφ : Function.Injective φ)
    (net : List Comparator) (f : Nat → α) :
    (∀ u, runNet cmpF (net.map (fun c => (φ c.1, φ c.2))) f (φ u)
        = runNet cmpF net (fun u => f (φ u)) u) ∧
      (∀ x, (∀ u, x ≠ φ u) → runNet cmpF (net.map (fun c => (φ c.1, φ c.2))) f x = f x) := by
  induction net generalizing f with
  | nil => exact ⟨fun _ => rfl, fun _ _ => rfl⟩
  | cons c rest ih =>
    simp only [List.map_cons, runNet_cons]
    obtain ⟨ih1, ih2⟩ := ih (cmpF f (φ c.1) (φ c.2))
    have hstep : (fun u => cmpF f (φ c.1) (φ c.2) (φ u)) = cmpF (fun u => f (φ u)) c.1 c.2 := by
      funext u
      rw [cmpF_apply, cmpF_apply]
      by_cases h1 : u = c.1
      · subst h1; simp
      · by_cases h2 : u = c.2
        · have e1 : φ u ≠ φ c.1 := fun h => h1 (hφ h)
          rw [if_neg e1, if_neg h1, if_pos h2, if_pos (by rw [h2])]
        · have e1 : φ u ≠ φ c.1 := fun h => h1 (hφ h)
          have e2 : φ u ≠ φ c.2 := fun h => h2 (hφ h)
          simp [e1, e2, h1, h2]
    constructor
    · intro u
      rw [ih1 u, hstep]
    · intro x hx
      rw [ih2 x hx, cmpF_apply, if_neg (hx c.1), if_neg (hx c.2)]

/-! ## Monotone buffers of zeros and ones -/

theorem mono_bool_exists_z (n : Nat) (g : Nat → Bool)
    (h : ∀ u u', u ≤ u' → u' < n → g u ≤ g u') :
    ∃ z, z ≤ n ∧ ∀ u, u < n → g u = decide (z ≤ u) := by
  induction n with
  | zero => exact ⟨0, le_refl _, fun u hu => absurd hu (Nat.not_lt_zero u)⟩
  | succ n ih =>
    obtain ⟨z, hz, hg⟩ := ih (fun u u' huu' hu' => h u u' huu' (by omega))
    by_cases hn : g n = true
    · by_cases hzn : z ≤ n - 1 ∨ n = 0
      · refine ⟨z, by omega, fun u hu => ?_⟩
        by_cases hun : u < n
        · exact hg u hun
        · have : u = n := by omega
          subst this
          rw [hn]
          rcases hzn with h1 | h1
          · simp; omega
          · subst h1
            have : z = 0 := by omega
            simp [this]
      · refine ⟨z, by omega, fun u hu => ?_⟩
        by_cases hun : u < n
        · exact hg u hun
        · have : u = n := by omega
          subst this
          rw [hn]
          simp
          omega
    · refine ⟨n + 1, le_refl _, fun u hu => ?_⟩
      have hfalse : g u = false := by
        have := h u n (by omega) (by omega)
        have hn' : g n = false := by simpa using hn
        rw [hn'] at this
        cases hgu : g u
        · rfl
        · rw [hgu] at this
          exact absurd this (by decide)
      rw [hfalse]
      simp
      omega

theorem decide_mono_iff (z : Nat) (u u' : Nat) (h : u ≤ u') :
    decide (z ≤ u) ≤ decide (z ≤ u') := by
  by_cases h1 : z ≤ u
  · have h2 : z ≤ u' := by omega
    simp [h1, h2]
  · simp [h1]

/-- Sortedness of the outcome of a sequence of calls along lanes `ψ 0, ψ 1, ...` follows
from its sortedness on every thresholding of the buffer to zeros and ones. -/
theorem sorted_of_thresholds (net : List Comparator) (f : Nat → Int) (ψ : Nat → Nat) (L : Nat)
    (h : ∀ (v : Int) (u u' : Nat), u ≤ u' → u' < L →
      runNet cmpF net (fun x => decide (v ≤ f x)) (ψ u)
        ≤ runNet cmpF net (fun x => decide (v ≤ f x)) (ψ u'))
    (u u' : Nat) (huu : u ≤ u') (hu' : u' < L) :
    runNet cmpF net f (ψ u) ≤ runNet cmpF net f (ψ u') := by
  by_contra hcon
  have h1 := h (runNet cmpF net f (ψ u)) u u' huu hu'
  rw [runNet_cmpF_map (fun x : Int => decide (runNet cmpF net f (ψ u) ≤ x))
    (threshold_monotone _) net f] at h1
  simp only [le_refl, decide_True] at h1
  have : ¬ (runNet cmpF net f (ψ u) ≤ runNet cmpF net f (ψ u')) := hcon
  simp only [this, decide_False] at h1
  exact absurd h1 (by decide)

/-! ## The merges on a block of zeros and ones -/

theorem mem_blockPass_zero (l p : Nat) (hp1 : 1 ≤ p) (hp : p ≤ l) (c : Comparator) :
    c ∈ blockPass 0 l p ↔ IsComp (2 ^ l) l p c := by
  rw [mem_blockPass 0 l p hp1 hp]
  constructor
  · rintro ⟨c', hc', rfl⟩
    simpa [shiftC] using hc'
  · intro hc
    exact ⟨c, hc, by simp [shiftC]⟩

/-- The pass-ordered merge of `oddEvenMerge_r2` and `oddEvenMerge_r3`, on the block of width
`2^l` at the start of a buffer of zeros and ones whose two halves are sorted. -/
theorem blockMerge_unit_merges (l : Nat) (hl : 1 ≤ l) (z : Nat → Nat) (g : Nat → Bool)
    (hs : BlocksSorted l (l - 1) z g) :
    BlocksSorted l l (fun B => z (2 * B) + z (2 * B + 1)) (runNet cmpF (blockMerge 0 l) g) := by
  unfold blockMerge
  rw [runNet_flatMap]
  exact stage_sorts_gen l l z g (fun p s => runNet cmpF (blockPass 0 l p) s)
    (fun p hp1 hp f x hx =>
      pass_of_isComp (2 ^ l) l p hp1 _ (mem_blockPass_zero l p hp1 hp) f x hx)
    hl (le_refl l) hs

theorem cnt_zero_two (z c : Nat) : cnt z 0 2 ≤ c ↔ z ≤ 2 * c := by
  unfold cnt; omega

theorem cnt_one_two (z c : Nat) : cnt z 1 2 ≤ c ↔ z ≤ 2 * c + 1 := by
  unfold cnt; omega

/-- The recursive merge `oddEvenMerge_r1`, on the block of width `2^k` at the start of a
buffer of zeros and ones whose two halves are sorted. -/
theorem r1_unit_merges (k : Nat) (hk : 1 ≤ k) (z : Nat → Nat) (g : Nat → Bool)
    (hs : BlocksSorted k (k - 1) z g) :
    BlocksSorted k k (fun B => z (2 * B) + z (2 * B + 1)) (runNet cmpF (r1List 0 1 k) g) := by
  induction k generalizing z g with
  | zero => omega
  | succ k ih =>
    by_cases hk0 : k = 0
    · subst hk0
      have e : r1List 0 1 (0 + 1) = blockMerge 0 (0 + 1) := by decide
      rw [e]
      exact blockMerge_unit_merges (0 + 1) (le_refl _) z g hs
    · have hk1 : 1 ≤ k := Nat.pos_of_ne_zero hk0
      obtain ⟨hz, hg⟩ := hs
      simp only [Nat.add_sub_cancel] at hz hg
      have hD : 2 ^ (k + 1 - k) = 2 := by
        have : k + 1 - k = 1 := by omega
        rw [this]; rfl
      rw [hD] at hz hg
      have hK : 2 ^ k = 2 * 2 ^ (k - 1) := two_pow_eq_double k hk1
      have hD' : 2 ^ (k - (k - 1)) = 2 := by
        have : k - (k - 1) = 1 := by omega
        rw [this]; rfl
      -- the even and the odd lanes are blocks with sorted halves
      have hsub : ∀ (e : Nat) (g' : Nat → Bool), e < 2 → (∀ u, g' (2 * u + e) = g (2 * u + e)) →
          BlocksSorted k (k - 1) (fun b => cnt (z b) e 2) (fun u => g' (2 * u + e)) := by
        intro e g' he hg'
        constructor
        · intro b hb
          rw [hD'] at hb
          have := hz b hb
          show cnt (z b) e 2 ≤ 2 ^ (k - 1)
          unfold cnt
          omega
        · intro b c hb hc
          rw [hD'] at hb
          have h1 := hg b (2 * c + e) hb (by omega)
          have e1 : 2 * (b * 2 ^ (k - 1) + c) + e = b * 2 ^ k + (2 * c + e) := by
            rw [hK]; ring
          show g' (2 * (b * 2 ^ (k - 1) + c) + e) = decide (cnt (z b) e 2 ≤ c)
          rw [hg', e1, h1]
          apply decide_eq_decide.2
          have he' : e = 0 ∨ e = 1 := by omega
          rcases he' with rfl | rfl
          · simp [cnt_zero_two]
          · simp [cnt_one_two]
      simp only [r1List, if_neg hk0]
      rw [r1List_map k 0 (2 * 1), r1List_map k (0 + 1) (2 * 1), runNet_append, runNet_append]
      have hφ0 : Function.Injective (fun u : Nat => 0 + 2 * 1 * u) := by
        intro a b h; simp only at h; omega
      have hφ1 : Function.Injective (fun u : Nat => 0 + 1 + 2 * 1 * u) := by
        intro a b h; simp only at h; omega
      obtain ⟨hE1, hE2⟩ := runNet_reindex (fun u : Nat => 0 + 2 * 1 * u) hφ0 (r1List 0 1 k) g
      generalize hg1 : runNet cmpF
        ((r1List 0 1 k).map (fun c => (0 + 2 * 1 * c.1, 0 + 2 * 1 * c.2))) g = g1 at hE1 hE2
      obtain ⟨hO1, hO2⟩ := runNet_reindex (fun u : Nat => 0 + 1 + 2 * 1 * u) hφ1 (r1List 0 1 k) g1
      generalize hg2 : runNet cmpF
        ((r1List 0 1 k).map (fun c => (0 + 1 + 2 * 1 * c.1, 0 + 1 + 2 * 1 * c.2))) g1 = g2
        at hO1 hO2
      -- the even lanes after the first recursive call
      have hev : ∀ u, u < 2 ^ k → g1 (2 * u) = decide (cnt (z 0) 0 2 + cnt (z 1) 0 2 ≤ u) := by
        intro u hu
        have h1 := hE1 u
        have e1 : 0 + 2 * 1 * u = 2 * u := by omega
        have e2 : (fun u => g (0 + 2 * 1 * u)) = (fun u => g (2 * u + 0)) := by
          funext v; congr 1; omega
        rw [e1, e2] at h1
        rw [h1]
        have := (ih hk1 _ _ (hsub 0 g (by omega) (fun _ => rfl))).2 0 u (by simp) hu
        simpa using this
      have hodd_same : ∀ u, g1 (2 * u + 1) = g (2 * u + 1) := by
        intro u
        exact hE2 (2 * u + 1) (fun v => by omega)
      -- the odd lanes after the second recursive call
      have hod : ∀ u, u < 2 ^ k → g2 (2 * u + 1) = decide (cnt (z 0) 1 2 + cnt (z 1) 1 2 ≤ u) := by
        intro u hu
        have h1 := hO1 u
        have e1 : 0 + 1 + 2 * 1 * u = 2 * u + 1 := by omega
        have e2 : (fun u => g1 (0 + 1 + 2 * 1 * u)) = (fun u => g1 (2 * u + 1)) := by
          funext v; congr 1; omega
        rw [e1, e2] at h1
        rw [h1]
        have := (ih hk1 _ _ (hsub 1 g1 (by omega) hodd_same)).2 0 u (by simp) hu
        simpa using this
      have hev2 : ∀ u, g2 (2 * u) = g1 (2 * u) := by
        intro u
        exact hO2 (2 * u) (fun v => by omega)
      -- state before the final comparators
      have hstate : PassState (k + 1) (k + 1) k z g2 := by
        intro B q c hB hq hc
        have hB0 : B = 0 := by simpa using hB
        subst hB0
        rw [hD] at hc
        have hR : 2 ^ (k + 1 - k) = 2 := hD
        rw [hR]
        have hc' : c = 0 ∨ c = 1 := by omega
        rcases hc' with rfl | rfl
        · have e1 : 0 * 2 ^ (k + 1) + q * 2 + 0 = 2 * q := by omega
          rw [e1, hev2, hev q hq]
        · have e1 : 0 * 2 ^ (k + 1) + q * 2 + 1 = 2 * q + 1 := by omega
          rw [e1, hod q hq]
      have hzb : ∀ b, b < 2 ^ (k + 1 - (k + 1 - 1)) → z b ≤ 2 ^ (k + 1 - 1) := by
        intro b hb
        simp only [Nat.add_sub_cancel] at hb ⊢
        rw [hD] at hb
        exact hz b hb
      have hfinal := passState_step (k + 1) (k + 1) k z g2 hk1 (le_refl _) (le_refl _) hzb hstate
      refine passState_last (k + 1) (k + 1) z _ (by omega) (le_refl _) hzb
        (PassState_congr (k + 1) (k + 1) (k + 1) z _ _ (le_refl _) (le_refl _) ?_ hfinal)
      intro x hx
      apply pass_of_isComp (2 ^ (k + 1)) (k + 1) (k + 1) (by omega) _ _ g2 x hx
      intro c
      rw [isComp_last k hk1]
      simp only [List.mem_map, List.mem_range]
      constructor
      · rintro ⟨u, hu, rfl⟩
        exact ⟨u, hu, by simp only [Prod.mk.injEq]; constructor <;> omega⟩
      · rintro ⟨u, hu, rfl⟩
        exact ⟨u, hu, by simp only [Prod.mk.injEq]; constructor <;> omega⟩

/-! ## The merges on buffers -/

/-- A comparator of a coordinate has its indices in order and below the length. -/
theorem isComp_range (d l p : Nat) (hp1 : 1 ≤ p) (hp : p ≤ l) (hl : l ≤ d) (c : Comparator)
    (hc : IsComp (2 ^ d) l p c) : c.1 < c.2 ∧ c.2 < 2 ^ d := by
  rw [isComp_iff_decomp d l p hp hl] at hc
  obtain ⟨B, q, t, hB, hq, ht, hlow, rfl⟩ := hc
  have hP := two_pow_eq_double p hp1
  have hP1 : 1 ≤ 2 ^ (p - 1) := Nat.one_le_two_pow
  have hr : 0 < 2 ^ (l - p) := Nat.two_pow_pos _
  have hq' : q + 1 < 2 ^ p := by
    rcases hlow with ⟨_, h0⟩ | ⟨_, _, h3⟩
    · omega
    · exact h3
  have := decomp_lt_pow d l p B (q + 1) t hp hl hB hq' ht
  have e : (q + 1) * 2 ^ (l - p) = q * 2 ^ (l - p) + 2 ^ (l - p) := by ring
  simp only
  omega

/-- A merge that merges the two sorted halves of a block of zeros and ones merges the two
sorted halves of any piece of a buffer, along any stride. -/
theorem merge_lift (k : Nat) (hk : 1 ≤ k) (U : List Comparator)
    (hU : ∀ (z : Nat → Nat) (g : Nat → Bool), BlocksSorted k (k - 1) z g →
      BlocksSorted k k (fun B => z (2 * B) + z (2 * B + 1)) (runNet cmpF U g))
    (lo r : Nat) (hr : 1 ≤ r) (f : Nat → Int)
    (h0 : ∀ u u', u ≤ u' → u' < 2 ^ (k - 1) → f (lo + r * u) ≤ f (lo + r * u'))
    (h1 : ∀ u u', u ≤ u' → u' < 2 ^ (k - 1) →
      f (lo + r * (2 ^ (k - 1) + u)) ≤ f (lo + r * (2 ^ (k - 1) + u')))
    (u u' : Nat) (huu : u ≤ u') (hu' : u' < 2 ^ k) :
    runNet cmpF (U.map (fun c => (lo + r * c.1, lo + r * c.2))) f (lo + r * u)
      ≤ runNet cmpF (U.map (fun c => (lo + r * c.1, lo + r * c.2))) f (lo + r * u') := by
  have hφ : Function.Injective (fun u : Nat => lo + r * u) := by
    intro a b h
    have h' : r * a = r * b := Nat.add_left_cancel h
    exact Nat.eq_of_mul_eq_mul_left (by omega) h'
  apply sorted_of_thresholds _ f (fun u => lo + r * u) (2 ^ k) _ u u' huu hu'
  intro v u u' huu hu'
  obtain ⟨hR, _⟩ := runNet_reindex (fun u : Nat => lo + r * u) hφ U (fun x => decide (v ≤ f x))
  rw [hR u, hR u']
  have hD : 2 ^ (k - (k - 1)) = 2 := by
    have : k - (k - 1) = 1 := by omega
    rw [this]; rfl
  obtain ⟨z0, hz0, hg0⟩ := mono_bool_exists_z (2 ^ (k - 1)) (fun u => decide (v ≤ f (lo + r * u)))
    (fun a b hab hb => threshold_monotone v (h0 a b hab hb))
  obtain ⟨z1, hz1, hg1⟩ := mono_bool_exists_z (2 ^ (k - 1))
    (fun u => decide (v ≤ f (lo + r * (2 ^ (k - 1) + u))))
    (fun a b hab hb => threshold_monotone v (h1 a b hab hb))
  have hs : BlocksSorted k (k - 1) (fun b => if b = 0 then z0 else z1)
      (fun u => decide (v ≤ f (lo + r * u))) := by
    constructor
    · intro b _
      show (if b = 0 then z0 else z1) ≤ 2 ^ (k - 1)
      split_ifs <;> assumption
    · intro b c hb hc
      rw [hD] at hb
      have hb' : b = 0 ∨ b = 1 := by omega
      rcases hb' with rfl | rfl
      · simp only [Nat.zero_mul, Nat.zero_add, if_true]
        exact hg0 c hc
      · simp only [Nat.one_mul, one_ne_zero, if_false]
        exact hg1 c hc
  obtain ⟨_, hout⟩ := hU _ _ hs
  have e1 := hout 0 u (by simp) (by omega)
  have e2 := hout 0 u' (by simp) hu'
  simp only [Nat.zero_mul, Nat.zero_add] at e1 e2
  rw [e1, e2]
  exact decide_mono_iff _ u u' huu

theorem blockMerge_shift (k l : Nat) :
    blockMerge k l = (blockMerge 0 l).map (fun c => (k + 1 * c.1, k + 1 * c.2)) := by
  unfold blockMerge
  rw [List.map_flatMap]
  congr 1
  funext p
  unfold blockPass
  split_ifs
  · unfold blockPass0
    rw [List.map_map]
    apply List.map_congr_left
    intro t _
    simp only [Function.comp, Prod.mk.injEq]
    constructor <;> omega
  · unfold blockPassR
    rw [List.map_flatMap]
    congr 1
    funext t
    rw [List.map_map]
    apply List.map_congr_left
    intro u _
    simp only [Function.comp, Prod.mk.injEq]
    constructor <;> omega

theorem r1List_range (lo r k : Nat) (hk : 1 ≤ k) (c : Comparator) (hc : c ∈ r1List lo r k) :
    c.1 < lo + r * 2 ^ k ∧ c.2 < lo + r * 2 ^ k ∨ r = 0 := by
  by_cases hr : r = 0
  · exact Or.inr hr
  left
  rw [r1List_map] at hc
  simp only [List.mem_map] at hc
  obtain ⟨c', hc', rfl⟩ := hc
  rw [mem_r1List_unit k hk] at hc'
  obtain ⟨p, hp1, hp, hcomp⟩ := hc'
  obtain ⟨h1, h2⟩ := isComp_range k k p hp1 hp (le_refl _) c' hcomp
  have hr' : 0 < r := Nat.pos_of_ne_zero hr
  have e1 : r * c'.2 < r * 2 ^ k := Nat.mul_lt_mul_of_pos_left h2 hr'
  have e2 : r * c'.1 < r * 2 ^ k := Nat.mul_lt_mul_of_pos_left (by omega) hr'
  simp only
  omega

/-- Run of `oddEvenMerge_r1(a, lo, r * 2^k, r)` on a buffer that holds the piece. -/
theorem r1_run (k lo r : Nat) (hk : 1 ≤ k) (hr : 1 ≤ r) (a : Buf)
    (hlen : lo + r * 2 ^ k ≤ a.length) :
    ∃ b, oddEvenMerge_r1 step (some a) lo (r * 2 ^ k) r = some b ∧ b.length = a.length
      ∧ view b = runNet cmpF (r1List lo r k) (view a) := by
  have h1 := (traceable_r1 lo (r * 2 ^ k) r).eq_runNet step (some a)
  simp only at h1
  rw [h1]
  have hfuel : k ≤ r * 2 ^ k := by
    have h2 : 2 ^ k ≤ r * 2 ^ k := Nat.le_mul_of_pos_left _ (by omega)
    exact le_trans (le_of_lt (Nat.lt_two_pow k)) h2
  have hrec : oddEvenMerge_r1 record [] lo (r * 2 ^ k) r = r1List lo r k := by
    unfold oddEvenMerge_r1
    rw [r1_go_record k hk _ lo r hr (le_trans hfuel (Nat.le_succ _)) []]
    rfl
  rw [hrec]
  apply runNet_step_view
  intro c hc
  rcases r1List_range lo r k hk c hc with h | h
  · omega
  · omega

/-- Run of the pass-ordered merges on a buffer that holds the block. -/
theorem blockMerge_run (l lo : Nat) (a : Buf) (hlen : lo + 2 ^ l ≤ a.length) :
    ∃ b, runNet step (blockMerge lo l) (some a) = some b ∧ b.length = a.length
      ∧ view b = runNet cmpF (blockMerge lo l) (view a) := by
  apply runNet_step_view
  intro c hc
  rw [mem_blockMerge] at hc
  obtain ⟨p, hp1, hp, c', hc', rfl⟩ := hc
  obtain ⟨h1, h2⟩ := isComp_range l l p hp1 hp (le_refl _) c' hc'
  simp only [shiftC]
  omega

/-! ## Permutation of the contents -/

theorem exchange_perm (a b : Buf) (i j : Nat) (h : exchange a i j = some b) : b.Perm a := by
  unfold exchange at h
  split_ifs at h with hr
  obtain ⟨hi, hj⟩ := hr
  simp only [Option.some.injEq] at h
  subst h
  rw [List.perm_iff_count]
  intro x
  have hj' : j < (a.set i a[j]).length := by simpa using hj
  rw [List.count_set _ _ _ _ hj', List.count_set _ _ _ _ hi]
  have hget : (a.set i a[j])[j] = a[j] := by
    rw [List.getElem_set]
    split_ifs <;> rfl
  rw [hget]
  have hA : (if a[i] == x then 1 else 0) ≤ a.count x := by
    split_ifs with hx
    · have hx' : a[i] = x := by simpa using hx
      have : x ∈ a := hx' ▸ List.getElem_mem hi
      exact List.count_pos_iff.2 this
    · exact Nat.zero_le _
  omega

theorem compare_perm (a b : Buf) (i j : Nat) (h : compare a i j = some b) : b.Perm a := by
  unfold compare at h
  split_ifs at h with hr hgt
  · exact exchange_perm a b i j h
  · simp only [Option.some.injEq] at h
    subst h
    exact List.Perm.refl _

/-- A run of `compare` calls that reaches its end leaves a permutation of the buffer. -/
theorem runNet_step_perm (net : List Comparator) (a b : Buf)
    (h : runNet step net (some a) = some b) : b.Perm a := by
  induction net generalizing a with
  | nil =>
    simp only [runNet_nil, Option.some.injEq] at h
    subst h
    exact List.Perm.refl _
  | cons c rest ih =>
    rw [runNet_cons] at h
    cases hc : compare a c.1 c.2 with
    | none =>
      simp only [step, Option.some_bind, hc] at h
      have hnone : ∀ net : List Comparator, runNet step net none = none := by
        intro net
        induction net with
        | nil => rfl
        | cons c' r' ih' => rw [runNet_cons]; exact ih'
      rw [hnone] at h
      exact absurd h (by simp)
    | some a' =>
      simp only [step, Option.some_bind, hc] at h
      exact (ih a' h).trans (compare_perm a a' c.1 c.2 hc)

/-! ## Sorted input -/

theorem sorted_le_of_lt (a : Buf) (hs : isNonDecreasing a) (i j : Nat) (hij : i ≤ j)
    (hi : i < a.length) (hj : j < a.length) : a[i] ≤ a[j] := by
  induction j with
  | zero =>
    have : i = 0 := by omega
    subst this
    exact le_refl _
  | succ n ih =>
    by_cases h : i = n + 1
    · subst h
      exact le_refl _
    · have hn : n < a.length := by omega
      exact le_trans (ih (by omega) hn) (hs n hj)

/-- On a sorted buffer a run of `compare` calls with ordered indices inside the extent
exchanges nothing. -/
theorem runNet_stepCount_sorted (net : List Comparator) (a : Buf) (hs : isNonDecreasing a)
    (h : ∀ c ∈ net, c.1 < c.2 ∧ c.2 < a.length) (n : Nat) :
    runNet stepCount net (some a, n) = (some a, n) := by
  induction net with
  | nil => rfl
  | cons c rest ih =>
    obtain ⟨h1, h2⟩ := h c (List.mem_cons_self _ _)
    rw [runNet_cons]
    have h1' : c.1 < a.length := by omega
    have hle : a[c.1] ≤ a[c.2] := sorted_le_of_lt a hs c.1 c.2 (by omega) h1' h2
    have hstep : stepCount (some a, n) c.1 c.2 = (some a, n) := by
      simp only [stepCount]
      rw [dif_pos ⟨by omega, h2⟩, if_neg (not_lt.2 hle)]
    rw [hstep]
    exact ih (fun c' hc' => h c' (List.mem_cons_of_mem _ hc'))

/-- The run that counts exchanges is the run on the buffer, with a count beside it. -/
theorem runNet_stepCount_fst (net : List Comparator) (s : Option Buf × Nat) :
    (runNet stepCount net s).1 = runNet step net s.1 := by
  induction net generalizing s with
  | nil => rfl
  | cons c rest ih =>
    rw [runNet_cons, runNet_cons, ih]
    congr 1
    obtain ⟨o, n⟩ := s
    cases o with
    | none => rfl
    | some a =>
      simp only [stepCount, step, Option.some_bind, compare]
      split_ifs <;> rfl

/-! ## Disjoint comparators -/

theorem isComp_disjoint (N l p : Nat) (hp1 : 1 ≤ p) (c c' : Comparator)
    (hc : IsComp N l p c) (hc' : IsComp N l p c') (hne : c ≠ c') : DisjointC c c' := by
  obtain ⟨_, hlow, h2⟩ := hc
  obtain ⟨_, hlow', h2'⟩ := hc'
  have hr : 0 < 2 ^ (l - p) := Nat.two_pow_pos _
  refine ⟨?_, ?_, ?_, ?_⟩
  · intro h
    exact hne (Prod.ext h (by rw [h2, h2', h]))
  · intro h
    rw [h2'] at h
    rw [h] at hlow
    exact isLow_not_add c'.1 l p hp1 hlow' hlow
  · intro h
    rw [h2] at h
    rw [← h] at hlow'
    exact isLow_not_add c.1 l p hp1 hlow hlow'
  · intro h
    have : c.1 = c'.1 := by omega
    exact hne (Prod.ext this h)

theorem pairwise_disjoint_of_isComp (N l p : Nat) (hp1 : 1 ≤ p) (net : List Comparator)
    (hnd : net.Nodup) (hnet : ∀ c ∈ net, IsComp N l p c) : net.Pairwise DisjointC :=
  hnd.pairwise_of_forall_ne (fun c hc c' hc' hne =>
    isComp_disjoint N l p hp1 c c' (hnet c hc) (hnet c' hc') hne)

/-! ## The calls of the whole drivers -/

/-- `oddEvenMergeSort_Merge` over a merge whose calls on a block of width `2^l` are `G l k`. -/
theorem Merge_with_record (d : Nat)
    (M : Nat → Nat → Nat → (σ : Type) → (σ → Nat → Nat → σ) → σ → σ)
    (hM : ∀ lo n r, Traceable (M lo n r)) (G : Nat → Nat → List Comparator)
    (hG : ∀ l, 1 ≤ l → ∀ log k, M k (2 ^ l) 1 _ record log = log ++ G l k) :
    oddEvenMergeSort_Merge_with (fun s lo n r => M lo n r _ record s) [] (2 ^ d)
      = ((List.range d).map (fun t => t + 1)).flatMap
          (fun l => (blockStarts d l).flatMap (G l)) := by
  unfold oddEvenMergeSort_Merge_with
  rw [stages_record d (fun l => (blockStarts d l).flatMap (G l))
    (fun s n j => oddEvenMergeSort_Merge_stage (fun s lo n r => M lo n r _ record s) s n j)
    (fun l h1 h2 log => Merge_stage_record d l h2 _ (G l) (hG l h1) log)
    (fun log j => (traceable_Merge_stage hM (2 ^ d) j).record_append log)]
  simp

theorem Merge_record (d : Nat) :
    oddEvenMergeSort_Merge record [] (2 ^ d)
      = ((List.range d).map (fun t => t + 1)).flatMap (fun l => mergeStageList d l) :=
  Merge_with_record d (fun lo n r _ cmp s => oddEvenMerge_r3 cmp s lo n r) traceable_r3
    (fun l k => blockMerge k l) (fun l hl log k => r3_record k l 1 hl log)

theorem Merge_r2_record (d : Nat) :
    oddEvenMergeSort_Merge_with (oddEvenMerge_r2 record) [] (2 ^ d)
      = ((List.range d).map (fun t => t + 1)).flatMap (fun l => mergeStageList d l) :=
  Merge_with_record d (fun lo n r _ cmp s => oddEvenMerge_r2 cmp s lo n r) traceable_r2
    (fun l k => blockMerge k l) (fun l hl log k => r2_record k l 1 hl log)

theorem Merge_r1_record (d : Nat) :
    oddEvenMergeSort_Merge_with (oddEvenMerge_r1 record) [] (2 ^ d)
      = ((List.range d).map (fun t => t + 1)).flatMap (fun l => mergeStageList_r1 d l) :=
  Merge_with_record d (fun lo n r _ cmp s => oddEvenMerge_r1 cmp s lo n r) traceable_r1
    (fun l k => r1List k 1 l) (fun l hl log k => r1_record k l hl log)

theorem mem_mergeStageList (d l : Nat) (hl : l ≤ d) (c : Comparator) :
    c ∈ mergeStageList d l ↔ c ∈ stageList d l :=
  mem_blockStage d l hl (fun k => blockMerge k l) (fun _ _ => Iff.rfl) c

theorem mem_mergeStageList_r1 (d l : Nat) (hl1 : 1 ≤ l) (hl : l ≤ d) (c : Comparator) :
    c ∈ mergeStageList_r1 d l ↔ c ∈ stageList d l :=
  mem_blockStage d l hl (fun k => r1List k 1 l) (fun k c => mem_r1List k l hl1 c) c

theorem nodup_mergeStageList (d l : Nat) : (mergeStageList d l).Nodup :=
  nodup_blockStage d l (fun k => blockMerge k l) (fun _ _ => Iff.rfl)
    (fun k => nodup_blockMerge k l)

theorem nodup_mergeStageList_r1 (d l : Nat) (hl1 : 1 ≤ l) : (mergeStageList_r1 d l).Nodup :=
  nodup_blockStage d l (fun k => r1List k 1 l) (fun k c => mem_r1List k l hl1 c)
    (fun k => nodup_r1List k l)

/-- Range of the indices of every call of a driver whose stages hold comparators of the
coordinates only. -/
theorem stages_in_range (d : Nat) (SL : Nat → List Comparator)
    (hSL : ∀ l, 1 ≤ l → l ≤ d → ∀ c, c ∈ SL l → c ∈ stageList d l) (c : Comparator)
    (hc : c ∈ ((List.range d).map (fun t => t + 1)).flatMap SL) :
    c.1 < c.2 ∧ c.2 < 2 ^ d := by
  simp only [List.mem_flatMap, List.mem_map, List.mem_range] at hc
  obtain ⟨l, ⟨t, ht, rfl⟩, hc⟩ := hc
  have := hSL (t + 1) (by omega) (by omega) c hc
  rw [mem_stageList d (t + 1) (by omega)] at this
  obtain ⟨p, hp1, hp, hcomp⟩ := this
  exact isComp_range d (t + 1) p hp1 hp (by omega) c hcomp

theorem Branchless_in_range (d : Nat) (c : Comparator)
    (hc : c ∈ oddEvenMergeSort_NCPasses_Branchless record [] (2 ^ d)) :
    c.1 < c.2 ∧ c.2 < 2 ^ d := by
  rw [Branchless_record] at hc
  exact stages_in_range d _ (fun _ _ _ _ h => h) c hc

theorem Branched_in_range (d : Nat) (c : Comparator)
    (hc : c ∈ oddEvenMergeSort_NCPasses_Branched record [] (2 ^ d)) :
    c.1 < c.2 ∧ c.2 < 2 ^ d := by
  rw [Branched_record] at hc
  exact stages_in_range d _ (fun _ _ _ _ h => h) c hc

theorem Merge_in_range (d : Nat) (c : Comparator)
    (hc : c ∈ oddEvenMergeSort_Merge record [] (2 ^ d)) : c.1 < c.2 ∧ c.2 < 2 ^ d := by
  rw [Merge_record] at hc
  exact stages_in_range d _ (fun l _ hl c h => (mem_mergeStageList d l hl c).1 h) c hc

theorem Merge_r2_in_range (d : Nat) (c : Comparator)
    (hc : c ∈ oddEvenMergeSort_Merge_with (oddEvenMerge_r2 record) [] (2 ^ d)) :
    c.1 < c.2 ∧ c.2 < 2 ^ d := by
  rw [Merge_r2_record] at hc
  exact stages_in_range d _ (fun l _ hl c h => (mem_mergeStageList d l hl c).1 h) c hc

theorem Merge_r1_in_range (d : Nat) (c : Comparator)
    (hc : c ∈ oddEvenMergeSort_Merge_with (oddEvenMerge_r1 record) [] (2 ^ d)) :
    c.1 < c.2 ∧ c.2 < 2 ^ d := by
  rw [Merge_r1_record] at hc
  exact stages_in_range d _ (fun l hl1 hl c h => (mem_mergeStageList_r1 d l hl1 hl c).1 h) c hc

/-! ## Runs of the drivers on buffers -/

theorem view_ext (b1 b2 : Buf) (hl : b1.length = b2.length) (hv : view b1 = view b2) :
    b1 = b2 := by
  apply List.ext_getElem hl
  intro i h1 h2
  have := congrFun hv i
  rwa [view_eq_getElem b1 i h1, view_eq_getElem b2 i h2] at this

theorem runNet_step_none (net : List Comparator) : runNet step net none = none := by
  induction net with
  | nil => rfl
  | cons c rest ih => rw [runNet_cons]; exact ih

/-- A call outside the extent anywhere in the sequence ends the run outside the buffer. -/
theorem runNet_step_out (net : List Comparator) (a : Buf)
    (h : ∃ c ∈ net, ¬ (c.1 < a.length ∧ c.2 < a.length)) :
    runNet step net (some a) = none := by
  induction net generalizing a with
  | nil =>
    obtain ⟨c, hc, _⟩ := h
    exact absurd hc (List.not_mem_nil c)
  | cons c rest ih =>
    rw [runNet_cons]
    by_cases hin : c.1 < a.length ∧ c.2 < a.length
    · obtain ⟨b, hb, hlen, _⟩ := compare_view a c.1 c.2 hin.1 hin.2
      simp only [step, Option.some_bind, hb]
      apply ih
      obtain ⟨c', hc', hout⟩ := h
      rcases List.mem_cons.1 hc' with rfl | hmem
      · exact absurd hin hout
      · exact ⟨c', hmem, by rw [hlen]; exact hout⟩
    · have : compare a c.1 c.2 = none := by
        unfold compare
        rw [dif_neg hin]
      simp only [step, Option.some_bind, this]
      exact runNet_step_none rest

/-- What a driver whose calls all have ordered indices below the length does on a buffer of
that length: it runs to the end, keeps the length, acts on the contents as on a function,
permutes them, and exchanges nothing when they are sorted. -/
theorem driver_run (P : (σ : Type) → (σ → Nat → Nat → σ) → σ → σ) (hP : Traceable P) (N : Nat)
    (hrange : ∀ c ∈ P _ record [], c.1 < c.2 ∧ c.2 < N) (a : Buf) (ha : a.length = N) :
    ∃ b, P _ step (some a) = some b ∧ b.length = a.length
      ∧ view b = P _ cmpF (view a) ∧ b.Perm a
      ∧ (isNonDecreasing a → P _ stepCount (some a, 0) = (some a, 0)) := by
  have hin : ∀ c ∈ P _ record [], c.1 < a.length ∧ c.2 < a.length := by
    intro c hc
    have := hrange c hc
    omega
  obtain ⟨b, hb, hlen, hview⟩ := runNet_step_view (P _ record []) a hin
  refine ⟨b, ?_, hlen, ?_, runNet_step_perm _ a b hb, ?_⟩
  · rw [hP.eq_runNet step (some a)]
    exact hb
  · rw [hview, ← hP.eq_runNet (cmpF (α := Int)) (view a)]
  · intro hs
    rw [hP.eq_runNet stepCount (some a, 0)]
    exact runNet_stepCount_sorted _ a hs (fun c hc => by
      have := hrange c hc
      omega) 0

/-! ## Any order of the lanes -/

theorem lanes_record (l p : Nat) (order : List Nat) :
    order.foldl (laneBody record l p) [] = order.flatMap (laneCalls l p) := by
  rw [foldl_record_flatMap (laneCalls l p) _ (laneBody_record l p)]
  rfl

theorem mem_lanes (l p N : Nat) (order : List Nat) (hperm : order.Perm (List.range N))
    (c : Comparator) :
    c ∈ order.flatMap (laneCalls l p) ↔ c ∈ oddEvenMergeSort_Partner_coord record [] N l p := by
  rw [Partner_coord_record, List.nil_append]
  simp only [List.mem_flatMap, hperm.mem_iff]

/-- Two sequences of calls with the same comparators, all pairing lanes with their partners
under an involution, have the same outcome on every buffer. -/
theorem runNet_step_same (π : Nat → Nat) (hπ : ∀ x, π (π x) = x) (k1 k2 : List Comparator)
    (h1 : ∀ c ∈ k1, c.1 < c.2 ∧ π c.1 = c.2) (hmem : ∀ c, c ∈ k1 ↔ c ∈ k2) (a : Buf) :
    runNet step k1 (some a) = runNet step k2 (some a) := by
  have h2 : ∀ c ∈ k2, c.1 < c.2 ∧ π c.1 = c.2 := fun c hc => h1 c ((hmem c).2 hc)
  by_cases hin : ∀ c ∈ k1, c.1 < a.length ∧ c.2 < a.length
  · have hin2 : ∀ c ∈ k2, c.1 < a.length ∧ c.2 < a.length := fun c hc => hin c ((hmem c).2 hc)
    obtain ⟨b1, hb1, hl1, hv1⟩ := runNet_step_view k1 a hin
    obtain ⟨b2, hb2, hl2, hv2⟩ := runNet_step_view k2 a hin2
    rw [hb1, hb2]
    congr 1
    apply view_ext b1 b2 (by rw [hl1, hl2])
    rw [hv1, hv2]
    funext x
    rw [runNet_cmpF_pass π hπ k1 h1, runNet_cmpF_pass π hπ k2 h2]
    have : (∃ c ∈ k1, x = c.1 ∨ x = c.2) ↔ (∃ c ∈ k2, x = c.1 ∨ x = c.2) := by
      constructor
      · rintro ⟨c, hc, hx⟩; exact ⟨c, (hmem c).1 hc, hx⟩
      · rintro ⟨c, hc, hx⟩; exact ⟨c, (hmem c).2 hc, hx⟩
    by_cases hex : ∃ c ∈ k1, x = c.1 ∨ x = c.2
    · rw [if_pos hex, if_pos (this.1 hex)]
    · rw [if_neg hex, if_neg (fun h => hex (this.2 h))]
  · have hout : ∃ c ∈ k1, ¬ (c.1 < a.length ∧ c.2 < a.length) := by
      by_contra hcon
      apply hin
      intro c hc
      by_contra hc'
      exact hcon ⟨c, hc, hc'⟩
    have hout2 : ∃ c ∈ k2, ¬ (c.1 < a.length ∧ c.2 < a.length) := by
      obtain ⟨c, hc, h⟩ := hout
      exact ⟨c, (hmem c).1 hc, h⟩
    rw [runNet_step_out k1 a hout, runNet_step_out k2 a hout2]

/-- The lanes of a coordinate in any order do what the ascending loop does. -/
theorem lanes_any_order (N l p : Nat) (hp1 : 1 ≤ p) (order : List Nat)
    (hperm : order.Perm (List.range N)) (s : Option Buf) :
    order.foldl (laneBody step l p) s = oddEvenMergeSort_Partner_coord step s N l p := by
  have e1 := (traceable_foldl order (fun i => traceable_laneBody l p i)).eq_runNet step s
  have e2 := (traceable_Partner_coord N l p).eq_runNet step s
  simp only at e1 e2
  rw [e1, e2, lanes_record]
  cases s with
  | none => rw [runNet_step_none, runNet_step_none]
  | some a =>
    apply runNet_step_same (fun n => oddEvenMergeSort_GetPartner n l p)
      (fun n => getPartner_involutive n l p hp1)
    · intro c hc
      rw [mem_lanes l p N order hperm, mem_Partner_coord] at hc
      exact ⟨by omega, hc.2.2.symm⟩
    · exact mem_lanes l p N order hperm

theorem foldl_congr_mem {α β : Type} (xs : List α) (f g : β → α → β)
    (h : ∀ s, ∀ x ∈ xs, f s x = g s x) (s : β) : xs.foldl f s = xs.foldl g s := by
  induction xs generalizing s with
  | nil => rfl
  | cons x rest ih =>
    rw [List.foldl_cons, List.foldl_cons, h s x (List.mem_cons_self _ _)]
    exact ih (fun s y hy => h s y (List.mem_cons_of_mem _ hy)) _

/-- The driver with lanes in any order is the sequential driver. -/
theorem Partner_MT_eq (N : Nat) (sched : Nat → Nat → List Nat)
    (hsched : ∀ l p, (sched l p).Perm (List.range N)) (s : Option Buf) :
    oddEvenMergeSort_Partner_MT sched step s N = oddEvenMergeSort_Partner step s N := by
  unfold oddEvenMergeSort_Partner_MT oddEvenMergeSort_Partner
  simp only [cfor_eq_foldl, cforIter_count_le _ _ (le_refl _)]
  apply foldl_congr_mem
  intro s l _
  apply foldl_congr_mem
  intro s p hp
  simp only [List.mem_map, List.mem_range] at hp
  obtain ⟨t, _, rfl⟩ := hp
  exact lanes_any_order N l (t + 1) (by omega) (sched l (t + 1)) (hsched l (t + 1)) s

/-! ## Stages of the five constructions -/

theorem Merge_r1_stage_record (d l : Nat) (hl1 : 1 ≤ l) (hl : l ≤ d) :
    oddEvenMergeSort_Merge_stage (oddEvenMerge_r1 record) [] (2 ^ d) (2 ^ l)
      = mergeStageList_r1 d l := by
  have := Merge_stage_record d l hl (oddEvenMerge_r1 record) (fun k => r1List k 1 l)
    (fun log k => r1_record k l hl1 log) []
  simpa [mergeStageList_r1] using this

theorem Merge_r2_stage_record (d l : Nat) (hl1 : 1 ≤ l) (hl : l ≤ d) :
    oddEvenMergeSort_Merge_stage (oddEvenMerge_r2 record) [] (2 ^ d) (2 ^ l)
      = mergeStageList d l := by
  have := Merge_stage_record d l hl (oddEvenMerge_r2 record) (fun k => blockMerge k l)
    (fun log k => r2_record k l 1 hl1 log) []
  simpa [mergeStageList] using this

theorem Merge_r3_stage_record (d l : Nat) (hl1 : 1 ≤ l) (hl : l ≤ d) :
    oddEvenMergeSort_Merge_stage (oddEvenMerge_r3 record) [] (2 ^ d) (2 ^ l)
      = mergeStageList d l := by
  have := Merge_stage_record d l hl (oddEvenMerge_r3 record) (fun k => blockMerge k l)
    (fun log k => r3_record k l 1 hl1 log) []
  simpa [mergeStageList] using this

theorem mem_atStride_congr (r : Nat) (k1 k2 : List Comparator) (h : ∀ c, c ∈ k1 ↔ c ∈ k2)
    (c : Comparator) : c ∈ atStride r k1 ↔ c ∈ atStride r k2 := by
  rw [mem_atStride, mem_atStride, h]

theorem nodup_atStride (r : Nat) (calls : List Comparator) (h : calls.Nodup) :
    (atStride r calls).Nodup :=
  List.Nodup.filter _ h

/-! ## The claims -/

/-- C1: for every power-of-two length `N = 2^d` and every buffer `a` of that length,
`oddEvenMergeSort_Partner(a, N)` runs to its end and leaves a buffer of the same length that
is non-decreasing, `b[i] ≤ b[i+1]` for all `i + 1 < N`. -/
theorem C1_Partner_sorts (d : Nat) (a : Buf) (ha : a.length = 2 ^ d) :
    ∃ b, oddEvenMergeSort_Partner step (some a) (2 ^ d) = some b ∧ b.length = 2 ^ d
      ∧ isNonDecreasing b := by
  obtain ⟨b, hb, hlen, hview⟩ := Partner_run d a ha
  refine ⟨b, hb, by rw [hlen, ha], isNonDecreasing_of_view b ?_⟩
  intro i j hij hj
  rw [hview]
  exact Partner_sorts_fun d (view a) i j hij (by rw [← ha, ← hlen]; exact hj)

/-- Witness of C1 on the buffer `[3, 1, 2, 0]`. -/
theorem C1_Partner_sorts_witness :
    ([3, 1, 2, 0] : Buf).length = 2 ^ 2 ∧
      ∃ b, oddEvenMergeSort_Partner step (some [3, 1, 2, 0]) (2 ^ 2) = some b ∧ b.length = 2 ^ 2
        ∧ isNonDecreasing b :=
  ⟨rfl, C1_Partner_sorts 2 [3, 1, 2, 0] rfl⟩

/-- C2: for every power-of-two length `N = 2^d` and every buffer of that length, each of the
four sort drivers runs to its end and leaves a permutation of its input. -/
theorem C2_drivers_permute (d : Nat) (a : Buf) (ha : a.length = 2 ^ d) :
    (∃ b, oddEvenMergeSort_Merge step (some a) (2 ^ d) = some b ∧ b.Perm a) ∧
    (∃ b, oddEvenMergeSort_NCPasses_Branchless step (some a) (2 ^ d) = some b ∧ b.Perm a) ∧
    (∃ b, oddEvenMergeSort_NCPasses_Branched step (some a) (2 ^ d) = some b ∧ b.Perm a) ∧
    (∃ b, oddEvenMergeSort_Partner step (some a) (2 ^ d) = some b ∧ b.Perm a) := by
  refine ⟨?_, ?_, ?_, ?_⟩
  · obtain ⟨b, hb, _, _, hperm, _⟩ := driver_run _ (traceable_Merge (2 ^ d)) (2 ^ d)
      (Merge_in_range d) a ha
    exact ⟨b, hb, hperm⟩
  · obtain ⟨b, hb, _, _, hperm, _⟩ := driver_run _ (traceable_Branchless (2 ^ d)) (2 ^ d)
      (Branchless_in_range d) a ha
    exact ⟨b, hb, hperm⟩
  · obtain ⟨b, hb, _, _, hperm, _⟩ := driver_run _ (traceable_Branched (2 ^ d)) (2 ^ d)
      (Branched_in_range d) a ha
    exact ⟨b, hb, hperm⟩
  · obtain ⟨b, hb, _, _, hperm, _⟩ := driver_run _ (traceable_Partner (2 ^ d)) (2 ^ d)
      (Partner_calls_in_range d) a ha
    exact ⟨b, hb, hperm⟩

/-- Witness of C2 on the buffer `[3, 1, 2, 0]`. -/
theorem C2_drivers_permute_witness :
    ([3, 1, 2, 0] : Buf).length = 2 ^ 2 ∧
    ((∃ b, oddEvenMergeSort_Merge step (some [3, 1, 2, 0]) (2 ^ 2) = some b
        ∧ b.Perm [3, 1, 2, 0]) ∧
    (∃ b, oddEvenMergeSort_NCPasses_Branchless step (some [3, 1, 2, 0]) (2 ^ 2) = some b
        ∧ b.Perm [3, 1, 2, 0]) ∧
    (∃ b, oddEvenMergeSort_NCPasses_Branched step (some [3, 1, 2, 0]) (2 ^ 2) = some b
        ∧ b.Perm [3, 1, 2, 0]) ∧
    (∃ b, oddEvenMergeSort_Partner step (some [3, 1, 2, 0]) (2 ^ 2) = some b
        ∧ b.Perm [3, 1, 2, 0])) :=
  ⟨rfl, C2_drivers_permute 2 [3, 1, 2, 0] rfl⟩

/-- C3: for `N = 2^d` and every coordinate `1 ≤ p ≤ l ≤ d`, a pair `c` belongs to the set
`{(n, partner(n,l,p)) : n < N, partner(n,l,p) > n}` of `oddEvenMergeSort_GetPartner` if and
only if it is a comparator of distance `2^(l-p)` among the calls that stage `j = 2^l` of
`oddEvenMergeSort_NCPasses_Branchless` makes; and that set is the set of calls of the
coordinate in `oddEvenMergeSort_Partner`. -/
theorem C3_partner_set_eq_pass (d l p : Nat) (hp1 : 1 ≤ p) (hpl : p ≤ l) (hld : l ≤ d)
    (c : Comparator) :
    ((c.1 < 2 ^ d ∧ oddEvenMergeSort_GetPartner c.1 l p > c.1
        ∧ c.2 = oddEvenMergeSort_GetPartner c.1 l p) ↔
      c ∈ atStride (2 ^ (l - p))
        (oddEvenMergeSort_NCPasses_Branchless_stage record [] (2 ^ d) (2 ^ l))) ∧
    (c ∈ oddEvenMergeSort_Partner_coord record [] (2 ^ d) l p ↔
      c ∈ atStride (2 ^ (l - p))
        (oddEvenMergeSort_NCPasses_Branchless_stage record [] (2 ^ d) (2 ^ l))) := by
  have h1 : c ∈ atStride (2 ^ (l - p))
      (oddEvenMergeSort_NCPasses_Branchless_stage record [] (2 ^ d) (2 ^ l))
        ↔ IsComp (2 ^ d) l p c := by
    rw [Branchless_stage_record d l (by omega) hld, List.nil_append]
    exact mem_atStride_stageList d l p hp1 hpl hld c
  rw [h1, ← mem_Partner_coord_iff (2 ^ d) l p hp1 c, mem_Partner_coord]
  exact ⟨Iff.rfl, Iff.rfl⟩

/-- Witness of C3 at `N = 8`, coordinate `(3, 2)` and the pair `(2, 4)`. -/
theorem C3_partner_set_eq_pass_witness :
    (1 ≤ 2 ∧ 2 ≤ 3 ∧ 3 ≤ 3) ∧
    (((2 < 2 ^ 3 ∧ oddEvenMergeSort_GetPartner 2 3 2 > 2
        ∧ 4 = oddEvenMergeSort_GetPartner 2 3 2) ↔
      ((2, 4) : Comparator) ∈ atStride (2 ^ (3 - 2))
        (oddEvenMergeSort_NCPasses_Branchless_stage record [] (2 ^ 3) (2 ^ 3))) ∧
    (((2, 4) : Comparator) ∈ oddEvenMergeSort_Partner_coord record [] (2 ^ 3) 3 2 ↔
      ((2, 4) : Comparator) ∈ atStride (2 ^ (3 - 2))
        (oddEvenMergeSort_NCPasses_Branchless_stage record [] (2 ^ 3) (2 ^ 3)))) :=
  ⟨by decide, C3_partner_set_eq_pass 3 3 2 (by decide) (by decide) (by decide) (2, 4)⟩

/-- Across stages a comparator can recur: for `N = 8` the pair `(1, 2)` is compared in
stage 4 and again in stage 8, so a sequence of calls is free of repetitions stage by stage
only. -/
theorem comparator_recurs_across_stages :
    (oddEvenMergeSort_NCPasses_Branchless record [] 8).count (1, 2) = 2 := by
  decide

/-- C4: for `N = 2^d ≥ 2`, every stage width `j = 2^l ≤ N` and every stride `r = 2^(l-p)`
of the stage, the comparators of distance `r` among the calls of stage `j` are the same for
`oddEvenMergeSort_Merge` built on `oddEvenMerge_r1(a,k,j,1)`, on `oddEvenMerge_r2`, on
`oddEvenMerge_r3`, for `oddEvenMergeSort_NCPasses_Branchless` and for
`oddEvenMergeSort_NCPasses_Branched`, and none of the five makes a call twice in the stage. -/
theorem C4_cross_formulation (d l p : Nat) (hp1 : 1 ≤ p) (hpl : p ≤ l) (hld : l ≤ d) :
    (∀ c, c ∈ atStride (2 ^ (l - p))
        (oddEvenMergeSort_Merge_stage (oddEvenMerge_r1 record) [] (2 ^ d) (2 ^ l)) ↔
      c ∈ atStride (2 ^ (l - p))
        (oddEvenMergeSort_NCPasses_Branchless_stage record [] (2 ^ d) (2 ^ l))) ∧
    (∀ c, c ∈ atStride (2 ^ (l - p))
        (oddEvenMergeSort_Merge_stage (oddEvenMerge_r2 record) [] (2 ^ d) (2 ^ l)) ↔
      c ∈ atStride (2 ^ (l - p))
        (oddEvenMergeSort_NCPasses_Branchless_stage record [] (2 ^ d) (2 ^ l))) ∧
    (∀ c, c ∈ atStride (2 ^ (l - p))
        (oddEvenMergeSort_Merge_stage (oddEvenMerge_r3 record) [] (2 ^ d) (2 ^ l)) ↔
      c ∈ atStride (2 ^ (l - p))
        (oddEvenMergeSort_NCPasses_Branchless_stage record [] (2 ^ d) (2 ^ l))) ∧
    (∀ c, c ∈ atStride (2 ^ (l - p))
        (oddEvenMergeSort_NCPasses_Branched_stage record [] (2 ^ d) (2 ^ l)) ↔
      c ∈ atStride (2 ^ (l - p))
        (oddEvenMergeSort_NCPasses_Branchless_stage record [] (2 ^ d) (2 ^ l))) ∧
    (oddEvenMergeSort_Merge_stage (oddEvenMerge_r1 record) [] (2 ^ d) (2 ^ l)).Nodup ∧
    (oddEvenMergeSort_Merge_stage (oddEvenMerge_r2 record) [] (2 ^ d) (2 ^ l)).Nodup ∧
    (oddEvenMergeSort_Merge_stage (oddEvenMerge_r3 record) [] (2 ^ d) (2 ^ l)).Nodup ∧
    (oddEvenMergeSort_NCPasses_Branchless_stage record [] (2 ^ d) (2 ^ l)).Nodup ∧
    (oddEvenMergeSort_NCPasses_Branched_stage record [] (2 ^ d) (2 ^ l)).Nodup := by
  have hl1 : 1 ≤ l := by omega
  rw [Merge_r1_stage_record d l hl1 hld, Merge_r2_stage_record d l hl1 hld,
    Merge_r3_stage_record d l hl1 hld, Branchless_stage_record d l hl1 hld,
    Branched_stage_record d l hl1 hld, List.nil_append]
  refine ⟨fun c => mem_atStride_congr _ _ _ (mem_mergeStageList_r1 d l hl1 hld) c,
    fun c => mem_atStride_congr _ _ _ (mem_mergeStageList d l hld) c,
    fun c => mem_atStride_congr _ _ _ (mem_mergeStageList d l hld) c,
    fun c => Iff.rfl, nodup_mergeStageList_r1 d l hl1, nodup_mergeStageList d l,
    nodup_mergeStageList d l, nodup_stageList d l hld, nodup_stageList d l hld⟩

/-- Witness of C4 at `N = 8`, stage `j = 8` and stride `r = 2`. -/
theorem C4_cross_formulation_witness :
    (1 ≤ 2 ∧ 2 ≤ 3 ∧ 3 ≤ 3) ∧
    ((∀ c, c ∈ atStride (2 ^ (3 - 2))
        (oddEvenMergeSort_Merge_stage (oddEvenMerge_r1 record) [] (2 ^ 3) (2 ^ 3)) ↔
      c ∈ atStride (2 ^ (3 - 2))
        (oddEvenMergeSort_NCPasses_Branchless_stage record [] (2 ^ 3) (2 ^ 3))) ∧
    (∀ c, c ∈ atStride (2 ^ (3 - 2))
        (oddEvenMergeSort_Merge_stage (oddEvenMerge_r2 record) [] (2 ^ 3) (2 ^ 3)) ↔
      c ∈ atStride (2 ^ (3 - 2))
        (oddEvenMergeSort_NCPasses_Branchless_stage record [] (2 ^ 3) (2 ^ 3))) ∧
    (∀ c, c ∈ atStride (2 ^ (3 - 2))
        (oddEvenMergeSort_Merge_stage (oddEvenMerge_r3 record) [] (2 ^ 3) (2 ^ 3)) ↔
      c ∈ atStride (2 ^ (3 - 2))
        (oddEvenMergeSort_NCPasses_Branchless_stage record [] (2 ^ 3) (2 ^ 3))) ∧
    (∀ c, c ∈ atStride (2 ^ (3 - 2))
        (oddEvenMergeSort_NCPasses_Branched_stage record [] (2 ^ 3) (2 ^ 3)) ↔
      c ∈ atStride (2 ^ (3 - 2))
        (oddEvenMergeSort_NCPasses_Branchless_stage record [] (2 ^ 3) (2 ^ 3))) ∧
    (oddEvenMergeSort_Merge_stage (oddEvenMerge_r1 record) [] (2 ^ 3) (2 ^ 3)).Nodup ∧
    (oddEvenMergeSort_Merge_stage (oddEvenMerge_r2 record) [] (2 ^ 3) (2 ^ 3)).Nodup ∧
    (oddEvenMergeSort_Merge_stage (oddEvenMerge_r3 record) [] (2 ^ 3) (2 ^ 3)).Nodup ∧
    (oddEvenMergeSort_NCPasses_Branchless_stage record [] (2 ^ 3) (2 ^ 3)).Nodup ∧
    (oddEvenMergeSort_NCPasses_Branched_stage record [] (2 ^ 3) (2 ^ 3)).Nodup) :=
  ⟨by decide, C4_cross_formulation 3 3 2 (by decide) (by decide) (by decide)⟩

/-- C5: for `n = 2^m ≥ 2`, a stride `r = 2^s ≤ n/2` and a start `lo`, if the two halves of
the subsequence `a[lo], a[lo+r], ..., a[lo+n-r]` are non-decreasing, then
`oddEvenMerge_r1(a, lo, n, r)` runs to its end and leaves that whole subsequence
non-decreasing; for `r = 1` so do `oddEvenMerge_r2` and `oddEvenMerge_r3` on the block of
width `n`.  (`view b i` is `b[i]` for `i` inside the buffer.) -/
theorem C5_merge_step (m s lo : Nat) (hs : s < m) (a : Buf) (hlen : lo + 2 ^ m ≤ a.length)
    (h0 : ∀ u u', u ≤ u' → u' < 2 ^ (m - s - 1) →
      view a (lo + 2 ^ s * u) ≤ view a (lo + 2 ^ s * u'))
    (h1 : ∀ u u', u ≤ u' → u' < 2 ^ (m - s - 1) →
      view a (lo + 2 ^ s * (2 ^ (m - s - 1) + u))
        ≤ view a (lo + 2 ^ s * (2 ^ (m - s - 1) + u'))) :
    (∃ b, oddEvenMerge_r1 step (some a) lo (2 ^ m) (2 ^ s) = some b ∧ b.length = a.length ∧
      ∀ u u', u ≤ u' → u' < 2 ^ (m - s) →
        view b (lo + 2 ^ s * u) ≤ view b (lo + 2 ^ s * u')) ∧
    (s = 0 → ∃ b, oddEvenMerge_r2 step (some a) lo (2 ^ m) 1 = some b ∧ b.length = a.length ∧
      ∀ u u', u ≤ u' → u' < 2 ^ m → view b (lo + u) ≤ view b (lo + u')) ∧
    (s = 0 → ∃ b, oddEvenMerge_r3 step (some a) lo (2 ^ m) 1 = some b ∧ b.length = a.length ∧
      ∀ u u', u ≤ u' → u' < 2 ^ m → view b (lo + u) ≤ view b (lo + u')) := by
  have hk : 1 ≤ m - s := by omega
  have hn : 2 ^ s * 2 ^ (m - s) = 2 ^ m := (pow_split m s (by omega)).symm
  have hr : 1 ≤ 2 ^ s := Nat.one_le_two_pow
  refine ⟨?_, ?_, ?_⟩
  · obtain ⟨b, hb, hl, hv⟩ := r1_run (m - s) lo (2 ^ s) hk hr a (by rw [hn]; exact hlen)
    rw [hn] at hb
    refine ⟨b, hb, hl, ?_⟩
    intro u u' huu hu'
    rw [hv, r1List_map]
    exact merge_lift (m - s) hk (r1List 0 1 (m - s)) (r1_unit_merges (m - s) hk) lo (2 ^ s) hr
      (view a) h0 h1 u u' huu hu'
  · intro hs0
    subst hs0
    simp only [pow_zero, Nat.one_mul, Nat.sub_zero] at h0 h1
    have e := (traceable_r2 lo (2 ^ m) 1).eq_runNet step (some a)
    simp only at e
    have hrec := r2_record lo m 1 (by omega) []
    rw [List.nil_append] at hrec
    obtain ⟨b, hb, hl, hv⟩ := blockMerge_run m lo a hlen
    refine ⟨b, by rw [e, hrec]; exact hb, hl, ?_⟩
    intro u u' huu hu'
    rw [hv, blockMerge_shift]
    have := merge_lift m (by omega) (blockMerge 0 m) (blockMerge_unit_merges m (by omega)) lo 1
      (le_refl 1) (view a) (by simpa using h0) (by simpa using h1) u u' huu hu'
    simpa using this
  · intro hs0
    subst hs0
    simp only [pow_zero, Nat.one_mul, Nat.sub_zero] at h0 h1
    have e := (traceable_r3 lo (2 ^ m) 1).eq_runNet step (some a)
    simp only at e
    have hrec := r3_record lo m 1 (by omega) []
    rw [List.nil_append] at hrec
    obtain ⟨b, hb, hl, hv⟩ := blockMerge_run m lo a hlen
    refine ⟨b, by rw [e, hrec]; exact hb, hl, ?_⟩
    intro u u' huu hu'
    rw [hv, blockMerge_shift]
    have := merge_lift m (by omega) (blockMerge 0 m) (blockMerge_unit_merges m (by omega)) lo 1
      (le_refl 1) (view a) (by simpa using h0) (by simpa using h1) u u' huu hu'
    simpa using this

/-- C6: for `N = 2^d` and every coordinate `1 ≤ p ≤ l ≤ d`, no two comparators of the pass
share an index, be the pass the comparators of distance `2^(l-p)` among the calls of stage
`2^l` of `oddEvenMergeSort_NCPasses_Branchless` or of `oddEvenMergeSort_NCPasses_Branched`,
or the calls of the coordinate in `oddEvenMergeSort_Partner`. -/
theorem C6_non_colliding (d l p : Nat) (hp1 : 1 ≤ p) (hpl : p ≤ l) (hld : l ≤ d) :
    (atStride (2 ^ (l - p))
      (oddEvenMergeSort_NCPasses_Branchless_stage record [] (2 ^ d) (2 ^ l))).Pairwise DisjointC ∧
    (atStride (2 ^ (l - p))
      (oddEvenMergeSort_NCPasses_Branched_stage record [] (2 ^ d) (2 ^ l))).Pairwise DisjointC ∧
    (oddEvenMergeSort_Partner_coord record [] (2 ^ d) l p).Pairwise DisjointC := by
  have hl1 : 1 ≤ l := by omega
  rw [Branchless_stage_record d l hl1 hld, Branched_stage_record d l hl1 hld, List.nil_append]
  have hpass : (atStride (2 ^ (l - p)) (stageList d l)).Pairwise DisjointC :=
    pairwise_disjoint_of_isComp (2 ^ d) l p hp1 _ (nodup_atStride _ _ (nodup_stageList d l hld))
      (fun c hc => (mem_atStride_stageList d l p hp1 hpl hld c).1 hc)
  exact ⟨hpass, hpass, pairwise_disjoint_of_isComp (2 ^ d) l p hp1 _
    (nodup_Partner_coord (2 ^ d) l p) (fun c hc => (mem_Partner_coord_iff (2 ^ d) l p hp1 c).1 hc)⟩

/-- Witness of C6 at `N = 8` and the coordinate `(3, 2)`. -/
theorem C6_non_colliding_witness :
    (1 ≤ 2 ∧ 2 ≤ 3 ∧ 3 ≤ 3) ∧
    ((atStride (2 ^ (3 - 2))
      (oddEvenMergeSort_NCPasses_Branchless_stage record [] (2 ^ 3) (2 ^ 3))).Pairwise DisjointC ∧
    (atStride (2 ^ (3 - 2))
      (oddEvenMergeSort_NCPasses_Branched_stage record [] (2 ^ 3) (2 ^ 3))).Pairwise DisjointC ∧
    (oddEvenMergeSort_Partner_coord record [] (2 ^ 3) 3 2).Pairwise DisjointC) :=
  ⟨by decide, C6_non_colliding 3 3 2 (by decide) (by decide) (by decide)⟩

/-- C7: for `N = 2^d`, every buffer and every coordinate `(l, p)` with `p ≥ 1`, the lane
body of `oddEvenMergeSort_Partner_MT` run over the lanes `0 .. N-1` in any order gives the
buffer that the ascending loop of `oddEvenMergeSort_Partner` gives; hence the two drivers
are in the same state after every coordinate and at the end. -/
theorem C7_lane_order_irrelevant (d l p : Nat) (hp1 : 1 ≤ p) (sched : Nat → Nat → List Nat)
    (hsched : ∀ l p, (sched l p).Perm (List.range (2 ^ d))) (a : Buf) :
    (sched l p).foldl (laneBody step l p) (some a)
        = oddEvenMergeSort_Partner_coord step (some a) (2 ^ d) l p ∧
      oddEvenMergeSort_Partner_MT sched step (some a) (2 ^ d)
        = oddEvenMergeSort_Partner step (some a) (2 ^ d) :=
  ⟨lanes_any_order (2 ^ d) l p hp1 (sched l p) (hsched l p) (some a),
    Partner_MT_eq (2 ^ d) sched hsched (some a)⟩

/-- Witness of C5 on the block `[1, 3, 0, 2]` at `lo = 1` of the buffer
`[7, 1, 3, 0, 2, 7]`, with `n = 4` and `r = 1`. -/
theorem C5_merge_step_witness :
    (0 < 2 ∧ 1 + 2 ^ 2 ≤ ([7, 1, 3, 0, 2, 7] : Buf).length) ∧
    ((∃ b, oddEvenMerge_r1 step (some [7, 1, 3, 0, 2, 7]) 1 (2 ^ 2) (2 ^ 0) = some b
      ∧ b.length = ([7, 1, 3, 0, 2, 7] : Buf).length ∧
      ∀ u u', u ≤ u' → u' < 2 ^ (2 - 0) →
        view b (1 + 2 ^ 0 * u) ≤ view b (1 + 2 ^ 0 * u')) ∧
    (0 = 0 → ∃ b, oddEvenMerge_r2 step (some [7, 1, 3, 0, 2, 7]) 1 (2 ^ 2) 1 = some b
      ∧ b.length = ([7, 1, 3, 0, 2, 7] : Buf).length ∧
      ∀ u u', u ≤ u' → u' < 2 ^ 2 → view b (1 + u) ≤ view b (1 + u')) ∧
    (0 = 0 → ∃ b, oddEvenMerge_r3 step (some [7, 1, 3, 0, 2, 7]) 1 (2 ^ 2) 1 = some b
      ∧ b.length = ([7, 1, 3, 0, 2, 7] : Buf).length ∧
      ∀ u u', u ≤ u' → u' < 2 ^ 2 → view b (1 + u) ≤ view b (1 + u'))) :=
  ⟨by decide, C5_merge_step 2 0 1 (by decide) [7, 1, 3, 0, 2, 7] (by decide)
    (by
      intro u u' h1 h2
      have h3 : u' < 2 := h2
      interval_cases u' <;> interval_cases u <;> simp [view])
    (by
      intro u u' h1 h2
      have h3 : u' < 2 := h2
      interval_cases u' <;> interval_cases u <;> simp [view])⟩

/-- Witness of C7 at `N = 2`: the two lanes in descending order. -/
theorem C7_lane_order_irrelevant_witness :
    (1 ≤ 1 ∧ ([1, 0] : List Nat).Perm (List.range (2 ^ 1))) ∧
    (([1, 0] : List Nat).foldl (laneBody step 1 1) (some [2, 1])
        = oddEvenMergeSort_Partner_coord step (some [2, 1]) (2 ^ 1) 1 1 ∧
      oddEvenMergeSort_Partner_MT (fun _ _ => [1, 0]) step (some [2, 1]) (2 ^ 1)
        = oddEvenMergeSort_Partner step (some [2, 1]) (2 ^ 1)) :=
  ⟨⟨le_refl 1, List.Perm.swap 0 1 []⟩,
    C7_lane_order_irrelevant 1 1 1 (le_refl 1) (fun _ _ => [1, 0])
      (fun _ _ => List.Perm.swap 0 1 []) [2, 1]⟩

/-- Counterexample to C8: with the length 6, not a power of two, on a buffer of eight
slots, every entry point returns normally and has reordered the buffer; none rejects the
call. -/
theorem C8_counterexample :
    oddEvenMergeSort_Merge step (some [2, 1, 4, 3, 6, 5, 8, 7]) 6
        = some [1, 2, 3, 4, 5, 6, 8, 7] ∧
      oddEvenMergeSort_NCPasses_Branchless step (some [2, 1, 4, 3, 6, 5, 8, 7]) 6
        = some [1, 2, 3, 4, 5, 6, 8, 7] ∧
      oddEvenMergeSort_NCPasses_Branched step (some [2, 1, 4, 3, 6, 5, 8, 7]) 6
        = some [1, 2, 3, 4, 5, 6, 8, 7] ∧
      oddEvenMergeSort_Partner step (some [2, 1, 4, 3, 6, 5, 8, 7]) 6
        = some [1, 2, 3, 4, 5, 6, 8, 7] := by
  decide

/-- C9: for `N = 2^d`, every call `compare(a, i, j)` of every driver, `oddEvenMergeSort_Merge`
on `oddEvenMerge_r1`, `oddEvenMerge_r2` or `oddEvenMerge_r3`, the two
`oddEvenMergeSort_NCPasses_*` and `oddEvenMergeSort_Partner`, has `i < j < N`; hence on a
buffer of length `N` no driver leaves the buffer. -/
theorem C9_index_safety (d : Nat) :
    (∀ c ∈ oddEvenMergeSort_Merge_with (oddEvenMerge_r1 record) [] (2 ^ d),
      c.1 < c.2 ∧ c.2 < 2 ^ d) ∧
    (∀ c ∈ oddEvenMergeSort_Merge_with (oddEvenMerge_r2 record) [] (2 ^ d),
      c.1 < c.2 ∧ c.2 < 2 ^ d) ∧
    (∀ c ∈ oddEvenMergeSort_Merge_with (oddEvenMerge_r3 record) [] (2 ^ d),
      c.1 < c.2 ∧ c.2 < 2 ^ d) ∧
    (∀ c ∈ oddEvenMergeSort_NCPasses_Branchless record [] (2 ^ d), c.1 < c.2 ∧ c.2 < 2 ^ d) ∧
    (∀ c ∈ oddEvenMergeSort_NCPasses_Branched record [] (2 ^ d), c.1 < c.2 ∧ c.2 < 2 ^ d) ∧
    (∀ c ∈ oddEvenMergeSort_Partner record [] (2 ^ d), c.1 < c.2 ∧ c.2 < 2 ^ d) ∧
    (∀ a : Buf, a.length = 2 ^ d →
      (∃ b, oddEvenMergeSort_Merge_with (oddEvenMerge_r1 step) (some a) (2 ^ d) = some b) ∧
      (∃ b, oddEvenMergeSort_Merge_with (oddEvenMerge_r2 step) (some a) (2 ^ d) = some b) ∧
      (∃ b, oddEvenMergeSort_Merge_with (oddEvenMerge_r3 step) (some a) (2 ^ d) = some b) ∧
      (∃ b, oddEvenMergeSort_NCPasses_Branchless step (some a) (2 ^ d) = some b) ∧
      (∃ b, oddEvenMergeSort_NCPasses_Branched step (some a) (2 ^ d) = some b) ∧
      (∃ b, oddEvenMergeSort_Partner step (some a) (2 ^ d) = some b)) := by
  refine ⟨Merge_r1_in_range d, Merge_r2_in_range d, Merge_in_range d, Branchless_in_range d,
    Branched_in_range d, Partner_calls_in_range d, ?_⟩
  intro a ha
  refine ⟨?_, ?_, ?_, ?_, ?_, ?_⟩
  · obtain ⟨b, hb, _⟩ := driver_run _
      (traceable_Merge_with (M := fun lo n r _ cmp s => oddEvenMerge_r1 cmp s lo n r)
        traceable_r1 (2 ^ d)) (2 ^ d) (Merge_r1_in_range d) a ha
    exact ⟨b, hb⟩
  · obtain ⟨b, hb, _⟩ := driver_run _
      (traceable_Merge_with (M := fun lo n r _ cmp s => oddEvenMerge_r2 cmp s lo n r)
        traceable_r2 (2 ^ d)) (2 ^ d) (Merge_r2_in_range d) a ha
    exact ⟨b, hb⟩
  · obtain ⟨b, hb, _⟩ := driver_run _ (traceable_Merge (2 ^ d)) (2 ^ d) (Merge_in_range d) a ha
    exact ⟨b, hb⟩
  · obtain ⟨b, hb, _⟩ := driver_run _ (traceable_Branchless (2 ^ d)) (2 ^ d)
      (Branchless_in_range d) a ha
    exact ⟨b, hb⟩
  · obtain ⟨b, hb, _⟩ := driver_run _ (traceable_Branched (2 ^ d)) (2 ^ d)
      (Branched_in_range d) a ha
    exact ⟨b, hb⟩
  · obtain ⟨b, hb, _⟩ := driver_run _ (traceable_Partner (2 ^ d)) (2 ^ d)
      (Partner_calls_in_range d) a ha
    exact ⟨b, hb⟩

/-- A driver on a sorted buffer: no exchange, and the buffer as it was. -/
theorem driver_sorted (P : (σ : Type) → (σ → Nat → Nat → σ) → σ → σ) (hP : Traceable P)
    (N : Nat) (hrange : ∀ c ∈ P _ record [], c.1 < c.2 ∧ c.2 < N) (a : Buf) (ha : a.length = N)
    (hs : isNonDecreasing a) :
    P _ stepCount (some a, 0) = (some a, 0) ∧ P _ step (some a) = some a := by
  obtain ⟨b, _, _, _, _, hcount⟩ := driver_run P hP N hrange a ha
  have h1 := hcount hs
  refine ⟨h1, ?_⟩
  have h2 := runNet_stepCount_fst (P _ record []) (some a, 0)
  rw [← hP.eq_runNet stepCount (some a, 0), h1] at h2
  rw [hP.eq_runNet step (some a)]
  exact h2.symm

/-- C10: for `N = 2^d` and every non-decreasing buffer of length `N`, each of the four sort
drivers calls `exchange` zero times (the count beside the buffer stays 0) and leaves the
buffer as it was. -/
theorem C10_sorted_input_unchanged (d : Nat) (a : Buf) (ha : a.length = 2 ^ d)
    (hs : isNonDecreasing a) :
    (oddEvenMergeSort_Merge stepCount (some a, 0) (2 ^ d) = (some a, 0)
      ∧ oddEvenMergeSort_Merge step (some a) (2 ^ d) = some a) ∧
    (oddEvenMergeSort_NCPasses_Branchless stepCount (some a, 0) (2 ^ d) = (some a, 0)
      ∧ oddEvenMergeSort_NCPasses_Branchless step (some a) (2 ^ d) = some a) ∧
    (oddEvenMergeSort_NCPasses_Branched stepCount (some a, 0) (2 ^ d) = (some a, 0)
      ∧ oddEvenMergeSort_NCPasses_Branched step (some a) (2 ^ d) = some a) ∧
    (oddEvenMergeSort_Partner stepCount (some a, 0) (2 ^ d) = (some a, 0)
      ∧ oddEvenMergeSort_Partner step (some a) (2 ^ d) = some a) :=
  ⟨driver_sorted _ (traceable_Merge (2 ^ d)) (2 ^ d) (Merge_in_range d) a ha hs,
    driver_sorted _ (traceable_Branchless (2 ^ d)) (2 ^ d) (Branchless_in_range d) a ha hs,
    driver_sorted _ (traceable_Branched (2 ^ d)) (2 ^ d) (Branched_in_range d) a ha hs,
    driver_sorted _ (traceable_Partner (2 ^ d)) (2 ^ d) (Partner_calls_in_range d) a ha hs⟩

/-- Witness of C10 on the sorted buffer `[0, 1, 1, 5]`. -/
theorem C10_sorted_input_unchanged_witness :
    (([0, 1, 1, 5] : Buf).length = 2 ^ 2 ∧ isNonDecreasing [0, 1, 1, 5]) ∧
    ((oddEvenMergeSort_Merge stepCount (some [0, 1, 1, 5], 0) (2 ^ 2) = (some [0, 1, 1, 5], 0)
      ∧ oddEvenMergeSort_Merge step (some [0, 1, 1, 5]) (2 ^ 2) = some [0, 1, 1, 5]) ∧
    (oddEvenMergeSort_NCPasses_Branchless stepCount (some [0, 1, 1, 5], 0) (2 ^ 2)
        = (some [0, 1, 1, 5], 0)
      ∧ oddEvenMergeSort_NCPasses_Branchless step (some [0, 1, 1, 5]) (2 ^ 2)
        = some [0, 1, 1, 5]) ∧
    (oddEvenMergeSort_NCPasses_Branched stepCount (some [0, 1, 1, 5], 0) (2 ^ 2)
        = (some [0, 1, 1, 5], 0)
      ∧ oddEvenMergeSort_NCPasses_Branched step (some [0, 1, 1, 5]) (2 ^ 2)
        = some [0, 1, 1, 5]) ∧
    (oddEvenMergeSort_Partner stepCount (some [0, 1, 1, 5], 0) (2 ^ 2) = (some [0, 1, 1, 5], 0)
      ∧ oddEvenMergeSort_Partner step (some [0, 1, 1, 5]) (2 ^ 2) = some [0, 1, 1, 5])) :=
  ⟨⟨rfl, by
      intro i hi
      have h4 : i + 1 < 4 := hi
      have h : i < 3 := by omega
      interval_cases i <;> simp⟩,
    C10_sorted_input_unchanged 2 [0, 1, 1, 5] rfl (by
      intro i hi
      have h4 : i + 1 < 4 := hi
      have h : i < 3 := by omega
      interval_cases i <;> simp)⟩

/-! ## The partner function: formula, involution -/

theorem getPartner_eq_partnerSpec (n l p : Nat) :
    oddEvenMergeSort_GetPartner n l p = partnerSpec n l p := by
  unfold oddEvenMergeSort_GetPartner partnerSpec
  by_cases hp : p = 1
  · simp only [if_pos hp, Nat.shiftLeft_eq, one_mul]
  · simp only [if_neg hp, Nat.shiftLeft_eq, one_mul, Nat.and_one_is_mod]
    have : n / 2 ^ (l - p) - n / 2 ^ (l - p) / 2 ^ p * 2 ^ p = n / 2 ^ (l - p) % 2 ^ p := by
      have := Nat.div_add_mod (n / 2 ^ (l - p)) (2 ^ p)
      rw [Nat.mul_comm] at this
      omega
    rw [this]

/-- C11: for every lane `n` and every coordinate `1 ≤ p ≤ l`, `l < 31`,
`oddEvenMergeSort_GetPartner(n, l, p)` is the partner function of the specification
(`partnerSpec`: `n XOR 2^(l-1)` for `p = 1`; otherwise `n` at the positions `0` and `box - 1`
of the box, `n - scale` at an even position, `n + scale` at an odd one); and for `n` an
`int`, `n < 2^31`, the value stays below `2^31`, so the `int` of the source holds it. -/
theorem C11_GetPartner_formula (n l p : Nat) (hp1 : 1 ≤ p) (hpl : p ≤ l) (hl : l < 31) :
    oddEvenMergeSort_GetPartner n l p = partnerSpec n l p ∧
      (n < 2 ^ 31 → oddEvenMergeSort_GetPartner n l p < 2 ^ 31) :=
  ⟨getPartner_eq_partnerSpec n l p,
    fun hn => getPartner_lt 31 l p n hp1 hpl (by omega) hn⟩

/-- Witness of C11 at lane 5 of the coordinate `(3, 2)`, whose partner is lane 3. -/
theorem C11_GetPartner_formula_witness :
    (1 ≤ 2 ∧ 2 ≤ 3 ∧ 3 < 31) ∧
    (oddEvenMergeSort_GetPartner 5 3 2 = partnerSpec 5 3 2 ∧
      (5 < 2 ^ 31 → oddEvenMergeSort_GetPartner 5 3 2 < 2 ^ 31)) :=
  ⟨by decide, C11_GetPartner_formula 5 3 2 (by decide) (by decide) (by decide)⟩

/-! ## The partner formula on 32-bit integers -/

/-- Outside the range of the drivers the function on 32-bit integers and the function on
the natural numbers differ: at `(n, l, p) = (0, 33, 1)` the shift count is 32, the source
returns `1` and the function on the natural numbers `2^32`. -/
theorem getPartner_outside_range :
    oddEvenMergeSort_GetPartner32 0 33 1 = 1 ∧
      oddEvenMergeSort_GetPartner 0 33 1 = 4294967296 := by
  constructor <;> decide

/-- C12: on the sample input `[4,3,7,8,5,2,6,1]` of `main`, with `N = 8`, each of the four
sort drivers (and `oddEvenMergeSort_Merge` on `oddEvenMerge_r1` and on `oddEvenMerge_r2` as
well) runs to its end and leaves the buffer `[1,2,3,4,5,6,7,8]`. -/
theorem C12_sample_input :
    oddEvenMergeSort_Merge step (some [4, 3, 7, 8, 5, 2, 6, 1]) 8
        = some [1, 2, 3, 4, 5, 6, 7, 8] ∧
      oddEvenMergeSort_NCPasses_Branchless step (some [4, 3, 7, 8, 5, 2, 6, 1]) 8
        = some [1, 2, 3, 4, 5, 6, 7, 8] ∧
      oddEvenMergeSort_NCPasses_Branched step (some [4, 3, 7, 8, 5, 2, 6, 1]) 8
        = some [1, 2, 3, 4, 5, 6, 7, 8] ∧
      oddEvenMergeSort_Partner step (some [4, 3, 7, 8, 5, 2, 6, 1]) 8
        = some [1, 2, 3, 4, 5, 6, 7, 8] ∧
      oddEvenMergeSort_Merge_with (oddEvenMerge_r1 step) (some [4, 3, 7, 8, 5, 2, 6, 1]) 8
        = some [1, 2, 3, 4, 5, 6, 7, 8] ∧
      oddEvenMergeSort_Merge_with (oddEvenMerge_r2 step) (some [4, 3, 7, 8, 5, 2, 6, 1]) 8
        = some [1, 2, 3, 4, 5, 6, 7, 8] := by
  refine ⟨?_, ?_, ?_, ?_, ?_, ?_⟩ <;> decide

/-- C13: for `N = 8` the calls of the stage of block width `j = 2`, the single pass of the
stage, are `(0,1), (2,3), (4,5), (6,7)`, in this order, for
`oddEvenMergeSort_NCPasses_Branchless`, for `oddEvenMergeSort_NCPasses_Branched` and for the
coordinate `(1, 1)` of `oddEvenMergeSort_Partner`; the drivers open with them; and a pair
belongs to `{(n, partner(n,1,1)) : n < 8, partner(n,1,1) > n}` exactly when it is one of
the four. -/
theorem C13_stage_two_pass :
    oddEvenMergeSort_NCPasses_Branchless_stage record [] 8 2 = [(0, 1), (2, 3), (4, 5), (6, 7)] ∧
      oddEvenMergeSort_NCPasses_Branched_stage record [] 8 2
        = [(0, 1), (2, 3), (4, 5), (6, 7)] ∧
      oddEvenMergeSort_Partner_coord record [] 8 1 1 = [(0, 1), (2, 3), (4, 5), (6, 7)] ∧
      (oddEvenMergeSort_NCPasses_Branchless record [] 8).take 4
        = [(0, 1), (2, 3), (4, 5), (6, 7)] ∧
      (oddEvenMergeSort_NCPasses_Branched record [] 8).take 4
        = [(0, 1), (2, 3), (4, 5), (6, 7)] ∧
      (oddEvenMergeSort_Partner record [] 8).take 4 = [(0, 1), (2, 3), (4, 5), (6, 7)] ∧
      ∀ c : Comparator,
        (c.1 < 8 ∧ oddEvenMergeSort_GetPartner c.1 1 1 > c.1
            ∧ c.2 = oddEvenMergeSort_GetPartner c.1 1 1)
          ↔ c ∈ [((0, 1) : Comparator), (2, 3), (4, 5), (6, 7)] := by
  refine ⟨by decide, by decide, by decide, by decide, by decide, by decide, ?_⟩
  intro c
  rw [← mem_Partner_coord]
  have h : oddEvenMergeSort_Partner_coord record [] 8 1 1
      = [(0, 1), (2, 3), (4, 5), (6, 7)] := by decide
  rw [h]

/-! ## The two pass-scheduled drivers, for every length -/

/-- Every value of the loop variable keeps an invariant that the steps of the loop keep. -/
theorem cforIter_inv (I : Nat → Prop) (cond : Nat → Bool) (next : Nat → Nat)
    (hstep : ∀ i, I i → cond i = true → I (next i)) (fuel init : Nat) (hI : I init) :
    ∀ x ∈ cforIter fuel init cond next, I x := by
  induction fuel generalizing init with
  | zero => intro x hx; simp [cforIter] at hx
  | succ fuel ih =>
    intro x hx
    unfold cforIter at hx
    by_cases hc : cond init = true
    · rw [if_pos hc] at hx
      rcases List.mem_cons.1 hx with h | h
      · rw [h]; exact hI
      · exact ih (next init) (hstep init hI hc) x h
    · rw [if_neg hc] at hx
      simp at hx

theorem Branched_pass_first {σ : Type} (cmp : σ → Nat → Nat → σ) (s : σ) (n j : Nat) :
    NCPasses_Branched_pass cmp s n j (j >>> 1) = NCPasses_pass0 cmp s n j (j >>> 1) := by
  unfold NCPasses_Branched_pass NCPasses_pass0
  simp only [if_true]

theorem Branched_pass_later {σ : Type} (cmp : σ → Nat → Nat → σ) (s : σ) (n j r : Nat)
    (h : r ≠ j >>> 1) :
    NCPasses_Branched_pass cmp s n j r = NCPasses_passR cmp s n j r := by
  unfold NCPasses_Branched_pass NCPasses_passR
  simp only [if_neg h]

/-- A stage of `oddEvenMergeSort_NCPasses_Branched` is the stage of
`oddEvenMergeSort_NCPasses_Branchless`, for every length and every width `j ≥ 2`, whatever
a `compare` call does. -/
theorem Branched_stage_eq {σ : Type} (cmp : σ → Nat → Nat → σ) (s : σ) (n j : Nat)
    (hj : 2 ≤ j) :
    oddEvenMergeSort_NCPasses_Branched_stage cmp s n j
      = oddEvenMergeSort_NCPasses_Branchless_stage cmp s n j := by
  obtain ⟨j', rfl⟩ : ∃ j', j = j' + 1 := ⟨j - 1, by omega⟩
  unfold oddEvenMergeSort_NCPasses_Branched_stage oddEvenMergeSort_NCPasses_Branchless_stage
  have h1 : 1 ≤ (j' + 1) >>> 1 := by
    rw [Nat.shiftRight_eq_div_pow]
    have : 1 * 2 ≤ j' + 1 := by omega
    simpa using (Nat.le_div_iff_mul_le (by decide : 0 < 2)).2 this
  have hlt : ((j' + 1) >>> 1) >>> 1 < (j' + 1) >>> 1 := by
    rw [Nat.shiftRight_eq_div_pow ((j' + 1) >>> 1)]
    simp only [pow_one]
    omega
  have hle : ((j' + 1) >>> 1) >>> 1 ≤ j' := by
    have : (j' + 1) >>> 1 ≤ j' + 1 := by
      rw [Nat.shiftRight_eq_div_pow]; exact Nat.div_le_self _ _
    omega
  conv_lhs => unfold cfor
  have hc : (decide ((j' + 1) >>> 1 ≥ 1)) = true := by simpa using h1
  simp only [hc, if_true]
  rw [Branched_pass_first]
  have hb := budget_stride_loop j' (((j' + 1) >>> 1) >>> 1) 1 hle
    (fun s r => NCPasses_passR cmp s n (j' + 1) r)
    (NCPasses_pass0 cmp s n (j' + 1) ((j' + 1) >>> 1))
  rw [hb, cfor_eq_foldl, cfor_eq_foldl]
  apply foldl_congr_mem
  intro s r hr
  have hr' : r ≤ ((j' + 1) >>> 1) >>> 1 :=
    cforIter_inv (fun r => r ≤ ((j' + 1) >>> 1) >>> 1) _ _
      (by
        intro i hi _
        have : i >>> 1 ≤ i := by
          rw [Nat.shiftRight_eq_div_pow]; exact Nat.div_le_self _ _
        exact le_trans this hi)
      j' _ (le_refl _) r hr
  exact Branched_pass_later cmp s n (j' + 1) r (by omega)

/-- The two pass-scheduled drivers are the same function of the effect of `compare`, for
every length. -/
theorem Branched_eq_Branchless {σ : Type} (cmp : σ → Nat → Nat → σ) (s : σ) (n : Nat) :
    oddEvenMergeSort_NCPasses_Branched cmp s n
      = oddEvenMergeSort_NCPasses_Branchless cmp s n := by
  unfold oddEvenMergeSort_NCPasses_Branched oddEvenMergeSort_NCPasses_Branchless
  rw [cfor_eq_foldl, cfor_eq_foldl]
  apply foldl_congr_mem
  intro s j hj
  have hj2 : 2 ≤ j :=
    cforIter_inv (fun j => 2 ≤ j) _ _
      (by
        intro i hi _
        show 2 ≤ i <<< 1
        rw [Nat.shiftLeft_eq]
        omega)
      n 2 (le_refl 2) j hj
  exact Branched_stage_eq cmp s n j hj2

/-- C14: for every length `N`, a power of two or not, `oddEvenMergeSort_NCPasses_Branchless`
and `oddEvenMergeSort_NCPasses_Branched` make the same sequence of `compare` calls, the same
pairs in the same order; so do their stages of every width `j ≥ 2`, and the comparators of
every distance `r` in a stage are the same; hence the two drivers have the same outcome on
every buffer. -/
theorem C14_Branchless_eq_Branched (N : Nat) :
    oddEvenMergeSort_NCPasses_Branchless record [] N
        = oddEvenMergeSort_NCPasses_Branched record [] N ∧
      (∀ j, 2 ≤ j →
        oddEvenMergeSort_NCPasses_Branchless_stage record [] N j
          = oddEvenMergeSort_NCPasses_Branched_stage record [] N j) ∧
      (∀ j r, 2 ≤ j →
        atStride r (oddEvenMergeSort_NCPasses_Branchless_stage record [] N j)
          = atStride r (oddEvenMergeSort_NCPasses_Branched_stage record [] N j)) ∧
      (∀ s : Option Buf,
        oddEvenMergeSort_NCPasses_Branchless step s N
          = oddEvenMergeSort_NCPasses_Branched step s N) := by
  refine ⟨(Branched_eq_Branchless record [] N).symm,
    fun j hj => (Branched_stage_eq record [] N j hj).symm, ?_,
    fun s => (Branched_eq_Branchless step s N).symm⟩
  intro j r hj
  rw [Branched_stage_eq record [] N j hj]

/-! ## The coordinates of the executor -/

theorem bitScanReverse_go_spec (fuel n : Nat) (h1 : 1 ≤ n) (hf : n ≤ fuel) :
    2 ^ bitScanReverse_go fuel n ≤ n ∧ n < 2 ^ (bitScanReverse_go fuel n + 1) := by
  induction fuel generalizing n with
  | zero => omega
  | succ fuel ih =>
    unfold bitScanReverse_go
    by_cases h2 : n ≥ 2
    · rw [if_pos h2]
      have hhalf : 1 ≤ n / 2 := by omega
      obtain ⟨ha, hb⟩ := ih (n / 2) hhalf (by omega)
      simp only [pow_succ] at hb ⊢
      generalize 2 ^ bitScanReverse_go fuel (n / 2) = q at ha hb ⊢
      omega
    · rw [if_neg h2]
      have : n = 1 := by omega
      subst this
      decide

/-- The index that `_BitScanReverse` finds is the integer part of the binary logarithm. -/
theorem bitScanReverse_spec (N : Nat) (hN : 1 ≤ N) :
    2 ^ bitScanReverse N ≤ N ∧ N < 2 ^ (bitScanReverse N + 1) :=
  bitScanReverse_go_spec N N hN (le_refl N)

theorem bitScanReverse_eq_log (N : Nat) (hN : 1 ≤ N) : bitScanReverse N = Nat.log 2 N := by
  obtain ⟨h1, h2⟩ := bitScanReverse_spec N hN
  exact (Nat.log_eq_of_pow_le_of_lt_pow h1 h2).symm

/-- The loops over the coordinates as a fold over the rows `l = 1 .. d` and, in a row, over
`p = 1 .. l`. -/
theorem Partner_loop_eq_foldl {σ : Type} (visit : σ → Nat → Nat → σ) (s : σ) (N : Nat) :
    oddEvenMergeSort_Partner_loop visit s N =
      ((List.range (bitScanReverse N)).map (fun t => t + 1)).foldl
        (fun s l => ((List.range l).map (fun t => t + 1)).foldl
          (fun s p => visit s l p) s) s := by
  unfold oddEvenMergeSort_Partner_loop
  simp only [cfor_eq_foldl, cforIter_count_le _ _ (le_refl _)]

theorem Partner_eq_loop {σ : Type} (cmp : σ → Nat → Nat → σ) (s : σ) (N : Nat) :
    oddEvenMergeSort_Partner cmp s N
      = oddEvenMergeSort_Partner_loop
          (fun s l p => oddEvenMergeSort_Partner_coord cmp s N l p) s N := rfl

theorem foldl_append_flatMap {α β : Type} (xs : List α) (g : α → List β) (log : List β) :
    xs.foldl (fun log x => log ++ g x) log = log ++ xs.flatMap g := by
  induction xs generalizing log with
  | nil => simp
  | cons x rest ih => simp [List.foldl_cons, ih, List.flatMap_cons]

/-- The coordinates in the order of the visits: row after row, `p` ascending in a row. -/
theorem coordinates_eq (N : Nat) :
    coordinates N =
      ((List.range (bitScanReverse N)).map (fun t => t + 1)).flatMap
        (fun l => ((List.range l).map (fun t => t + 1)).map (fun p => (l, p))) := by
  unfold coordinates
  rw [Partner_loop_eq_foldl]
  have h : ∀ (l : Nat) (log : List (Nat × Nat)),
      ((List.range l).map (fun t => t + 1)).foldl (fun s p => s ++ [(l, p)]) log
        = log ++ ((List.range l).map (fun t => t + 1)).map (fun p => (l, p)) := by
    intro l log
    rw [foldl_append_flatMap _ (fun p => [(l, p)])]
    congr 1
    induction (List.map (fun t => t + 1) (List.range l)) with
    | nil => rfl
    | cons x rest ih => simp [List.flatMap_cons, ih]
  simp only [h]
  rw [foldl_append_flatMap]
  simp

theorem foldl_flatMap_map {σ α β : Type} (xs : List α) (row : α → List β)
    (f : σ → α → β → σ) (s : σ) :
    (xs.flatMap (fun l => (row l).map (fun p => (l, p)))).foldl (fun s c => f s c.1 c.2) s
      = xs.foldl (fun s l => (row l).foldl (fun s p => f s l p) s) s := by
  induction xs generalizing s with
  | nil => rfl
  | cons x rest ih =>
    rw [List.flatMap_cons, List.foldl_append, List.foldl_cons, ← ih, List.foldl_map]

/-- The run of the loops is the run of the visits along the list of coordinates. -/
theorem Partner_loop_coordinates {σ : Type} (visit : σ → Nat → Nat → σ) (s : σ) (N : Nat) :
    oddEvenMergeSort_Partner_loop visit s N
      = (coordinates N).foldl (fun s c => visit s c.1 c.2) s := by
  rw [Partner_loop_eq_foldl, coordinates_eq, foldl_flatMap_map]

theorem mem_coordinates (N : Nat) (c : Nat × Nat) :
    c ∈ coordinates N ↔ 1 ≤ c.2 ∧ c.2 ≤ c.1 ∧ c.1 ≤ bitScanReverse N := by
  rw [coordinates_eq]
  simp only [List.mem_flatMap, List.mem_map, List.mem_range]
  constructor
  · rintro ⟨l, ⟨t, ht, rfl⟩, p, ⟨u, hu, rfl⟩, rfl⟩
    simp only
    omega
  · rintro ⟨h1, h2, h3⟩
    refine ⟨c.1, ⟨c.1 - 1, by omega, by omega⟩, c.2, ⟨c.2 - 1, by omega, by omega⟩, rfl⟩

theorem pairwise_succ_range (n : Nat) :
    ((List.range n).map (fun t => t + 1)).Pairwise (fun a b => a < b) := by
  rw [List.pairwise_map]
  exact (List.pairwise_lt_range n).imp (fun h => Nat.succ_lt_succ h)

theorem coordinates_pairwise (N : Nat) : (coordinates N).Pairwise coordLt := by
  rw [coordinates_eq, List.pairwise_flatMap]
  constructor
  · intro l _
    rw [List.pairwise_map]
    exact (pairwise_succ_range l).imp (fun h => Or.inr ⟨rfl, h⟩)
  · refine (pairwise_succ_range _).imp ?_
    intro a b hab x hx y hy
    simp only [List.mem_map] at hx hy
    obtain ⟨_, _, rfl⟩ := hx
    obtain ⟨_, _, rfl⟩ := hy
    exact Or.inl hab

theorem coordinates_length_two (d : Nat) :
    (((List.range d).map (fun t => t + 1)).flatMap
      (fun l => ((List.range l).map (fun t => t + 1)).map (fun p => (l, p)))).length * 2
      = d * (d + 1) := by
  induction d with
  | zero => rfl
  | succ d ih =>
    rw [List.range_succ, List.map_append, List.flatMap_append, List.length_append, Nat.add_mul,
      ih]
    simp only [List.map_cons, List.map_nil, List.flatMap_cons, List.flatMap_nil,
      List.append_nil, List.length_map, List.length_range]
    ring

theorem coordinates_length (N : Nat) :
    (coordinates N).length = bitScanReverse N * (bitScanReverse N + 1) / 2 := by
  rw [coordinates_eq]
  have h := coordinates_length_two (bitScanReverse N)
  omega

theorem coordinates_head (N : Nat) (h : 1 ≤ bitScanReverse N) :
    (coordinates N).head? = some (1, 1) := by
  rw [coordinates_eq]
  obtain ⟨k, hk⟩ : ∃ k, bitScanReverse N = k + 1 := ⟨bitScanReverse N - 1, by omega⟩
  rw [hk, List.range_succ_eq_map]
  rfl

/-- A coordinate runs the lane body on all the lanes `0 .. N - 1`, in ascending order. -/
theorem Partner_coord_eq_foldl {σ : Type} (cmp : σ → Nat → Nat → σ) (s : σ) (N l p : Nat) :
    oddEvenMergeSort_Partner_coord cmp s N l p = (List.range N).foldl (laneBody cmp l p) s := by
  unfold oddEvenMergeSort_Partner_coord
  rw [cfor_eq_foldl, cforIter_count 0 N N (by omega)]
  simp

/-- C15: for every length `N ≥ 1`, with `d` the index that `_BitScanReverse` finds, which is
the integer part of `log2 N`, `oddEvenMergeSort_Partner` is the run of its coordinates: the
list `coordinates N` of the visits is row `l = 1`, row `l = 2`, ..., row `l = d`, row `l`
being `(l, 1), ..., (l, l)`; it holds exactly the `(l, p)` with `1 ≤ p ≤ l ≤ d`, is strictly
increasing in the lexicographic order (so no coordinate is visited twice), starts at
`(1, 1)`, and has `d (d + 1) / 2` entries; every visit runs the lane body on the lanes
`0 .. N - 1`; and for `N = 1` there is no visit and the buffer is left as it was. -/
theorem C15_coordinate_sequence (N : Nat) (hN : 1 ≤ N) :
    (2 ^ bitScanReverse N ≤ N ∧ N < 2 ^ (bitScanReverse N + 1)) ∧
    (∀ (σ : Type) (cmp : σ → Nat → Nat → σ) (s : σ),
      oddEvenMergeSort_Partner cmp s N
        = (coordinates N).foldl (fun s c => oddEvenMergeSort_Partner_coord cmp s N c.1 c.2) s) ∧
    coordinates N =
      ((List.range (bitScanReverse N)).map (fun t => t + 1)).flatMap
        (fun l => ((List.range l).map (fun t => t + 1)).map (fun p => (l, p))) ∧
    (∀ c, c ∈ coordinates N ↔ 1 ≤ c.2 ∧ c.2 ≤ c.1 ∧ c.1 ≤ bitScanReverse N) ∧
    (coordinates N).Pairwise coordLt ∧
    (1 ≤ bitScanReverse N → (coordinates N).head? = some (1, 1)) ∧
    (coordinates N).length = bitScanReverse N * (bitScanReverse N + 1) / 2 ∧
    (∀ (σ : Type) (cmp : σ → Nat → Nat → σ) (s : σ) (l p : Nat),
      oddEvenMergeSort_Partner_coord cmp s N l p
        = (List.range N).foldl (laneBody cmp l p) s) ∧
    coordinates 1 = [] ∧
    (∀ a : Buf, oddEvenMergeSort_Partner step (some a) 1 = some a) := by
  refine ⟨bitScanReverse_spec N hN, ?_, coordinates_eq N, mem_coordinates N,
    coordinates_pairwise N, coordinates_head N, coordinates_length N, ?_, by decide, ?_⟩
  · intro σ cmp s
    rw [Partner_eq_loop, Partner_loop_coordinates]
  · intro σ cmp s l p
    exact Partner_coord_eq_foldl cmp s N l p
  · intro a
    rfl

/-- Witness of C15 at the length 6, not a power of two, for which `d = 2`. -/
theorem C15_coordinate_sequence_witness :
    1 ≤ 6 ∧
    ((2 ^ bitScanReverse 6 ≤ 6 ∧ 6 < 2 ^ (bitScanReverse 6 + 1)) ∧
    (∀ (σ : Type) (cmp : σ → Nat → Nat → σ) (s : σ),
      oddEvenMergeSort_Partner cmp s 6
        = (coordinates 6).foldl (fun s c => oddEvenMergeSort_Partner_coord cmp s 6 c.1 c.2) s) ∧
    coordinates 6 =
      ((List.range (bitScanReverse 6)).map (fun t => t + 1)).flatMap
        (fun l => ((List.range l).map (fun t => t + 1)).map (fun p => (l, p))) ∧
    (∀ c, c ∈ coordinates 6 ↔ 1 ≤ c.2 ∧ c.2 ≤ c.1 ∧ c.1 ≤ bitScanReverse 6) ∧
    (coordinates 6).Pairwise coordLt ∧
    (1 ≤ bitScanReverse 6 → (coordinates 6).head? = some (1, 1)) ∧
    (coordinates 6).length = bitScanReverse 6 * (bitScanReverse 6 + 1) / 2 ∧
    (∀ (σ : Type) (cmp : σ → Nat → Nat → σ) (s : σ) (l p : Nat),
      oddEvenMergeSort_Partner_coord cmp s 6 l p
        = (List.range 6).foldl (laneBody cmp l p) s) ∧
    coordinates 1 = [] ∧
    (∀ a : Buf, oddEvenMergeSort_Partner step (some a) 1 = some a)) :=
  ⟨by decide, C15_coordinate_sequence 6 (by decide)⟩

/-! ## The number of `compare` calls -/

theorem length_flatMap_const {α β : Type} (xs : List α) (f : α → List β) (c : Nat)
    (h : ∀ x ∈ xs, (f x).length = c) : (xs.flatMap f).length = xs.length * c := by
  induction xs with
  | nil => simp
  | cons x rest ih =>
    rw [List.flatMap_cons, List.length_append, h x (List.mem_cons_self _ _),
      ih (fun y hy => h y (List.mem_cons_of_mem _ hy)), List.length_cons]
    ring

theorem length_flatMap_congr {α β γ : Type} (xs : List α) (f : α → List β) (g : α → List γ)
    (h : ∀ x ∈ xs, (f x).length = (g x).length) :
    (xs.flatMap f).length = (xs.flatMap g).length := by
  induction xs with
  | nil => simp
  | cons x rest ih =>
    rw [List.flatMap_cons, List.flatMap_cons, List.length_append, List.length_append,
      h x (List.mem_cons_self _ _), ih (fun y hy => h y (List.mem_cons_of_mem _ hy))]

theorem length_flatMap_succ_range {β : Type} (n : Nat) (F : Nat → List β) :
    (((List.range n).map (fun t => t + 1)).flatMap F).length
      = ((List.range n).map (fun t => (F (t + 1)).length)).sum := by
  rw [List.length_flatMap, List.map_map]
  rfl

theorem sum_map_range_congr (n : Nat) (f g : Nat → Nat) (h : ∀ t, t < n → f t = g t) :
    ((List.range n).map f).sum = ((List.range n).map g).sum := by
  congr 1
  apply List.map_congr_left
  intro t ht
  exact h t (List.mem_range.1 ht)

theorem length_blockPass0 (k r : Nat) : (blockPass0 k r).length = r := by
  simp [blockPass0]

theorem length_blockPassR (k r c : Nat) : (blockPassR k r c).length = r * c := by
  unfold blockPassR
  rw [length_flatMap_const _ _ c (by intro x _; simp), List.length_range]

theorem length_blockPass (k l p : Nat) :
    (blockPass k l p).length
      = if p = 1 then 2 ^ (l - 1) else 2 ^ (l - p) * (2 ^ (p - 1) - 1) := by
  unfold blockPass
  split
  · exact length_blockPass0 _ _
  · exact length_blockPassR _ _ _

/-- Sum of the lengths of the passes `2 .. n + 1` of a block of width `2^(j+1)`. -/
theorem sum_later_passes (j n : Nat) (hn : n ≤ j) :
    ((List.range n).map (fun t => 2 ^ (j - 1 - t) * (2 ^ (t + 1) - 1))).sum + 2 ^ j
      = n * 2 ^ j + 2 ^ (j - n) := by
  induction n with
  | zero => simp
  | succ n ih =>
    rw [List.sum_range_succ]
    have ih' := ih (by omega)
    have e1 : 2 ^ (j - n) = 2 * 2 ^ (j - 1 - n) := by
      rw [show j - n = (j - 1 - n) + 1 by omega, pow_succ]; ring
    have e2 : 2 ^ j = 2 ^ (j - 1 - n) * 2 ^ (n + 1) := by
      rw [← pow_add]; congr 1; omega
    have e3 : 2 ^ (j - 1 - n) * (2 ^ (n + 1) - 1) = 2 ^ j - 2 ^ (j - 1 - n) := by
      rw [Nat.mul_sub, Nat.mul_one, ← e2]
    have e4 : 2 ^ (j - 1 - n) ≤ 2 ^ j := Nat.pow_le_pow_right (by decide) (by omega)
    have e5 : j - (n + 1) = j - 1 - n := by omega
    rw [e3, e5, Nat.succ_mul]
    rw [e1] at ih'
    generalize 2 ^ (j - 1 - n) = q at *
    generalize 2 ^ j = J at *
    generalize n * J = nJ at *
    generalize (List.map (fun t => 2 ^ (j - 1 - t) * (2 ^ (t + 1) - 1)) (List.range n)).sum
      = S at *
    omega

theorem length_blockMerge (k j : Nat) : (blockMerge k (j + 1)).length = j * 2 ^ j + 1 := by
  unfold blockMerge
  rw [length_flatMap_succ_range, List.range_succ_eq_map, List.map_cons, List.sum_cons,
    List.map_map]
  have h1 : (blockPass k (j + 1) (0 + 1)).length = 2 ^ j := by
    rw [length_blockPass]; simp
  rw [h1]
  have h2 : ((List.range j).map ((fun t => (blockPass k (j + 1) (t + 1)).length) ∘ Nat.succ)).sum
      = ((List.range j).map (fun t => 2 ^ (j - 1 - t) * (2 ^ (t + 1) - 1))).sum := by
    apply sum_map_range_congr
    intro t _
    simp only [Function.comp, Nat.succ_eq_add_one]
    rw [length_blockPass, if_neg (by omega)]
    congr 2
    omega
  rw [h2]
  have := sum_later_passes j j (le_refl j)
  simp only [Nat.sub_self, pow_zero] at this
  omega

theorem length_passList (d l p : Nat) :
    (passList d l p).length = 2 ^ (d - l) * (blockPass 0 l p).length := by
  unfold passList blockStarts
  rw [length_flatMap_const _ _ (blockPass 0 l p).length
    (by intro x _; rw [length_blockPass, length_blockPass])]
  simp

theorem length_stageList (d l : Nat) :
    (stageList d l).length = 2 ^ (d - l) * (blockMerge 0 l).length := by
  unfold stageList blockMerge
  rw [length_flatMap_succ_range, length_flatMap_succ_range, ← List.sum_map_mul_left]
  congr 1
  apply List.map_congr_left
  intro t _
  exact length_passList d l (t + 1)

theorem length_mergeStageList (d l : Nat) :
    (mergeStageList d l).length = 2 ^ (d - l) * (blockMerge 0 l).length := by
  unfold mergeStageList blockStarts
  rw [length_flatMap_const _ _ (blockMerge 0 l).length]
  · simp
  · intro x _
    unfold blockMerge
    apply length_flatMap_congr
    intro p _
    rw [length_blockPass, length_blockPass]

theorem length_r1List (lo r j : Nat) : (r1List lo r (j + 1)).length = j * 2 ^ j + 1 := by
  induction j generalizing lo r with
  | zero => simp [r1List]
  | succ j ih =>
    rw [r1List, if_neg (by omega), List.length_append, List.length_append, ih, ih,
      List.length_map, List.length_range]
    have h1 : 1 ≤ 2 ^ (j + 1) := Nat.one_le_two_pow
    rw [Nat.succ_mul]
    have e : 2 ^ (j + 1) = 2 * 2 ^ j := by rw [pow_succ]; ring
    have e2 : j * 2 ^ (j + 1) = 2 * (j * 2 ^ j) := by rw [e]; ring
    rw [e2]
    generalize j * 2 ^ j = x at *
    omega

theorem length_mergeStageList_r1 (d j : Nat) :
    (mergeStageList_r1 d (j + 1)).length = 2 ^ (d - (j + 1)) * (j * 2 ^ j + 1) := by
  unfold mergeStageList_r1 blockStarts
  rw [length_flatMap_const _ _ (j * 2 ^ j + 1) (by intro x _; exact length_r1List _ _ _)]
  simp

theorem sum_range_id_two (d : Nat) : ((List.range d).map (fun t => t)).sum * 2 = d * (d - 1) := by
  induction d with
  | zero => rfl
  | succ d ih =>
    rw [List.sum_range_succ, Nat.add_mul, ih]
    cases d with
    | zero => rfl
    | succ e => simp only [Nat.add_sub_cancel]; ring

theorem sum_pow_down (d n : Nat) (hn : n ≤ d) :
    ((List.range n).map (fun t => 2 ^ (d - 1 - t))).sum + 2 ^ (d - n) = 2 ^ d := by
  induction n with
  | zero => simp
  | succ n ih =>
    rw [List.sum_range_succ]
    have ih' := ih (by omega)
    have e1 : 2 ^ (d - n) = 2 * 2 ^ (d - 1 - n) := by
      rw [show d - n = (d - 1 - n) + 1 by omega, pow_succ]; ring
    have e5 : d - (n + 1) = d - 1 - n := by omega
    rw [e5]
    rw [e1] at ih'
    omega

/-- A driver whose stage `l` makes `2^(d-l) ((l - 1) 2^(l-1) + 1)` calls makes
`comparatorCount d` calls in all. -/
theorem total_count (d : Nat) (SL : Nat → List Comparator)
    (h : ∀ t, t < d → (SL (t + 1)).length = 2 ^ (d - (t + 1)) * (t * 2 ^ t + 1)) :
    (((List.range d).map (fun t => t + 1)).flatMap SL).length = comparatorCount d := by
  rw [length_flatMap_succ_range]
  have h1 : ((List.range d).map (fun t => (SL (t + 1)).length)).sum
      = ((List.range d).map (fun t => 2 ^ (d - 1) * t + 2 ^ (d - 1 - t))).sum := by
    apply sum_map_range_congr
    intro t ht
    rw [h t ht, Nat.mul_add, Nat.mul_one]
    have e : 2 ^ (d - 1) = 2 ^ (d - (t + 1)) * 2 ^ t := by
      rw [← pow_add]; congr 1; omega
    have e2 : d - (t + 1) = d - 1 - t := by omega
    rw [e, e2]
    ring
  rw [h1, List.sum_map_add, List.sum_map_mul_left]
  have hG := sum_range_id_two d
  have hH := sum_pow_down d d (le_refl d)
  simp only [Nat.sub_self, pow_zero] at hH
  unfold comparatorCount
  have hG' : ((List.range d).map (fun t => t)).sum = d * (d - 1) / 2 := by omega
  rw [hG', Nat.mul_comm (2 ^ (d - 1))]
  omega

theorem comparatorCount_le (d : Nat) (hd : 1 ≤ d) : comparatorCount d ≤ 2 ^ d * d ^ 2 := by
  by_cases hd1 : d = 1
  · subst hd1; decide
  unfold comparatorCount
  have hG : d * (d - 1) / 2 ≤ d * d := by
    have : d * (d - 1) ≤ d * d := Nat.mul_le_mul_left d (Nat.sub_le d 1)
    exact le_trans (Nat.div_le_self _ _) this
  have e : 2 ^ d = 2 * 2 ^ (d - 1) := by
    obtain ⟨k, rfl⟩ : ∃ k, d = k + 1 := ⟨d - 1, by omega⟩
    rw [pow_succ]
    simp only [Nat.add_sub_cancel]; ring
  have h1 : d * (d - 1) / 2 * 2 ^ (d - 1) ≤ d * d * 2 ^ (d - 1) := Nat.mul_le_mul_right _ hG
  have h2 : 2 * 2 ^ (d - 1) ≤ d * d * 2 ^ (d - 1) :=
    Nat.mul_le_mul_right _ (Nat.mul_le_mul (by omega : 2 ≤ d) hd)
  have h3 : 2 ^ d * d ^ 2 = 2 * (d * d * 2 ^ (d - 1)) := by rw [e]; ring
  rw [h3, e]
  have h4 : d * (d - 1) / 2 * 2 ^ (d - 1) + 2 * 2 ^ (d - 1)
      ≤ 2 * (d * d * 2 ^ (d - 1)) := by
    rw [Nat.two_mul (d * d * 2 ^ (d - 1))]
    exact Nat.add_le_add h1 h2
  exact le_trans (Nat.sub_le _ _) h4

theorem length_Partner_coord (d l p : Nat) (hp1 : 1 ≤ p) (hpl : p ≤ l) (hld : l ≤ d) :
    (oddEvenMergeSort_Partner_coord record [] (2 ^ d) l p).length = (passList d l p).length := by
  apply List.Perm.length_eq
  rw [List.perm_ext_iff_of_nodup (nodup_Partner_coord _ _ _) (nodup_passList d l p hp1 hpl)]
  intro c
  rw [mem_Partner_coord_iff _ _ _ hp1, mem_passList d l p hp1 hpl hld]

theorem length_stage (d t : Nat) :
    (stageList d (t + 1)).length = 2 ^ (d - (t + 1)) * (t * 2 ^ t + 1) := by
  rw [length_stageList, length_blockMerge]

theorem length_mergeStage (d t : Nat) :
    (mergeStageList d (t + 1)).length = 2 ^ (d - (t + 1)) * (t * 2 ^ t + 1) := by
  rw [length_mergeStageList, length_blockMerge]

theorem length_Partner_stage (d t : Nat) (ht : t < d) :
    (((List.range (t + 1)).map (fun u => u + 1)).flatMap (fun p =>
      oddEvenMergeSort_Partner_coord record [] (2 ^ d) (t + 1) p)).length
      = 2 ^ (d - (t + 1)) * (t * 2 ^ t + 1) := by
  rw [← length_stage]
  unfold stageList
  apply length_flatMap_congr
  intro p hp
  simp only [List.mem_map, List.mem_range] at hp
  obtain ⟨u, hu, rfl⟩ := hp
  exact length_Partner_coord d (t + 1) (u + 1) (by omega) (by omega) (by omega)

/-- C16: on the length `N = 2^d` every form of the sort makes `comparatorCount d`
`= (d (d - 1) / 2) * 2^(d-1) + 2^d - 1` calls of `compare`: `oddEvenMergeSort_Merge` (on
`oddEvenMerge_r3`, and on `oddEvenMerge_r1` or `oddEvenMerge_r2`), the two
`oddEvenMergeSort_NCPasses_*`, and `oddEvenMergeSort_Partner`, whose calls are its lane
evaluations with `partner > n`; the count is 1, 5, 19, 63 for `N = 2, 4, 8, 16`, and it is
at most `N d^2` for `d ≥ 1`. -/
theorem C16_comparator_count (d : Nat) :
    (oddEvenMergeSort_Merge record [] (2 ^ d)).length = comparatorCount d ∧
    (oddEvenMergeSort_Merge_with (oddEvenMerge_r1 record) [] (2 ^ d)).length
      = comparatorCount d ∧
    (oddEvenMergeSort_Merge_with (oddEvenMerge_r2 record) [] (2 ^ d)).length
      = comparatorCount d ∧
    (oddEvenMergeSort_NCPasses_Branchless record [] (2 ^ d)).length = comparatorCount d ∧
    (oddEvenMergeSort_NCPasses_Branched record [] (2 ^ d)).length = comparatorCount d ∧
    (oddEvenMergeSort_Partner record [] (2 ^ d)).length = comparatorCount d ∧
    comparatorCount d = d * (d - 1) / 2 * 2 ^ (d - 1) + 2 ^ d - 1 ∧
    (comparatorCount 1 = 1 ∧ comparatorCount 2 = 5 ∧ comparatorCount 3 = 19
      ∧ comparatorCount 4 = 63) ∧
    (1 ≤ d → comparatorCount d ≤ 2 ^ d * d ^ 2) := by
  refine ⟨?_, ?_, ?_, ?_, ?_, ?_, rfl, by decide, comparatorCount_le d⟩
  · rw [Merge_record]
    exact total_count d _ (fun t _ => length_mergeStage d t)
  · rw [Merge_r1_record]
    exact total_count d _ (fun t _ => length_mergeStageList_r1 d t)
  · rw [Merge_r2_record]
    exact total_count d _ (fun t _ => length_mergeStage d t)
  · rw [Branchless_record]
    exact total_count d _ (fun t _ => length_stage d t)
  · rw [Branched_record]
    exact total_count d _ (fun t _ => length_stage d t)
  · rw [Partner_record, bitScanReverse_two_pow]
    exact total_count d _ (fun t ht => length_Partner_stage d t ht)

/-! ## The zero-one principle on buffers -/

/-- Two buffers seen as functions that agree below `N` still agree below `N` after a
sequence of calls with indices below `N`. -/
theorem runNet_cmpF_congr {α : Type} [LinearOrder α] (N : Nat) (net : List Comparator)
    (hnet : ∀ c ∈ net, c.1 < N ∧ c.2 < N) (f f' : Nat → α) (h : ∀ x, x < N → f x = f' x) :
    ∀ x, x < N → runNet cmpF net f x = runNet cmpF net f' x := by
  induction net generalizing f f' with
  | nil => simpa [runNet] using h
  | cons c rest ih =>
    rw [runNet_cons, runNet_cons]
    apply ih (fun c' hc' => hnet c' (List.mem_cons_of_mem _ hc'))
    intro x hx
    obtain ⟨h1, h2⟩ := hnet c (List.mem_cons_self _ _)
    unfold cmpF
    rw [h c.1 h1, h c.2 h2]
    split
    · simp only
      rw [h x hx]
    · exact h x hx

/-- A sequence of calls leaves alone every lane that none of its comparators names. -/
theorem runNet_cmpF_frame {α : Type} [LinearOrder α] (net : List Comparator) (f : Nat → α)
    (x : Nat) (h : ∀ c ∈ net, c.1 ≠ x ∧ c.2 ≠ x) : runNet cmpF net f x = f x := by
  induction net generalizing f with
  | nil => rfl
  | cons c rest ih =>
    rw [runNet_cons, ih _ (fun c' hc' => h c' (List.mem_cons_of_mem _ hc'))]
    obtain ⟨h1, h2⟩ := h c (List.mem_cons_self _ _)
    unfold cmpF
    split
    · simp only
      rw [if_neg (Ne.symm h1), if_neg (Ne.symm h2)]
    · rfl

theorem view_map (a : Buf) (g : Int → Int) (i : Nat) (hi : i < a.length) :
    view (a.map g) i = g (view a i) := by
  unfold view
  rw [List.getD_eq_getElem _ _ (by simpa using hi), List.getD_eq_getElem _ _ hi]
  simp

theorem view_mono_of_sorted (b : Buf) (hs : isNonDecreasing b) (i j : Nat) (hij : i ≤ j)
    (hj : j < b.length) : view b i ≤ view b j := by
  rw [view_eq_getElem b i (by omega), view_eq_getElem b j hj]
  exact sorted_le_of_lt b hs i j hij (by omega) hj

/-- Zero-one principle on buffers: a sequence of calls with indices below `N` that sorts
every buffer of zeros and ones of length `N` sorts every buffer of length `N`. -/
theorem zero_one_buffers (N : Nat) (net : List Comparator)
    (hnet : ∀ c ∈ net, c.1 < N ∧ c.2 < N)
    (h01 : SortsZeroOne (fun a => runNet step net (some a)) N) :
    SortsAll (fun a => runNet step net (some a)) N := by
  intro a ha
  obtain ⟨b, hb, hlen, hview⟩ := runNet_step_view net a (by rw [ha]; exact hnet)
  refine ⟨b, hb, ?_⟩
  apply isNonDecreasing_of_view
  intro i j hij hj
  by_contra hlt
  have hlt' : view b j < view b i := not_le.1 hlt
  have hjN : j < N := by omega
  -- threshold at the value of lane `i`
  let g : Int → Int := fun x => if view b i ≤ x then 1 else 0
  have hg : Monotone g := by
    intro x y hxy
    show (if view b i ≤ x then (1 : Int) else 0) ≤ (if view b i ≤ y then (1 : Int) else 0)
    by_cases hx : view b i ≤ x
    · rw [if_pos hx, if_pos (le_trans hx hxy)]
    · rw [if_neg hx]
      split <;> decide
  have h01a : isZeroOne (a.map g) := by
    intro x hx
    obtain ⟨y, _, rfl⟩ := List.mem_map.1 hx
    show (if view b i ≤ y then (1 : Int) else 0) = 0 ∨ (if view b i ≤ y then (1 : Int) else 0) = 1
    split
    · exact Or.inr rfl
    · exact Or.inl rfl
  obtain ⟨b', hb', hs'⟩ := h01 (a.map g) (by simpa using ha) h01a
  obtain ⟨b'', hb'', hlen'', hview''⟩ := runNet_step_view net (a.map g)
    (by simpa [ha] using hnet)
  have hbb : b'' = b' := by
    have : some b'' = some b' := by rw [← hb'', ← hb']
    exact Option.some.inj this
  subst hbb
  have hl' : b''.length = N := by rw [hlen'']; simpa using ha
  have key : ∀ x, x < N → view b'' x = g (view b x) := by
    intro x hx
    rw [hview'', hview]
    have h1 := runNet_cmpF_congr N net hnet (view (a.map g)) (fun y => g (view a y))
      (fun y hy => view_map a g y (by omega)) x hx
    rw [h1, runNet_cmpF_map g hg net (view a)]
  have hmono := view_mono_of_sorted b'' hs' i j hij (by omega)
  rw [key i (by omega), key j hjN] at hmono
  have e1 : g (view b i) = 1 := by
    show (if view b i ≤ view b i then (1 : Int) else 0) = 1
    rw [if_pos (le_refl _)]
  have e2 : g (view b j) = 0 := by
    show (if view b i ≤ view b j then (1 : Int) else 0) = 0
    rw [if_neg (not_le.2 hlt')]
  rw [e1, e2] at hmono
  exact absurd hmono (by decide)

theorem sortsAll_iff_zeroOne (N : Nat) (net : List Comparator)
    (hnet : ∀ c ∈ net, c.1 < N ∧ c.2 < N) :
    SortsAll (fun a => runNet step net (some a)) N
      ↔ SortsZeroOne (fun a => runNet step net (some a)) N :=
  ⟨fun h a ha _ => h a ha, zero_one_buffers N net hnet⟩

/-- The zero-one principle for a driver whose calls have their indices below `N`. -/
theorem driver_zero_one (P : (σ : Type) → (σ → Nat → Nat → σ) → σ → σ) (hP : Traceable P)
    (N : Nat) (hrange : ∀ c ∈ P _ record [], c.1 < c.2 ∧ c.2 < N) :
    SortsAll (fun a => P _ step (some a)) N ↔ SortsZeroOne (fun a => P _ step (some a)) N := by
  have e : (fun a : Buf => P _ step (some a))
      = (fun a => runNet step (P _ record []) (some a)) := by
    funext a
    exact hP.eq_runNet step (some a)
  rw [e]
  exact sortsAll_iff_zeroOne N _ (fun c hc => ⟨by have := hrange c hc; omega, (hrange c hc).2⟩)

/-- C17: for `N = 2^d`, the sequence of `compare` calls of `oddEvenMergeSort_Partner` sorts
every buffer of length `N` if and only if it sorts every buffer of length `N` with entries
in `{0, 1}`; the same holds of `oddEvenMergeSort_NCPasses_Branchless`,
`oddEvenMergeSort_NCPasses_Branched` and `oddEvenMergeSort_Merge`, and of every sequence of
`compare` calls whose indices lie below the length. -/
theorem C17_zero_one_principle (d : Nat) :
    (SortsAll (fun a => oddEvenMergeSort_Partner step (some a) (2 ^ d)) (2 ^ d)
      ↔ SortsZeroOne (fun a => oddEvenMergeSort_Partner step (some a) (2 ^ d)) (2 ^ d)) ∧
    (SortsAll (fun a => oddEvenMergeSort_NCPasses_Branchless step (some a) (2 ^ d)) (2 ^ d)
      ↔ SortsZeroOne
          (fun a => oddEvenMergeSort_NCPasses_Branchless step (some a) (2 ^ d)) (2 ^ d)) ∧
    (SortsAll (fun a => oddEvenMergeSort_NCPasses_Branched step (some a) (2 ^ d)) (2 ^ d)
      ↔ SortsZeroOne
          (fun a => oddEvenMergeSort_NCPasses_Branched step (some a) (2 ^ d)) (2 ^ d)) ∧
    (SortsAll (fun a => oddEvenMergeSort_Merge step (some a) (2 ^ d)) (2 ^ d)
      ↔ SortsZeroOne (fun a => oddEvenMergeSort_Merge step (some a) (2 ^ d)) (2 ^ d)) ∧
    (∀ (N : Nat) (net : List Comparator), (∀ c ∈ net, c.1 < N ∧ c.2 < N) →
      (SortsAll (fun a => runNet step net (some a)) N
        ↔ SortsZeroOne (fun a => runNet step net (some a)) N)) :=
  ⟨driver_zero_one _ (traceable_Partner (2 ^ d)) (2 ^ d) (Partner_calls_in_range d),
    driver_zero_one _ (traceable_Branchless (2 ^ d)) (2 ^ d) (Branchless_in_range d),
    driver_zero_one _ (traceable_Branched (2 ^ d)) (2 ^ d) (Branched_in_range d),
    driver_zero_one _ (traceable_Merge (2 ^ d)) (2 ^ d) (Merge_in_range d),
    sortsAll_iff_zeroOne⟩

/-! ## The block-ordered drivers sort -/

/-- Stage of a block-ordered driver on a buffer seen as a function: when the blocks of width
`2^(l-1)` are sorted, merging the blocks of width `2^l` one after the other, each by a
sequence of calls `G k` that stays inside its block `k .. k + 2^l - 1` and merges its two
sorted halves, leaves the blocks of width `2^l` sorted. -/
theorem blocks_stage_sorts (l : Nat) (hl : 1 ≤ l) (G : Nat → List Comparator)
    (hin : ∀ k, ∀ c ∈ G k, (k ≤ c.1 ∧ c.1 < k + 2 ^ l) ∧ (k ≤ c.2 ∧ c.2 < k + 2 ^ l))
    (hG : ∀ (k : Nat) (f : Nat → Int),
      (∀ u u', u ≤ u' → u' < 2 ^ (l - 1) → f (k + u) ≤ f (k + u')) →
      (∀ u u', u ≤ u' → u' < 2 ^ (l - 1) →
        f (k + (2 ^ (l - 1) + u)) ≤ f (k + (2 ^ (l - 1) + u'))) →
      ∀ u u', u ≤ u' → u' < 2 ^ l → runNet cmpF (G k) f (k + u) ≤ runNet cmpF (G k) f (k + u'))
    (n : Nat) (f : Nat → Int)
    (hf : ∀ B, B < 2 * n → ∀ u u', u ≤ u' → u' < 2 ^ (l - 1) →
      f (B * 2 ^ (l - 1) + u) ≤ f (B * 2 ^ (l - 1) + u')) :
    (∀ B, B < n → ∀ u u', u ≤ u' → u' < 2 ^ l →
      runNet cmpF (((List.range n).map (fun B => B * 2 ^ l)).flatMap G) f (B * 2 ^ l + u)
        ≤ runNet cmpF (((List.range n).map (fun B => B * 2 ^ l)).flatMap G) f (B * 2 ^ l + u')) ∧
    (∀ x, n * 2 ^ l ≤ x →
      runNet cmpF (((List.range n).map (fun B => B * 2 ^ l)).flatMap G) f x = f x) := by
  have hw : 2 ^ l = 2 * 2 ^ (l - 1) := two_pow_eq_double l hl
  induction n with
  | zero =>
    refine ⟨fun B hB => by omega, fun x _ => rfl⟩
  | succ n ih =>
    obtain ⟨ih1, ih2⟩ := ih (fun B hB => hf B (by omega))
    rw [List.range_succ, List.map_append, List.flatMap_append, runNet_append]
    simp only [List.map_cons, List.map_nil, List.flatMap_cons, List.flatMap_nil,
      List.append_nil]
    generalize hF : runNet cmpF (((List.range n).map (fun B => B * 2 ^ l)).flatMap G) f = F
      at ih1 ih2 ⊢
    constructor
    · intro B hB u u' huu hu'
      by_cases hBn : B < n
      · -- an earlier block: the merge of block `n` does not reach it
        have hfr : ∀ v, v < 2 ^ l →
            runNet cmpF (G (n * 2 ^ l)) F (B * 2 ^ l + v) = F (B * 2 ^ l + v) := by
          intro v hv
          apply runNet_cmpF_frame
          intro c hc
          obtain ⟨⟨h1, _⟩, ⟨h2, _⟩⟩ := hin (n * 2 ^ l) c hc
          have : (B + 1) * 2 ^ l ≤ n * 2 ^ l := Nat.mul_le_mul_right _ (by omega)
          rw [Nat.add_mul, Nat.one_mul] at this
          constructor <;> omega
        rw [hfr u (by omega), hfr u' hu']
        exact ih1 B hBn u u' huu hu'
      · have hBe : B = n := by omega
        subst hBe
        apply hG (B * 2 ^ l) F
        · intro v v' hvv hv'
          rw [ih2 _ (by omega), ih2 _ (by omega)]
          have := hf (2 * B) (by omega) v v' hvv hv'
          have e : 2 * B * 2 ^ (l - 1) = B * 2 ^ l := by rw [hw]; ring
          rw [e] at this
          exact this
        · intro v v' hvv hv'
          rw [ih2 _ (by omega), ih2 _ (by omega)]
          have := hf (2 * B + 1) (by omega) v v' hvv hv'
          have e : (2 * B + 1) * 2 ^ (l - 1) = B * 2 ^ l + 2 ^ (l - 1) := by rw [hw]; ring
          rw [e, Nat.add_assoc, Nat.add_assoc] at this
          exact this
        · exact huu
        · exact hu'
    · intro x hx
      rw [Nat.add_mul, Nat.one_mul] at hx
      rw [runNet_cmpF_frame (G (n * 2 ^ l)) F x, ih2 x (by omega)]
      intro c hc
      obtain ⟨⟨_, h1⟩, ⟨_, h2⟩⟩ := hin (n * 2 ^ l) c hc
      constructor <;> omega

/-- A block-ordered driver sorts: stage after stage `l = 1 .. m`, each stage merging the
blocks of width `2^l` one after the other by the calls `U l` moved to the block, leaves the
blocks of width `2^m` sorted, when `U l` stays below `2^l` and merges the two sorted halves
of a block of zeros and ones. -/
theorem blocks_driver_sorts (d : Nat) (U : Nat → List Comparator)
    (hUr : ∀ l, 1 ≤ l → ∀ c ∈ U l, c.1 < 2 ^ l ∧ c.2 < 2 ^ l)
    (hU : ∀ l, 1 ≤ l → ∀ (z : Nat → Nat) (g : Nat → Bool), BlocksSorted l (l - 1) z g →
      BlocksSorted l l (fun B => z (2 * B) + z (2 * B + 1)) (runNet cmpF (U l) g))
    (f : Nat → Int) (m : Nat) (hm : m ≤ d) :
    ∀ B, B < 2 ^ (d - m) → ∀ u u', u ≤ u' → u' < 2 ^ m →
      runNet cmpF (((List.range m).map (fun t => t + 1)).flatMap (fun l =>
        (blockStarts d l).flatMap (fun k => (U l).map (fun c => (k + 1 * c.1, k + 1 * c.2))))) f
          (B * 2 ^ m + u)
      ≤ runNet cmpF (((List.range m).map (fun t => t + 1)).flatMap (fun l =>
        (blockStarts d l).flatMap (fun k => (U l).map (fun c => (k + 1 * c.1, k + 1 * c.2))))) f
          (B * 2 ^ m + u') := by
  induction m with
  | zero =>
    intro B _ u u' huu hu'
    have h1 : u' = 0 := by simpa using hu'
    have h2 : u = 0 := by omega
    rw [h1, h2]
  | succ m ih =>
    intro B hB u u' huu hu'
    rw [List.range_succ, List.map_append, List.flatMap_append, runNet_append]
    simp only [List.map_cons, List.map_nil, List.flatMap_cons, List.flatMap_nil,
      List.append_nil]
    have e2 : 2 * 2 ^ (d - (m + 1)) = 2 ^ (d - m) := by
      rw [show d - m = (d - (m + 1)) + 1 by omega, pow_succ]; ring
    have hst := blocks_stage_sorts (m + 1) (by omega)
      (fun k => (U (m + 1)).map (fun c => (k + 1 * c.1, k + 1 * c.2)))
      (by
        intro k c hc
        obtain ⟨c', hc', rfl⟩ := List.mem_map.1 hc
        obtain ⟨h1, h2⟩ := hUr (m + 1) (by omega) c' hc'
        simp only
        omega)
      (by
        intro k g h0 h1 v v' hvv hv'
        have := merge_lift (m + 1) (by omega) (U (m + 1)) (hU (m + 1) (by omega)) k 1
          (le_refl 1) g (by simpa using h0) (by simpa using h1) v v' hvv hv'
        simpa using this)
      (2 ^ (d - (m + 1)))
      (runNet cmpF (((List.range m).map (fun t => t + 1)).flatMap (fun l =>
        (blockStarts d l).flatMap
          (fun k => (U l).map (fun c => (k + 1 * c.1, k + 1 * c.2))))) f)
      (by
        intro B' hB' v v' hvv hv'
        simp only [Nat.add_sub_cancel] at hv' ⊢
        exact ih (by omega) B' (by omega) v v' hvv hv')
    exact hst.1 B hB u u' huu hu'

theorem blocks_driver_sorted (d : Nat) (U : Nat → List Comparator)
    (hUr : ∀ l, 1 ≤ l → ∀ c ∈ U l, c.1 < 2 ^ l ∧ c.2 < 2 ^ l)
    (hU : ∀ l, 1 ≤ l → ∀ (z : Nat → Nat) (g : Nat → Bool), BlocksSorted l (l - 1) z g →
      BlocksSorted l l (fun B => z (2 * B) + z (2 * B + 1)) (runNet cmpF (U l) g))
    (f : Nat → Int) (i j : Nat) (hij : i ≤ j) (hj : j < 2 ^ d) :
    runNet cmpF (((List.range d).map (fun t => t + 1)).flatMap (fun l =>
        (blockStarts d l).flatMap (fun k => (U l).map (fun c => (k + 1 * c.1, k + 1 * c.2))))) f i
      ≤ runNet cmpF (((List.range d).map (fun t => t + 1)).flatMap (fun l =>
        (blockStarts d l).flatMap (fun k => (U l).map (fun c => (k + 1 * c.1, k + 1 * c.2))))) f
          j := by
  have := blocks_driver_sorts d U hUr hU f d (le_refl d) 0 (by simp) i j hij hj
  simpa using this

theorem blockMerge_unit_range (l : Nat) (c : Comparator) (hc : c ∈ blockMerge 0 l) :
    c.1 < 2 ^ l ∧ c.2 < 2 ^ l := by
  obtain ⟨p, hp1, hpl, c', hc', rfl⟩ := (mem_blockMerge 0 l c).1 hc
  obtain ⟨h1, h2⟩ := isComp_range l l p hp1 hpl (le_refl l) c' hc'
  simp only [shiftC]
  omega

theorem r1List_unit_range (l : Nat) (hl : 1 ≤ l) (c : Comparator) (hc : c ∈ r1List 0 1 l) :
    c.1 < 2 ^ l ∧ c.2 < 2 ^ l := by
  obtain ⟨p, hp1, hpl, hc'⟩ := (mem_r1List_unit l hl c).1 hc
  obtain ⟨h1, h2⟩ := isComp_range l l p hp1 hpl (le_refl l) c hc'
  omega

/-- The calls of `oddEvenMergeSort_Merge` (on `oddEvenMerge_r2` or `oddEvenMerge_r3`) sort a
buffer of length `2^d` seen as a function. -/
theorem mergeStages_sorted (d : Nat) (f : Nat → Int) (i j : Nat) (hij : i ≤ j)
    (hj : j < 2 ^ d) :
    runNet cmpF (((List.range d).map (fun t => t + 1)).flatMap (fun l => mergeStageList d l)) f i
      ≤ runNet cmpF
        (((List.range d).map (fun t => t + 1)).flatMap (fun l => mergeStageList d l)) f j := by
  have e : (fun l => mergeStageList d l) = (fun l =>
      (blockStarts d l).flatMap
        (fun k => (blockMerge 0 l).map (fun c => (k + 1 * c.1, k + 1 * c.2)))) := by
    funext l
    unfold mergeStageList
    congr 1
    funext k
    exact blockMerge_shift k l
  rw [e]
  exact blocks_driver_sorted d (fun l => blockMerge 0 l) (fun l _ => blockMerge_unit_range l)
    (fun l hl => blockMerge_unit_merges l hl) f i j hij hj

/-- The calls of `oddEvenMergeSort_Merge` on `oddEvenMerge_r1` sort a buffer of length `2^d`
seen as a function. -/
theorem mergeStages_r1_sorted (d : Nat) (f : Nat → Int) (i j : Nat) (hij : i ≤ j)
    (hj : j < 2 ^ d) :
    runNet cmpF
        (((List.range d).map (fun t => t + 1)).flatMap (fun l => mergeStageList_r1 d l)) f i
      ≤ runNet cmpF
        (((List.range d).map (fun t => t + 1)).flatMap (fun l => mergeStageList_r1 d l)) f j := by
  have e : (fun l => mergeStageList_r1 d l) = (fun l =>
      (blockStarts d l).flatMap
        (fun k => (r1List 0 1 l).map (fun c => (k + 1 * c.1, k + 1 * c.2)))) := by
    funext l
    unfold mergeStageList_r1
    congr 1
    funext k
    exact r1List_map l k 1
  rw [e]
  exact blocks_driver_sorted d (fun l => r1List 0 1 l) (fun l hl => r1List_unit_range l hl)
    (fun l hl => r1_unit_merges l hl) f i j hij hj

theorem sorted_of_isNonDecreasing (b : Buf) (hs : isNonDecreasing b) :
    List.Sorted (fun x y : Int => x ≤ y) b := by
  unfold List.Sorted
  rw [List.pairwise_iff_getElem]
  intro i j hi hj hij
  exact sorted_le_of_lt b hs i j (by omega) hi hj

/-- Two non-decreasing buffers with the same entries are the same buffer. -/
theorem sorted_perm_unique (b b' : Buf) (hp : b.Perm b') (hs : isNonDecreasing b)
    (hs' : isNonDecreasing b') : b = b' :=
  List.eq_of_perm_of_sorted hp (sorted_of_isNonDecreasing b hs) (sorted_of_isNonDecreasing b' hs')

/-- A driver whose calls stay below the length and sort a buffer seen as a function leaves a
buffer of length `N` sorted and a permutation of the input. -/
theorem driver_sorts (P : (σ : Type) → (σ → Nat → Nat → σ) → σ → σ) (hP : Traceable P)
    (N : Nat) (hrange : ∀ c ∈ P _ record [], c.1 < c.2 ∧ c.2 < N)
    (hsort : ∀ (f : Nat → Int) (i j : Nat), i ≤ j → j < N →
      runNet cmpF (P _ record []) f i ≤ runNet cmpF (P _ record []) f j)
    (a : Buf) (ha : a.length = N) :
    ∃ b, P _ step (some a) = some b ∧ b.Perm a ∧ isNonDecreasing b := by
  obtain ⟨b, hb, hlen, hview, hperm, _⟩ := driver_run P hP N hrange a ha
  refine ⟨b, hb, hperm, ?_⟩
  apply isNonDecreasing_of_view
  intro i j hij hj
  rw [hview, hP.eq_runNet cmpF (view a)]
  exact hsort (view a) i j hij (by omega)

/-! ## All the drivers leave the same buffer -/

/-- The calls of a pass of the pass-scheduled drivers do on every buffer what the lanes of
the coordinate do in `oddEvenMergeSort_Partner`. -/
theorem passList_step_eq (d l p : Nat) (hp1 : 1 ≤ p) (hpl : p ≤ l) (hld : l ≤ d)
    (s : Option Buf) :
    runNet step (passList d l p) s = oddEvenMergeSort_Partner_coord step s (2 ^ d) l p := by
  rw [(traceable_Partner_coord (2 ^ d) l p).eq_runNet step s]
  cases s with
  | none => rw [runNet_step_none, runNet_step_none]
  | some a =>
    apply runNet_step_same (fun n => oddEvenMergeSort_GetPartner n l p)
      (fun x => getPartner_involutive x l p hp1)
    · intro c hc
      obtain ⟨_, hlow, h2⟩ := (mem_passList d l p hp1 hpl hld c).1 hc
      have hpos : 0 < 2 ^ (l - p) := Nat.two_pow_pos _
      refine ⟨by omega, ?_⟩
      show oddEvenMergeSort_GetPartner c.1 l p = c.2
      rw [getPartner_of_low c.1 l p hp1 hlow, h2]
    · intro c
      rw [mem_passList d l p hp1 hpl hld, mem_Partner_coord_iff _ _ _ hp1]

/-- On every buffer `oddEvenMergeSort_NCPasses_Branchless` does what
`oddEvenMergeSort_Partner` does, for a length `2^d`. -/
theorem Branchless_step_eq_Partner (d : Nat) (s : Option Buf) :
    oddEvenMergeSort_NCPasses_Branchless step s (2 ^ d)
      = oddEvenMergeSort_Partner step s (2 ^ d) := by
  rw [(traceable_Branchless (2 ^ d)).eq_runNet step s, Branchless_record, runNet_flatMap,
    Partner_eq_foldl, bitScanReverse_two_pow]
  apply foldl_congr_mem
  intro s l hl
  simp only [List.mem_map, List.mem_range] at hl
  obtain ⟨t, ht, rfl⟩ := hl
  unfold stageList
  rw [runNet_flatMap]
  apply foldl_congr_mem
  intro s p hp
  simp only [List.mem_map, List.mem_range] at hp
  obtain ⟨u, hu, rfl⟩ := hp
  exact passList_step_eq d (t + 1) (u + 1) (by omega) (by omega) (by omega) s

theorem Partner_sorted (d : Nat) (a : Buf) (ha : a.length = 2 ^ d) :
    ∃ b, oddEvenMergeSort_Partner step (some a) (2 ^ d) = some b ∧ b.Perm a
      ∧ isNonDecreasing b :=
  driver_sorts _ (traceable_Partner (2 ^ d)) (2 ^ d) (Partner_calls_in_range d)
    (by
      intro f i j hij hj
      have e := (traceable_Partner (2 ^ d)).eq_runNet cmpF f
      simp only at e
      rw [← e]
      exact Partner_sorts_fun d f i j hij hj)
    a ha

theorem Merge_sorted (d : Nat) (a : Buf) (ha : a.length = 2 ^ d) :
    ∃ b, oddEvenMergeSort_Merge step (some a) (2 ^ d) = some b ∧ b.Perm a
      ∧ isNonDecreasing b :=
  driver_sorts _ (traceable_Merge (2 ^ d)) (2 ^ d) (Merge_in_range d)
    (by
      intro f i j hij hj
      show runNet cmpF (oddEvenMergeSort_Merge record [] (2 ^ d)) f i
        ≤ runNet cmpF (oddEvenMergeSort_Merge record [] (2 ^ d)) f j
      rw [Merge_record]
      exact mergeStages_sorted d f i j hij hj)
    a ha

theorem Merge_r2_sorted (d : Nat) (a : Buf) (ha : a.length = 2 ^ d) :
    ∃ b, oddEvenMergeSort_Merge_with (oddEvenMerge_r2 step) (some a) (2 ^ d) = some b
      ∧ b.Perm a ∧ isNonDecreasing b :=
  driver_sorts _
    (traceable_Merge_with (M := fun lo n r _ cmp s => oddEvenMerge_r2 cmp s lo n r)
      traceable_r2 (2 ^ d)) (2 ^ d) (Merge_r2_in_range d)
    (by
      intro f i j hij hj
      show runNet cmpF (oddEvenMergeSort_Merge_with (oddEvenMerge_r2 record) [] (2 ^ d)) f i
        ≤ runNet cmpF (oddEvenMergeSort_Merge_with (oddEvenMerge_r2 record) [] (2 ^ d)) f j
      rw [Merge_r2_record]
      exact mergeStages_sorted d f i j hij hj)
    a ha

theorem Merge_r1_sorted (d : Nat) (a : Buf) (ha : a.length = 2 ^ d) :
    ∃ b, oddEvenMergeSort_Merge_with (oddEvenMerge_r1 step) (some a) (2 ^ d) = some b
      ∧ b.Perm a ∧ isNonDecreasing b :=
  driver_sorts _
    (traceable_Merge_with (M := fun lo n r _ cmp s => oddEvenMerge_r1 cmp s lo n r)
      traceable_r1 (2 ^ d)) (2 ^ d) (Merge_r1_in_range d)
    (by
      intro f i j hij hj
      show runNet cmpF (oddEvenMergeSort_Merge_with (oddEvenMerge_r1 record) [] (2 ^ d)) f i
        ≤ runNet cmpF (oddEvenMergeSort_Merge_with (oddEvenMerge_r1 record) [] (2 ^ d)) f j
      rw [Merge_r1_record]
      exact mergeStages_r1_sorted d f i j hij hj)
    a ha

set_option maxRecDepth 100000 in
/-- C18: for `N = 2^d` and every buffer of length `N`, `oddEvenMergeSort_Merge` on
`oddEvenMerge_r3`, on `oddEvenMerge_r1` and on `oddEvenMerge_r2`,
`oddEvenMergeSort_NCPasses_Branchless`, `oddEvenMergeSort_NCPasses_Branched` and
`oddEvenMergeSort_Partner` all run to their end and leave one and the same buffer `b` (the
sorted permutation of the input); yet their sequences of calls are not the same: for `N = 8`
the block-ordered one differs from the pass-ordered one and the recursive one from the
iterative one, for `N = 16` the pass-ordered one differs from the lane-ordered one. -/
theorem C18_drivers_agree (d : Nat) (a : Buf) (ha : a.length = 2 ^ d) :
    (∃ b, oddEvenMergeSort_Merge step (some a) (2 ^ d) = some b ∧
      oddEvenMergeSort_Merge_with (oddEvenMerge_r1 step) (some a) (2 ^ d) = some b ∧
      oddEvenMergeSort_Merge_with (oddEvenMerge_r2 step) (some a) (2 ^ d) = some b ∧
      oddEvenMergeSort_NCPasses_Branchless step (some a) (2 ^ d) = some b ∧
      oddEvenMergeSort_NCPasses_Branched step (some a) (2 ^ d) = some b ∧
      oddEvenMergeSort_Partner step (some a) (2 ^ d) = some b ∧
      b.Perm a ∧ isNonDecreasing b) ∧
    oddEvenMergeSort_Merge record [] 8 ≠ oddEvenMergeSort_NCPasses_Branchless record [] 8 ∧
    oddEvenMergeSort_Merge_with (oddEvenMerge_r1 record) [] 8
      ≠ oddEvenMergeSort_Merge record [] 8 ∧
    oddEvenMergeSort_NCPasses_Branchless record [] 16
      ≠ oddEvenMergeSort_Partner record [] 16 := by
  refine ⟨?_, by decide, by decide, by decide⟩
  obtain ⟨b, hb, hperm, hsorted⟩ := Partner_sorted d a ha
  obtain ⟨b3, hb3, hperm3, hsorted3⟩ := Merge_sorted d a ha
  obtain ⟨b1, hb1, hperm1, hsorted1⟩ := Merge_r1_sorted d a ha
  obtain ⟨b2, hb2, hperm2, hsorted2⟩ := Merge_r2_sorted d a ha
  have e3 : b3 = b := sorted_perm_unique b3 b (hperm3.trans hperm.symm) hsorted3 hsorted
  have e1 : b1 = b := sorted_perm_unique b1 b (hperm1.trans hperm.symm) hsorted1 hsorted
  have e2 : b2 = b := sorted_perm_unique b2 b (hperm2.trans hperm.symm) hsorted2 hsorted
  rw [e3] at hb3
  rw [e1] at hb1
  rw [e2] at hb2
  refine ⟨b, hb3, hb1, hb2, ?_, ?_, hb, hperm, hsorted⟩
  · rw [Branchless_step_eq_Partner]; exact hb
  · rw [Branched_eq_Branchless, Branchless_step_eq_Partner]; exact hb

/-- Witness of C18 on the buffer `[3, 1, 2, 0]`. -/
theorem C18_drivers_agree_witness :
    ([3, 1, 2, 0] : Buf).length = 2 ^ 2 ∧
    ((∃ b, oddEvenMergeSort_Merge step (some [3, 1, 2, 0]) (2 ^ 2) = some b ∧
      oddEvenMergeSort_Merge_with (oddEvenMerge_r1 step) (some [3, 1, 2, 0]) (2 ^ 2) = some b ∧
      oddEvenMergeSort_Merge_with (oddEvenMerge_r2 step) (some [3, 1, 2, 0]) (2 ^ 2) = some b ∧
      oddEvenMergeSort_NCPasses_Branchless step (some [3, 1, 2, 0]) (2 ^ 2) = some b ∧
      oddEvenMergeSort_NCPasses_Branched step (some [3, 1, 2, 0]) (2 ^ 2) = some b ∧
      oddEvenMergeSort_Partner step (some [3, 1, 2, 0]) (2 ^ 2) = some b ∧
      b.Perm [3, 1, 2, 0] ∧ isNonDecreasing b) ∧
    oddEvenMergeSort_Merge record [] 8 ≠ oddEvenMergeSort_NCPasses_Branchless record [] 8 ∧
    oddEvenMergeSort_Merge_with (oddEvenMerge_r1 record) [] 8
      ≠ oddEvenMergeSort_Merge record [] 8 ∧
    oddEvenMergeSort_NCPasses_Branchless record [] 16
      ≠ oddEvenMergeSort_Partner record [] 16) :=
  ⟨by decide, C18_drivers_agree 2 [3, 1, 2, 0] (by decide)⟩

/-! ## A length that is not a power of two -/

/-- For a length `N = 2^b m` with `m` odd and `m ≥ 3`, the lane `N - 2^b` has the partner `N`
at the coordinate `(b + 1, 1)`, and the driver reaches that coordinate. -/
theorem partner_out_of_range (N b : Nat) (hb : 2 ^ b ∣ N) (hb' : ¬ 2 ^ (b + 1) ∣ N)
    (hN : N ≠ 2 ^ b) (hN1 : 1 ≤ N) :
    b + 1 ≤ bitScanReverse N ∧ N - 2 ^ b < N ∧
      oddEvenMergeSort_GetPartner (N - 2 ^ b) (b + 1) 1 = N := by
  obtain ⟨m, rfl⟩ := hb
  have hpos : 0 < 2 ^ b := Nat.two_pow_pos b
  have hm_odd : m % 2 = 1 := by
    by_contra h
    apply hb'
    have h2 : 2 ∣ m := Nat.dvd_of_mod_eq_zero (by omega)
    obtain ⟨q, rfl⟩ := h2
    exact ⟨q, by rw [pow_succ]; ring⟩
  have hm3 : 3 ≤ m := by
    rcases Nat.lt_or_ge m 3 with h | h
    · exfalso
      have h1 : m = 1 := by omega
      apply hN
      rw [h1, Nat.mul_one]
    · exact h
  have hbig : 2 ^ (b + 1) < 2 ^ b * m := by
    rw [pow_succ]
    calc 2 ^ b * 2 < 2 ^ b * 3 := by omega
      _ ≤ 2 ^ b * m := Nat.mul_le_mul_left _ hm3
  refine ⟨?_, by omega, ?_⟩
  · obtain ⟨_, h2⟩ := bitScanReverse_spec (2 ^ b * m) hN1
    have hlt : 2 ^ (b + 1) < 2 ^ (bitScanReverse (2 ^ b * m) + 1) := lt_trans hbig h2
    have := (Nat.pow_lt_pow_iff_right (by decide : 1 < 2)).1 hlt
    omega
  · have hsub : 2 ^ b * m - 2 ^ b = 2 ^ b * (m - 1) := by
      rw [Nat.mul_sub, Nat.mul_one]
    rw [getPartner_eq, if_pos rfl]
    have hbox : boxPos (2 ^ b * m - 2 ^ b) (b + 1) 1 = 0 := by
      unfold boxPos
      rw [hsub, Nat.add_sub_cancel, Nat.mul_div_cancel_left _ hpos, pow_one]
      omega
    rw [if_pos hbox, Nat.add_sub_cancel]
    omega

theorem Partner_call_out_of_range (N b : Nat) (hb : 2 ^ b ∣ N) (hb' : ¬ 2 ^ (b + 1) ∣ N)
    (hN : N ≠ 2 ^ b) (hN1 : 1 ≤ N) :
    (N - 2 ^ b, N) ∈ oddEvenMergeSort_Partner_coord record [] N (b + 1) 1 ∧
      (N - 2 ^ b, N) ∈ oddEvenMergeSort_Partner record [] N := by
  obtain ⟨h1, h2, h3⟩ := partner_out_of_range N b hb hb' hN hN1
  have hmem : (N - 2 ^ b, N) ∈ oddEvenMergeSort_Partner_coord record [] N (b + 1) 1 := by
    rw [mem_Partner_coord]
    simp only
    rw [h3]
    exact ⟨h2, h2, rfl⟩
  refine ⟨hmem, ?_⟩
  rw [mem_Partner_record]
  exact ⟨b + 1, 1, le_refl 1, by omega, h1, hmem⟩

/-- A length `N ≥ 1` that is not a power of two has a lowest set bit `b` below its highest
one. -/
theorem exists_lowest_bit (N : Nat) (hN1 : 1 ≤ N) (hnp : ¬ ∃ d, N = 2 ^ d) :
    ∃ b, 2 ^ b ∣ N ∧ ¬ 2 ^ (b + 1) ∣ N ∧ N ≠ 2 ^ b := by
  obtain ⟨k, m, hm, hNe⟩ := Nat.exists_eq_two_pow_mul_odd (n := N) (by omega)
  refine ⟨k, ⟨m, hNe⟩, ?_, fun h => hnp ⟨k, h⟩⟩
  rintro ⟨q, hq⟩
  rw [hNe, pow_succ, Nat.mul_assoc] at hq
  have h2 : m = 2 * q := Nat.eq_of_mul_eq_mul_left (Nat.two_pow_pos k) hq
  rw [h2] at hm
  exact (Nat.not_odd_iff_even.2 (even_two_mul q)) hm

/-- The length 6: the driver compares index 4 with index 6, outside the six slots, and the
run on a buffer of six slots leaves the buffer. -/
theorem compare_four_six :
    ((4, 6) : Comparator) ∈ oddEvenMergeSort_Partner record [] 6 ∧
      oddEvenMergeSort_Partner step (some [6, 5, 4, 3, 2, 1]) 6 = none := by
  constructor <;> decide

/-- C20: for a length `N ≥ 1`, the calls `compare(a, i, j)` of `oddEvenMergeSort_Partner` all
have their indices in `[0, N)` if and only if `N` is a power of two.  When `N` is not one
(so `N ≥ 3`), with `b` its lowest set bit, the driver reaches the coordinate `(b + 1, 1)`,
where the lane `n = N - 2^b < N` has the partner `N`, and calls `compare(a, N - 2^b, N)`;
on a buffer of `N` slots the run leaves the buffer. -/
theorem C20_power_of_two_necessary (N : Nat) (hN : 1 ≤ N) :
    ((∀ c ∈ oddEvenMergeSort_Partner record [] N, c.1 < N ∧ c.2 < N) ↔ ∃ d, N = 2 ^ d) ∧
    (∀ b, 2 ^ b ∣ N → ¬ 2 ^ (b + 1) ∣ N → N ≠ 2 ^ b →
      b + 1 ≤ bitScanReverse N ∧ N - 2 ^ b < N ∧
      oddEvenMergeSort_GetPartner (N - 2 ^ b) (b + 1) 1 = N ∧
      (N - 2 ^ b, N) ∈ oddEvenMergeSort_Partner_coord record [] N (b + 1) 1 ∧
      (N - 2 ^ b, N) ∈ oddEvenMergeSort_Partner record [] N) ∧
    ((¬ ∃ d, N = 2 ^ d) →
      3 ≤ N ∧ (∃ b, 2 ^ b ∣ N ∧ ¬ 2 ^ (b + 1) ∣ N ∧ N ≠ 2 ^ b) ∧
      ∀ a : Buf, a.length = N → oddEvenMergeSort_Partner step (some a) N = none) := by
  refine ⟨⟨?_, ?_⟩, ?_, ?_⟩
  · intro h
    by_contra hnp
    obtain ⟨b, hb, hb', hne⟩ := exists_lowest_bit N hN hnp
    have := (h _ (Partner_call_out_of_range N b hb hb' hne hN).2).2
    simp at this
  · rintro ⟨d, rfl⟩ c hc
    obtain ⟨h1, h2⟩ := Partner_calls_in_range d c hc
    omega
  · intro b hb hb' hne
    obtain ⟨h1, h2, h3⟩ := partner_out_of_range N b hb hb' hne hN
    obtain ⟨h4, h5⟩ := Partner_call_out_of_range N b hb hb' hne hN
    exact ⟨h1, h2, h3, h4, h5⟩
  · intro hnp
    obtain ⟨b, hb, hb', hne⟩ := exists_lowest_bit N hN hnp
    refine ⟨?_, ⟨b, hb, hb', hne⟩, ?_⟩
    · by_contra h3
      have : N = 1 ∨ N = 2 := by omega
      rcases this with h | h
      · exact hnp ⟨0, by rw [h]; rfl⟩
      · exact hnp ⟨1, by rw [h]; rfl⟩
    · intro a ha
      rw [(traceable_Partner N).eq_runNet step (some a)]
      apply runNet_step_out
      refine ⟨(N - 2 ^ b, N), (Partner_call_out_of_range N b hb hb' hne hN).2, ?_⟩
      simp [ha]

/-- Witness of C20 at the length 6, whose lowest set bit is `b = 1`: lane 4 has the
partner 6. -/
theorem C20_power_of_two_necessary_witness :
    1 ≤ 6 ∧
    (((∀ c ∈ oddEvenMergeSort_Partner record [] 6, c.1 < 6 ∧ c.2 < 6) ↔ ∃ d, 6 = 2 ^ d) ∧
    (∀ b, 2 ^ b ∣ 6 → ¬ 2 ^ (b + 1) ∣ 6 → 6 ≠ 2 ^ b →
      b + 1 ≤ bitScanReverse 6 ∧ 6 - 2 ^ b < 6 ∧
      oddEvenMergeSort_GetPartner (6 - 2 ^ b) (b + 1) 1 = 6 ∧
      (6 - 2 ^ b, 6) ∈ oddEvenMergeSort_Partner_coord record [] 6 (b + 1) 1 ∧
      (6 - 2 ^ b, 6) ∈ oddEvenMergeSort_Partner record [] 6) ∧
    ((¬ ∃ d, 6 = 2 ^ d) →
      3 ≤ 6 ∧ (∃ b, 2 ^ b ∣ 6 ∧ ¬ 2 ^ (b + 1) ∣ 6 ∧ 6 ≠ 2 ^ b) ∧
      ∀ a : Buf, a.length = 6 → oddEvenMergeSort_Partner step (some a) 6 = none)) :=
  ⟨by decide, C20_power_of_two_necessary 6 (by decide)⟩

/-! ## Every length: the drivers start at once -/

/-- Loop invariant: a property of the state that every iteration keeps, the loop variable
keeping a property of its own, holds when the loop ends. -/
theorem cfor_invariant {σ : Type} (Inv : σ → Prop) (I : Nat → Prop) (cond : Nat → Bool)
    (next : Nat → Nat) (body : σ → Nat → σ)
    (hI : ∀ i, I i → cond i = true → I (next i))
    (hbody : ∀ s i, Inv s → I i → cond i = true → Inv (body s i))
    (fuel init : Nat) (s : σ) (h0 : I init) (hs : Inv s) :
    Inv (cfor fuel init cond next body s) := by
  induction fuel generalizing init s with
  | zero => exact hs
  | succ fuel ih =>
    unfold cfor
    by_cases hc : cond init = true
    · rw [if_pos hc]
      exact ih (next init) (body s init) (hI init h0 hc) (hbody s init hs h0 hc)
    · rw [if_neg hc]
      exact hs

theorem callsOrdered_record (L : List Comparator) (i j : Nat) (h : CallsOrdered L)
    (hij : i < j) : CallsOrdered (record L i j) := by
  intro c hc
  unfold record at hc
  rcases List.mem_append.1 hc with h1 | h1
  · exact h c h1
  · simp only [List.mem_singleton] at h1
    rw [h1]
    exact hij

theorem half_pos (n : Nat) (hn : 2 ≤ n) : 1 ≤ n >>> 1 := by
  rw [Nat.shiftRight_eq_div_pow]
  simp only [pow_one]
  omega

theorem r3_ordered (L : List Comparator) (lo n r : Nat) (hn : 2 ≤ n) (h : CallsOrdered L) :
    CallsOrdered (oddEvenMerge_r3 record L lo n r) := by
  unfold oddEvenMerge_r3
  have hr := half_pos n hn
  apply cfor_invariant CallsOrdered (fun _ => True)
  · intro _ _ _; trivial
  · intro s r' hs _ hc
    have hr' : 1 ≤ r' := by simpa using hc
    apply cfor_invariant CallsOrdered (fun _ => True)
    · intro _ _ _; trivial
    · intro s lo' hs _ _
      apply cfor_invariant CallsOrdered (fun _ => True)
      · intro _ _ _; trivial
      · intro s i hs _ _
        exact callsOrdered_record s i (i + r') hs (by omega)
      · trivial
      · exact hs
    · trivial
    · exact hs
  · trivial
  · apply cfor_invariant CallsOrdered (fun _ => True)
    · intro _ _ _; trivial
    · intro s lo' hs _ _
      exact callsOrdered_record s lo' (lo' + n >>> 1) hs (by omega)
    · trivial
    · exact h

/-- For every length every call of `oddEvenMergeSort_Merge` has `i < j`. -/
theorem Merge_ordered (N : Nat) : CallsOrdered (oddEvenMergeSort_Merge record [] N) := by
  unfold oddEvenMergeSort_Merge oddEvenMergeSort_Merge_with
  apply cfor_invariant CallsOrdered (fun j => 2 ≤ j)
  · intro j hj _
    show 2 ≤ j <<< 1
    rw [Nat.shiftLeft_eq]
    omega
  · intro s j hs hj _
    unfold oddEvenMergeSort_Merge_stage
    apply cfor_invariant CallsOrdered (fun _ => True)
    · intro _ _ _; trivial
    · intro s k hs _ _
      exact r3_ordered s k j 1 hj hs
    · trivial
    · exact hs
  · exact le_refl 2
  · intro c hc
    simp at hc

/-- For every length every call of `oddEvenMergeSort_NCPasses_Branchless` has `i < j`. -/
theorem Branchless_ordered (N : Nat) :
    CallsOrdered (oddEvenMergeSort_NCPasses_Branchless record [] N) := by
  unfold oddEvenMergeSort_NCPasses_Branchless
  apply cfor_invariant CallsOrdered (fun j => 2 ≤ j)
  · intro j hj _
    show 2 ≤ j <<< 1
    rw [Nat.shiftLeft_eq]
    omega
  · intro s j hs hj _
    unfold oddEvenMergeSort_NCPasses_Branchless_stage
    have hr := half_pos j hj
    apply cfor_invariant CallsOrdered (fun _ => True)
    · intro _ _ _; trivial
    · intro s r' hs _ hc
      have hr' : 1 ≤ r' := by simpa using hc
      unfold NCPasses_passR
      apply cfor_invariant CallsOrdered (fun _ => True)
      · intro _ _ _; trivial
      · intro s k hs _ _
        apply cfor_invariant CallsOrdered (fun _ => True)
        · intro _ _ _; trivial
        · intro s lo' hs _ _
          apply cfor_invariant CallsOrdered (fun _ => True)
          · intro _ _ _; trivial
          · intro s i hs _ _
            exact callsOrdered_record s i (i + r') hs (by omega)
          · trivial
          · exact hs
        · trivial
        · exact hs
      · trivial
      · exact hs
    · trivial
    · unfold NCPasses_pass0
      apply cfor_invariant CallsOrdered (fun _ => True)
      · intro _ _ _; trivial
      · intro s k hs _ _
        apply cfor_invariant CallsOrdered (fun _ => True)
        · intro _ _ _; trivial
        · intro s lo' hs _ _
          exact callsOrdered_record s lo' (lo' + j >>> 1) hs (by omega)
        · trivial
        · exact hs
      · trivial
      · exact hs
  · exact le_refl 2
  · intro c hc
    simp at hc

theorem Branched_ordered (N : Nat) :
    CallsOrdered (oddEvenMergeSort_NCPasses_Branched record [] N) := by
  rw [Branched_eq_Branchless]
  exact Branchless_ordered N

/-- For every length every call of `oddEvenMergeSort_Partner` has `i < j`. -/
theorem Partner_ordered (N : Nat) : CallsOrdered (oddEvenMergeSort_Partner record [] N) := by
  intro c hc
  obtain ⟨l, p, _, _, _, hc'⟩ := (mem_Partner_record N c).1 hc
  obtain ⟨_, h2, h3⟩ := (mem_Partner_coord N l p c).1 hc'
  omega

/-- First iteration of a loop over a piece of code that records its calls. -/
theorem cfor_record_first {P : Nat → (σ : Type) → (σ → Nat → Nat → σ) → σ → σ}
    (hP : ∀ i, Traceable (P i)) (fuel init : Nat) (cond : Nat → Bool) (next : Nat → Nat)
    (hc : cond init = true) :
    cfor (fuel + 1) init cond next (fun s i => P i _ record s) []
      = P init _ record [] ++ cfor fuel (next init) cond next (fun s i => P i _ record s) [] := by
  conv_lhs => unfold cfor
  rw [if_pos hc]
  exact (traceable_cfor fuel (next init) cond next hP).record_append (P init _ record [])

/-- For every length `N ≥ 2` the first call of `oddEvenMergeSort_Merge` is
`compare(a, 0, 1)`. -/
theorem Merge_head (N : Nat) (hN : 2 ≤ N) :
    (oddEvenMergeSort_Merge record [] N).head? = some (0, 1) := by
  obtain ⟨M, rfl⟩ : ∃ M, N = M + 1 := ⟨N - 1, by omega⟩
  have h1 : oddEvenMergeSort_Merge record [] (M + 1)
      = oddEvenMergeSort_Merge_stage (oddEvenMerge_r3 record) [] (M + 1) 2
        ++ cfor M (2 <<< 1) (fun j => decide (j ≤ M + 1)) (fun j => j <<< 1)
          (fun s j => oddEvenMergeSort_Merge_stage (oddEvenMerge_r3 record) s (M + 1) j) [] :=
    cfor_record_first
      (P := fun j _ cmp s =>
        oddEvenMergeSort_Merge_stage (fun s lo n r => oddEvenMerge_r3 cmp s lo n r) s (M + 1) j)
      (fun j => traceable_Merge_stage
        (M := fun lo n r _ cmp s => oddEvenMerge_r3 cmp s lo n r) traceable_r3 (M + 1) j)
      M 2 (fun j => decide (j ≤ M + 1)) (fun j => j <<< 1) (by simpa using hN)
  have h2 : oddEvenMergeSort_Merge_stage (oddEvenMerge_r3 record) [] (M + 1) 2
      = oddEvenMerge_r3 record [] 0 2 1
        ++ cfor M (0 + 2) (fun k => decide (k < M + 1)) (fun k => k + 2)
          (fun s k => oddEvenMerge_r3 record s k 2 1) [] :=
    cfor_record_first
      (P := fun k _ cmp s => oddEvenMerge_r3 cmp s k 2 1)
      (fun k => traceable_r3 k 2 1)
      M 0 (fun k => decide (k < M + 1)) (fun k => k + 2) (by simp)
  have h3 : oddEvenMerge_r3 record [] 0 2 1 = [(0, 1)] := by decide
  rw [h1, h2, h3]
  rfl

/-- For every length `N ≥ 2` the first call of `oddEvenMergeSort_NCPasses_Branchless` is
`compare(a, 0, 1)`. -/
theorem Branchless_head (N : Nat) (hN : 2 ≤ N) :
    (oddEvenMergeSort_NCPasses_Branchless record [] N).head? = some (0, 1) := by
  obtain ⟨M, rfl⟩ : ∃ M, N = M + 1 := ⟨N - 1, by omega⟩
  have h1 : oddEvenMergeSort_NCPasses_Branchless record [] (M + 1)
      = oddEvenMergeSort_NCPasses_Branchless_stage record [] (M + 1) 2
        ++ cfor M (2 <<< 1) (fun j => decide (j ≤ M + 1)) (fun j => j <<< 1)
          (fun s j => oddEvenMergeSort_NCPasses_Branchless_stage record s (M + 1) j) [] :=
    cfor_record_first
      (P := fun j _ cmp s => oddEvenMergeSort_NCPasses_Branchless_stage cmp s (M + 1) j)
      (fun j => traceable_Branchless_stage (M + 1) j)
      M 2 (fun j => decide (j ≤ M + 1)) (fun j => j <<< 1) (by simpa using hN)
  have h4 : oddEvenMergeSort_NCPasses_Branchless_stage record [] (M + 1) 2
      = NCPasses_pass0 record [] (M + 1) 2 1 := rfl
  have h2 : NCPasses_pass0 record [] (M + 1) 2 1
      = cfor 1 0 (fun lo => decide (lo < 0 + 1)) (fun lo => lo + 1)
          (fun s lo => record s lo (lo + 1)) []
        ++ cfor M (0 + 2) (fun k => decide (k < M + 1)) (fun k => k + 2)
          (fun s k => cfor 1 k (fun lo => decide (lo < k + 1)) (fun lo => lo + 1)
            (fun s lo => record s lo (lo + 1)) s) [] :=
    cfor_record_first
      (P := fun k _ cmp s =>
        cfor 1 k (fun lo => decide (lo < k + 1)) (fun lo => lo + 1)
          (fun s lo => cmp s lo (lo + 1)) s)
      (fun k => traceable_cfor _ _ _ _ (fun lo => traceable_cmp _ _))
      M 0 (fun k => decide (k < M + 1)) (fun k => k + 2) (by simp)
  have h3 : cfor 1 0 (fun lo => decide (lo < 0 + 1)) (fun lo => lo + 1)
      (fun s lo => record s lo (lo + 1)) [] = [(0, 1)] := by decide
  rw [h1, h4, h2, h3]
  rfl

/-- For every length `N ≥ 2` the first call of `oddEvenMergeSort_Partner` is
`compare(a, 0, 1)`. -/
theorem Partner_head (N : Nat) (hN : 2 ≤ N) :
    (oddEvenMergeSort_Partner record [] N).head? = some (0, 1) := by
  have hd : 1 ≤ bitScanReverse N := by
    obtain ⟨_, h2⟩ := bitScanReverse_spec N (by omega)
    by_contra h0
    have : bitScanReverse N = 0 := by omega
    rw [this] at h2
    simp at h2
    omega
  obtain ⟨k, hk⟩ : ∃ k, bitScanReverse N = k + 1 := ⟨bitScanReverse N - 1, by omega⟩
  obtain ⟨M, rfl⟩ : ∃ M, N = M + 1 := ⟨N - 1, by omega⟩
  rw [Partner_record, hk, List.range_succ_eq_map, List.map_cons, List.flatMap_cons]
  have h1 : ((List.range (0 + 1)).map (fun t => t + 1)).flatMap (fun p =>
      oddEvenMergeSort_Partner_coord record [] (M + 1) (0 + 1) p)
      = oddEvenMergeSort_Partner_coord record [] (M + 1) 1 1 := by
    simp [List.range_succ]
  rw [h1, Partner_coord_record, List.nil_append, List.range_succ_eq_map, List.flatMap_cons]
  have h2 : laneCalls 1 1 0 = [(0, 1)] := by decide
  rw [h2]
  rfl

theorem stepCount_snd_le (s : Option Buf × Nat) (i j : Nat) : s.2 ≤ (stepCount s i j).2 := by
  obtain ⟨o, n⟩ := s
  cases o with
  | none => exact le_refl n
  | some a =>
    simp only [stepCount]
    split_ifs
    · exact Nat.le_succ n
    · exact le_refl n
    · exact le_refl n

/-- The count of exchanges never decreases along a run. -/
theorem runNet_stepCount_mono (net : List Comparator) (s : Option Buf × Nat) :
    s.2 ≤ (runNet stepCount net s).2 := by
  induction net generalizing s with
  | nil => exact le_refl _
  | cons c rest ih =>
    rw [runNet_cons]
    exact le_trans (stepCount_snd_le s c.1 c.2) (ih _)

theorem compare_some_range (a b : Buf) (i j : Nat) (h : compare a i j = some b) :
    i < a.length ∧ j < a.length := by
  unfold compare at h
  by_cases hr : i < a.length ∧ j < a.length
  · exact hr
  · rw [dif_neg hr] at h
    exact absurd h (by simp)

/-- A call `compare(a, i, j)` with `i < j` never raises the entry of index 0. -/
theorem compare_head_le (a b : Buf) (i j : Nat) (hij : i < j) (h : compare a i j = some b) :
    view b 0 ≤ view a 0 := by
  obtain ⟨hi, hj⟩ := compare_some_range a b i j h
  obtain ⟨b', hb', _, hv⟩ := compare_view a i j hi hj
  have : b' = b := Option.some.inj (by rw [← hb', h])
  subst this
  rw [hv]
  unfold cmpF
  split
  · rename_i hgt
    simp only
    by_cases h0 : 0 = i
    · rw [if_pos h0]
      subst h0
      exact le_of_lt hgt
    · rw [if_neg h0, if_neg (by omega)]
  · exact le_refl _

/-- A run of calls with `i < j` that reaches its end never raises the entry of index 0. -/
theorem runNet_step_head_le (net : List Comparator) (hord : CallsOrdered net) (a b : Buf)
    (h : runNet step net (some a) = some b) : view b 0 ≤ view a 0 := by
  induction net generalizing a with
  | nil =>
    have : a = b := Option.some.inj h
    rw [this]
  | cons c rest ih =>
    rw [runNet_cons] at h
    have hc : c.1 < c.2 := hord c (List.mem_cons_self _ _)
    cases hcmp : compare a c.1 c.2 with
    | none =>
      have e : step (some a) c.1 c.2 = none := hcmp
      rw [e, runNet_step_none] at h
      exact absurd h (by simp)
    | some a' =>
      have e : step (some a) c.1 c.2 = some a' := hcmp
      rw [e] at h
      exact le_trans (ih (fun c' hc' => hord c' (List.mem_cons_of_mem _ hc')) a' h)
        (compare_head_le a a' c.1 c.2 hc hcmp)

/-- A run that starts with `compare(a, 0, 1)` on a buffer with `a[0] > a[1]` performs an
exchange, and when it reaches its end the entry of index 0 has decreased, all calls having
`i < j`. -/
theorem run_first_exchange (net : List Comparator) (hhead : net.head? = some (0, 1))
    (hord : CallsOrdered net) (a : Buf) (h2 : 2 ≤ a.length) (hgt : view a 1 < view a 0) :
    1 ≤ (runNet stepCount net (some a, 0)).2 ∧
      ∀ b, runNet step net (some a) = some b → view b 0 < view a 0 := by
  obtain ⟨rest, rfl⟩ : ∃ rest, net = (0, 1) :: rest := by
    cases net with
    | nil => simp at hhead
    | cons c rest =>
      simp only [List.head?_cons, Option.some.injEq] at hhead
      exact ⟨rest, by rw [hhead]⟩
  have hgt' : a[0] > a[1] := by
    rw [view_eq_getElem a 0 (by omega), view_eq_getElem a 1 (by omega)] at hgt
    exact hgt
  constructor
  · rw [runNet_cons]
    have e : stepCount (some a, 0) 0 1 = (exchange a 0 1, 1) := by
      simp only [stepCount]
      rw [dif_pos ⟨by omega, by omega⟩, if_pos hgt']
    show 1 ≤ (runNet stepCount rest (stepCount (some a, 0) 0 1)).2
    rw [e]
    exact runNet_stepCount_mono rest (exchange a 0 1, 1)
  · intro b hb
    rw [runNet_cons] at hb
    cases hcmp : compare a 0 1 with
    | none =>
      have e : step (some a) 0 1 = none := hcmp
      rw [show step (some a) ((0, 1) : Comparator).1 ((0, 1) : Comparator).2
        = step (some a) 0 1 from rfl, e, runNet_step_none] at hb
      exact absurd hb (by simp)
    | some a' =>
      have e : step (some a) 0 1 = some a' := hcmp
      rw [show step (some a) ((0, 1) : Comparator).1 ((0, 1) : Comparator).2
        = step (some a) 0 1 from rfl, e] at hb
      have h1 := runNet_step_head_le rest
        (fun c' hc' => hord c' (List.mem_cons_of_mem _ hc')) a' b hb
      obtain ⟨b', hb', _, hv⟩ := compare_view a 0 1 (by omega) (by omega)
      have : b' = a' := Option.some.inj (by rw [← hb', hcmp])
      subst this
      have h0 : view b' 0 = view a 1 := by
        rw [hv]
        unfold cmpF
        rw [if_pos (show view a 0 > view a 1 from hgt)]
        rfl
      omega

/-- What a driver that starts with `compare(a, 0, 1)` and makes all its calls with `i < j`
does on a buffer with `a[0] > a[1]`. -/
theorem driver_first_exchange (P : (σ : Type) → (σ → Nat → Nat → σ) → σ → σ) (hP : Traceable P)
    (hhead : (P _ record []).head? = some (0, 1)) (hord : CallsOrdered (P _ record []))
    (a : Buf) (h2 : 2 ≤ a.length) (hgt : view a 1 < view a 0) :
    1 ≤ (P _ stepCount (some a, 0)).2 ∧ ∀ b, P _ step (some a) = some b → view b 0 < view a 0 := by
  rw [hP.eq_runNet stepCount (some a, 0), hP.eq_runNet step (some a)]
  exact run_first_exchange _ hhead hord a h2 hgt

/-- C8, amended: no entry point checks the length, and none rejects a call.  For every
length `N ≥ 2`, a power of two or not, each of `oddEvenMergeSort_Merge`,
`oddEvenMergeSort_NCPasses_Branchless`, `oddEvenMergeSort_NCPasses_Branched` and
`oddEvenMergeSort_Partner` starts work at once: its first call is `compare(a, 0, 1)`, and
all its calls have `i < j`; so on a buffer of at least two slots with `a[0] > a[1]` it
performs at least one exchange, and whenever it returns, the buffer it leaves is not the
one it was given: the entry of index 0 has decreased.  For the length 0
`oddEvenMergeSort_Merge` and `oddEvenMergeSort_NCPasses_*` make no call and return with the
buffer unmodified. -/
theorem C8_no_size_check (N : Nat) (hN : 2 ≤ N) (a : Buf) (h2 : 2 ≤ a.length)
    (hgt : view a 1 < view a 0) :
    ((oddEvenMergeSort_Merge record [] N).head? = some (0, 1) ∧
      CallsOrdered (oddEvenMergeSort_Merge record [] N) ∧
      1 ≤ (oddEvenMergeSort_Merge stepCount (some a, 0) N).2 ∧
      ∀ b, oddEvenMergeSort_Merge step (some a) N = some b → view b 0 < view a 0) ∧
    ((oddEvenMergeSort_NCPasses_Branchless record [] N).head? = some (0, 1) ∧
      CallsOrdered (oddEvenMergeSort_NCPasses_Branchless record [] N) ∧
      1 ≤ (oddEvenMergeSort_NCPasses_Branchless stepCount (some a, 0) N).2 ∧
      ∀ b, oddEvenMergeSort_NCPasses_Branchless step (some a) N = some b →
        view b 0 < view a 0) ∧
    ((oddEvenMergeSort_NCPasses_Branched record [] N).head? = some (0, 1) ∧
      CallsOrdered (oddEvenMergeSort_NCPasses_Branched record [] N) ∧
      1 ≤ (oddEvenMergeSort_NCPasses_Branched stepCount (some a, 0) N).2 ∧
      ∀ b, oddEvenMergeSort_NCPasses_Branched step (some a) N = some b →
        view b 0 < view a 0) ∧
    ((oddEvenMergeSort_Partner record [] N).head? = some (0, 1) ∧
      CallsOrdered (oddEvenMergeSort_Partner record [] N) ∧
      1 ≤ (oddEvenMergeSort_Partner stepCount (some a, 0) N).2 ∧
      ∀ b, oddEvenMergeSort_Partner step (some a) N = some b → view b 0 < view a 0) ∧
    (oddEvenMergeSort_Merge record [] 0 = [] ∧
      oddEvenMergeSort_NCPasses_Branchless record [] 0 = [] ∧
      oddEvenMergeSort_NCPasses_Branched record [] 0 = [] ∧
      ∀ a0 : Buf, oddEvenMergeSort_Merge step (some a0) 0 = some a0 ∧
        oddEvenMergeSort_NCPasses_Branchless step (some a0) 0 = some a0 ∧
        oddEvenMergeSort_NCPasses_Branched step (some a0) 0 = some a0) := by
  have hBd : (oddEvenMergeSort_NCPasses_Branched record [] N).head? = some (0, 1) := by
    rw [Branched_eq_Branchless]
    exact Branchless_head N hN
  have hM := driver_first_exchange _ (traceable_Merge N) (Merge_head N hN) (Merge_ordered N)
    a h2 hgt
  have hBl := driver_first_exchange _ (traceable_Branchless N) (Branchless_head N hN)
    (Branchless_ordered N) a h2 hgt
  have hBr := driver_first_exchange _ (traceable_Branched N) hBd (Branched_ordered N) a h2 hgt
  have hP := driver_first_exchange _ (traceable_Partner N) (Partner_head N hN)
    (Partner_ordered N) a h2 hgt
  exact ⟨⟨Merge_head N hN, Merge_ordered N, hM.1, hM.2⟩,
    ⟨Branchless_head N hN, Branchless_ordered N, hBl.1, hBl.2⟩,
    ⟨hBd, Branched_ordered N, hBr.1, hBr.2⟩,
    ⟨Partner_head N hN, Partner_ordered N, hP.1, hP.2⟩,
    rfl, rfl, rfl, fun _ => ⟨rfl, rfl, rfl⟩⟩

/-- Witness of C8, amended, at the invalid length 6 on the buffer of eight slots
`[2, 1, 4, 3, 6, 5, 8, 7]`. -/
theorem C8_no_size_check_witness :
    (2 ≤ 6 ∧ 2 ≤ ([2, 1, 4, 3, 6, 5, 8, 7] : Buf).length
      ∧ view [2, 1, 4, 3, 6, 5, 8, 7] 1 < view [2, 1, 4, 3, 6, 5, 8, 7] 0) ∧
    (((oddEvenMergeSort_Merge record [] 6).head? = some (0, 1) ∧
      CallsOrdered (oddEvenMergeSort_Merge record [] 6) ∧
      1 ≤ (oddEvenMergeSort_Merge stepCount (some [2, 1, 4, 3, 6, 5, 8, 7], 0) 6).2 ∧
      ∀ b, oddEvenMergeSort_Merge step (some [2, 1, 4, 3, 6, 5, 8, 7]) 6 = some b →
        view b 0 < view [2, 1, 4, 3, 6, 5, 8, 7] 0) ∧
    ((oddEvenMergeSort_NCPasses_Branchless record [] 6).head? = some (0, 1) ∧
      CallsOrdered (oddEvenMergeSort_NCPasses_Branchless record [] 6) ∧
      1 ≤ (oddEvenMergeSort_NCPasses_Branchless stepCount
        (some [2, 1, 4, 3, 6, 5, 8, 7], 0) 6).2 ∧
      ∀ b, oddEvenMergeSort_NCPasses_Branchless step (some [2, 1, 4, 3, 6, 5, 8, 7]) 6
        = some b → view b 0 < view [2, 1, 4, 3, 6, 5, 8, 7] 0) ∧
    ((oddEvenMergeSort_NCPasses_Branched record [] 6).head? = some (0, 1) ∧
      CallsOrdered (oddEvenMergeSort_NCPasses_Branched record [] 6) ∧
      1 ≤ (oddEvenMergeSort_NCPasses_Branched stepCount
        (some [2, 1, 4, 3, 6, 5, 8, 7], 0) 6).2 ∧
      ∀ b, oddEvenMergeSort_NCPasses_Branched step (some [2, 1, 4, 3, 6, 5, 8, 7]) 6
        = some b → view b 0 < view [2, 1, 4, 3, 6, 5, 8, 7] 0) ∧
    ((oddEvenMergeSort_Partner record [] 6).head? = some (0, 1) ∧
      CallsOrdered (oddEvenMergeSort_Partner record [] 6) ∧
      1 ≤ (oddEvenMergeSort_Partner stepCount (some [2, 1, 4, 3, 6, 5, 8, 7], 0) 6).2 ∧
      ∀ b, oddEvenMergeSort_Partner step (some [2, 1, 4, 3, 6, 5, 8, 7]) 6 = some b →
        view b 0 < view [2, 1, 4, 3, 6, 5, 8, 7] 0) ∧
    (oddEvenMergeSort_Merge record [] 0 = [] ∧
      oddEvenMergeSort_NCPasses_Branchless record [] 0 = [] ∧
      oddEvenMergeSort_NCPasses_Branched record [] 0 = [] ∧
      ∀ a0 : Buf, oddEvenMergeSort_Merge step (some a0) 0 = some a0 ∧
        oddEvenMergeSort_NCPasses_Branchless step (some a0) 0 = some a0 ∧
        oddEvenMergeSort_NCPasses_Branched step (some a0) 0 = some a0)) :=
  ⟨by decide, C8_no_size_check 6 (by decide) [2, 1, 4, 3, 6, 5, 8, 7] (by decide) (by decide)⟩

end Batcher
